import Mathlib

/-!
Verification development for the chainrule automatic-differentiation engine.

The Rust sources are shallowly embedded:
* dense n-dimensional arrays (the ndarray backend) become the structure
  Tensor: a shape together with row-major flat data.  The backend stores
  IEEE floats; the embedding uses exact rationals, on which every value
  appearing in the claims is exactly representable.  The two transcendental
  scalar functions of the backend (exp and ln, out of scope per the spec)
  are parameters of the evaluator (ScalarFns).
* the operation catalog becomes the inductive type Op, with Op.eval
  (forward semantics, panics become Option.none) and Op.vjp (graph-extending
  backward rule) translated clause by clause from the Rust impls.
* Graph, Context, TraceSession command traces, TraceableFn.run and
  TraceableFn.grad are translated from graph.rs, context.rs, session.rs and
  tracing/function.rs.
-/

attribute [local semireducible] Rat.add Rat.sub Rat.mul Rat.inv

namespace Chainrule

/-- Value identifier issued by the identity allocator (identity.rs wraps a
usize; the embedding uses Nat). -/
abbrev Id := Nat

/-- Dense n-dimensional array: a shape and row-major flat data, the layout
ndarray uses for owned arrays.  Scalars are exact rationals standing in for
the f32/f64 element type fixed per function instance. -/
structure Tensor where
  shape : List Nat
  data : List ℚ
deriving DecidableEq, Repr

/-- Row-major flat position of a multi-index inside a shape. -/
def flatIndex (shape idx : List Nat) : Nat :=
  (shape.zip idx).foldl (fun acc p => acc * p.1 + p.2) 0

/-- Decode a row-major flat position into a multi-index. -/
def decode : List Nat → Nat → List Nat
  | [], _ => []
  | _ :: s, p => (p / s.prod) :: decode s (p % s.prod)

/-- Multi-index validity: same rank, and every coordinate below its dimension. -/
def IdxOk (shape idx : List Nat) : Prop := List.Forall₂ (fun i n => i < n) idx shape

/-- Read one element of a tensor at a multi-index (out-of-range reads give 0;
they never occur on the well-formed tensors the theorems speak about). -/
def Tensor.get (t : Tensor) (idx : List Nat) : ℚ :=
  t.data.getD (flatIndex t.shape idx) 0

/-- Build a tensor of a given shape from an entry function (row-major). -/
def Tensor.ofFn (shape : List Nat) (f : List Nat → ℚ) : Tensor :=
  ⟨shape, (List.range shape.prod).map (fun p => f (decode shape p))⟩

/-- Well-formedness: the flat data has exactly one entry per index. -/
def Tensor.wf (t : Tensor) : Prop := t.data.length = t.shape.prod

/-- 0-dimensional tensor holding one scalar (ndarray arr0). -/
def arr0 (v : ℚ) : Tensor := ⟨[], [v]⟩

/-- Elementwise map over a tensor (ndarray mapv). -/
def Tensor.map (t : Tensor) (f : ℚ → ℚ) : Tensor := ⟨t.shape, t.data.map f⟩

/-- Sum of all stored elements (ndarray sum). -/
def Tensor.sumAll (t : Tensor) : ℚ := t.data.sum

/-- Insert an element at a position of a list (Vec::insert / insert_axis). -/
def insertAt (n : Nat) (a : α) (l : List α) : List α :=
  l.take n ++ a :: l.drop n

/-- Swap two positions of a list. -/
def listSwap (l : List Nat) (i j : Nat) : List Nat :=
  (l.set i (l.getD j 0)).set j (l.getD i 0)

/-- NumPy-style broadcast compatibility of a source shape with a target shape:
the target has at least the source rank and every trailing-aligned source axis
equals the target axis or is 1 (ndarray ArrayBase::broadcast). -/
def bcCompat (src target : List Nat) : Bool :=
  src.length ≤ target.length &&
    (List.zip src.reverse target.reverse).all (fun p => p.1 == p.2 || p.1 == 1)

/-- Source multi-index that a broadcast output index reads from: drop the
leading extra axes, and clamp coordinates of stretched size-1 axes to 0. -/
def bcIdx (src target idx : List Nat) : List Nat :=
  List.zipWith (fun n i => if n = 1 then 0 else i)
    src (idx.drop (target.length - src.length))

/-- Broadcast a tensor to a target shape, or none when incompatible
(ndarray ArrayBase::broadcast returning None / an expect panic). -/
def Tensor.broadcastTo (t : Tensor) (target : List Nat) : Option Tensor :=
  if bcCompat t.shape target then
    some (Tensor.ofFn target (fun idx => t.get (bcIdx t.shape target idx)))
  else none

/-- Combined broadcast shape of two operand shapes, aligned from the trailing
axis: equal axes kept, a size-1 axis stretched to the other, anything else
incompatible.  Translation of broadcast_shapes in ops/mod.rs, which is also
the co-broadcasting rule ndarray applies to elementwise arithmetic. -/
def broadcastShapes (a b : List Nat) : Option (List Nat) :=
  let n := max a.length b.length
  let dims := (List.range n).mapM (fun i =>
    let dimA := (a.getD (a.length - (i + 1)) 1)
    let dimB := (b.getD (b.length - (i + 1)) 1)
    let dimA := if a.length < i + 1 then 1 else dimA
    let dimB := if b.length < i + 1 then 1 else dimB
    if dimA = dimB || dimA = 1 then some dimB
    else if dimB = 1 then some dimA
    else none)
  dims.map List.reverse

/-- Elementwise binary operation with ndarray co-broadcasting; none models
the shape-mismatch panic. -/
def Tensor.ew (f : ℚ → ℚ → ℚ) (x y : Tensor) : Option Tensor := do
  let s ← broadcastShapes x.shape y.shape
  let xb ← x.broadcastTo s
  let yb ← y.broadcastTo s
  pure (Tensor.ofFn s (fun idx => f (xb.get idx) (yb.get idx)))

/-- Reduce one axis by addition, removing it (ndarray sum_axis). -/
def Tensor.sumAxis (t : Tensor) (a : Nat) : Option Tensor :=
  if a < t.shape.length then
    some (Tensor.ofFn (t.shape.eraseIdx a)
      (fun idx =>
        ((List.range (t.shape.getD a 0)).map
          (fun k => t.get (insertAt a k idx))).sum))
  else none

/-- Reinsert a removed axis as size 1 (ndarray insert_axis); the row-major
data is unchanged. -/
def Tensor.insertAxis (t : Tensor) (a : Nat) : Tensor :=
  ⟨insertAt a 1 t.shape, t.data⟩

/-- Running maximum of a lane.  The source seeds the fold with IEEE negative
infinity, which has no exact-arithmetic counterpart; on a nonempty lane the
two folds agree (the seed loses the first comparison), and on an empty lane
the result is left undefined here. -/
def maxLane : List ℚ → Option ℚ
  | [] => none
  | x :: xs => some (xs.foldl (fun acc v => if acc > v then acc else v) x)

/-- Reduce one axis by a running maximum, removing it (ndarray fold_axis as
used by Max::eval). -/
def Tensor.maxAxis (t : Tensor) (a : Nat) : Option Tensor :=
  if a < t.shape.length then do
    let entries ← (List.range (t.shape.eraseIdx a).prod).mapM
      (fun p =>
        maxLane ((List.range (t.shape.getD a 0)).map
          (fun k => t.get (insertAt a k (decode (t.shape.eraseIdx a) p)))))
    pure ⟨t.shape.eraseIdx a, entries⟩
  else none

/-- Reshape to a target shape when the element count is preserved, keeping
the row-major data (ndarray to_shape on standard-layout arrays); none models
the element-count-mismatch panic. -/
def Tensor.toShape (t : Tensor) (target : List Nat) : Option Tensor :=
  if t.shape.prod = target.prod then some ⟨target, t.data⟩ else none

/-- Swap two axes (ndarray swap_axes), materialized row-major. -/
def Tensor.swapAxes (t : Tensor) (a1 a2 : Nat) : Option Tensor :=
  if a1 < t.shape.length && a2 < t.shape.length then
    some (Tensor.ofFn (listSwap t.shape a1 a2)
      (fun idx => t.get (listSwap idx a1 a2)))
  else none

/-- Dot product of equal-length data lists. -/
def dotQ (a b : List ℚ) : ℚ := (List.zipWith (· * ·) a b).sum

/-- Batched matrix multiply for ranks above 2 (batched_matmul in matmul.rs):
inner dimensions must match, batch dimensions co-broadcast, then one 2-D
multiply per batch slice. -/
def batchedMatmul (a b : Tensor) : Option Tensor :=
  if a.shape.length < 2 || b.shape.length < 2 then none
  else
    let m := a.shape.getD (a.shape.length - 2) 0
    let k1 := a.shape.getD (a.shape.length - 1) 0
    let k2 := b.shape.getD (b.shape.length - 2) 0
    let n := b.shape.getD (b.shape.length - 1) 0
    if k1 ≠ k2 then none
    else do
      let batch ← broadcastShapes (a.shape.take (a.shape.length - 2))
        (b.shape.take (b.shape.length - 2))
      let abc ← a.broadcastTo (batch ++ [m, k1])
      let bbc ← b.broadcastTo (batch ++ [k2, n])
      pure (Tensor.ofFn (batch ++ [m, n]) (fun idx =>
        let ib := idx.take batch.length
        let i := idx.getD batch.length 0
        let j := idx.getD (batch.length + 1) 0
        ((List.range k1).map (fun k =>
          abc.get (ib ++ [i, k]) * bbc.get (ib ++ [k, j]))).sum))

/-- Forward matrix multiply, dispatching on operand ranks exactly as the free
function matmul in matmul.rs: scalar falls back to elementwise, 1-1 is a dot
product, 1-2 and 2-1 are matrix-vector products, 2-2 is the 2-D multiply, and
anything else is the batched multiply.  Assertion failures become none. -/
def Tensor.matmul (a b : Tensor) : Option Tensor :=
  match a.shape.length, b.shape.length with
  | 0, _ => Tensor.ew (· * ·) a b
  | _, 0 => Tensor.ew (· * ·) a b
  | 1, 1 =>
    if a.shape.getD 0 0 = b.shape.getD 0 0 then
      some ⟨[], [dotQ a.data b.data]⟩
    else none
  | 1, 2 =>
    let n := a.shape.getD 0 0
    let m := b.shape.getD 1 0
    if n = b.shape.getD 0 0 then
      some (Tensor.ofFn [m] (fun idx =>
        ((List.range n).map (fun k =>
          a.get [k] * b.get [k, idx.getD 0 0])).sum))
    else none
  | 2, 1 =>
    let n := b.shape.getD 0 0
    let m := a.shape.getD 0 0
    if n = a.shape.getD 1 0 then
      some (Tensor.ofFn [m] (fun idx =>
        ((List.range n).map (fun k =>
          a.get [idx.getD 0 0, k] * b.get [k])).sum))
    else none
  | 2, 2 =>
    let m := a.shape.getD 0 0
    let k1 := a.shape.getD 1 0
    let n := b.shape.getD 1 0
    if k1 = b.shape.getD 0 0 then
      some (Tensor.ofFn [m, n] (fun idx =>
        ((List.range k1).map (fun k =>
          a.get [idx.getD 0 0, k] * b.get [k, idx.getD 1 0])).sum))
    else none
  | _, _ => batchedMatmul a b

/-- Insertion step for a descending sort. -/
def insertDesc (a : Nat) : List Nat → List Nat
  | [] => [a]
  | b :: l => if a ≤ b then b :: insertDesc a l else a :: b :: l

/-- Sort a list of axes in descending order (axis.sort_unstable_by(|a,b|
b.cmp(a)) in the Sum/Mean/Max constructors). -/
def sortDesc (l : List Nat) : List Nat := l.foldr insertDesc []

/-- Insertion step for an ascending sort. -/
def insertAsc (a : Nat) : List Nat → List Nat
  | [] => [a]
  | b :: l => if b ≤ a then b :: insertAsc a l else a :: b :: l

/-- Sort a list of axes in ascending order (sort_unstable in
ReshapeForBroadcast::eval). -/
def sortAsc (l : List Nat) : List Nat := l.foldr insertAsc []

/-- Zip two lists keeping the unmatched tail of either side, as itertools
zip_longest does. -/
inductive EOB (α β : Type) where
  | both (a : α) (b : β)
  | left (a : α)
  | right (b : β)

/-- Translation of itertools zip_longest. -/
def zipLongest : List α → List β → List (EOB α β)
  | [], bs => bs.map .right
  | a :: as_, [] => .left a :: zipLongest as_ []
  | a :: as_, b :: bs => .both a b :: zipLongest as_ bs

/-- One step of the ReduceToLike fold over the reversed shape pairs: a leading
source axis with no counterpart is summed away; an aligned pair with equal
dimensions is untouched; an aligned pair whose reference dimension is 1 is
summed and reinserted as size 1; anything else panics. -/
def reduceStep (acc : Option Tensor) (e : EOB (Nat × Nat) Nat) : Option Tensor := do
  let t ← acc
  match e with
  | .left p => t.sumAxis p.1
  | .both p b =>
    if p.2 = b then pure t
    else if b = 1 then do
      let s ← t.sumAxis p.1
      pure (s.insertAxis p.1)
    else none
  | .right _ => none

/-- Forward semantics of ReduceToLike (ReduceToLike::eval in ops/sum.rs):
collapse the input down to the runtime shape of the reference tensor.  The
early equal-shape return, the rank assertion, the fold over the reversed
enumerated shapes zipped longest with the reversed reference shape, and the
final shape assertion are translated in order; every panic becomes none. -/
def reduceToLikeEval (t like : Tensor) : Option Tensor :=
  if t.shape = like.shape then some t
  else if t.shape.length < like.shape.length then none
  else do
    let r ← (zipLongest t.shape.enum.reverse like.shape.reverse).foldl
      reduceStep (some t)
    if r.shape = like.shape then pure r else none

/-- Forward semantics of ReshapeForBroadcast (ops/sum.rs): when keep_dims was
set or the reduction was total the gradient passes through; otherwise size-1
axes are inserted at the reduced positions (in ascending order) and the data
is reshaped to that intermediate shape. -/
def reshapeForBroadcastEval (t : Tensor) (axis : List Nat) (keepDims : Bool) :
    Option Tensor :=
  if keepDims || axis.isEmpty then some t
  else do
    let inter ← (sortAsc axis).foldlM
      (fun (s : List Nat) a => if a ≤ s.length then some (insertAt a 1 s) else none)
      t.shape
    t.toShape inter

/-- The closed primitive catalog (ops/), one constructor per operation kind,
with the identifier and static-parameter fields of the Rust structs in
declaration order. -/
inductive Op where
  | input (out : Id)
  | const (value : ℚ) (out : Id)
  | add (lhs rhs out : Id)
  | sub (lhs rhs out : Id)
  | mul (lhs rhs out : Id)
  | div (lhs rhs out : Id)
  | neg (inp out : Id)
  | matmul (lhs rhs out : Id)
  | transposeDefault (inp out : Id)
  | transpose (inp out : Id) (a1 a2 : Nat)
  | reshape (inp out : Id) (target : List Nat)
  | reshapeLike (inp out like : Id)
  | broadcast (inp out : Id) (target : List Nat)
  | broadcastLike (inp like out : Id)
  | sum (inp out : Id) (axis : List Nat) (keepDims : Bool)
  | reduceToLike (inp like out : Id)
  | reshapeForBroadcast (inpGrad out : Id) (axis : List Nat) (keepDims : Bool)
  | mean (inp out : Id) (axis : List Nat) (keepDims : Bool)
  | max (inp out : Id) (axis : List Nat) (keepDims : Bool)
  | maxGradMask (x y out : Id)
  | relu (inp out : Id)
  | reluGradMask (inp out : Id)
  | exp (inp out : Id)
  | log (inp out : Id)
deriving DecidableEq, Repr

/-- Sum::new: the axis list is stored sorted in descending order so that
removing a dimension never invalidates a not-yet-processed axis index. -/
def mkSum (inp out : Id) (axis : List Nat) (keepDims : Bool) : Op :=
  .sum inp out (sortDesc axis) keepDims

/-- Mean::new sorts the axis list in descending order. -/
def mkMean (inp out : Id) (axis : List Nat) (keepDims : Bool) : Op :=
  .mean inp out (sortDesc axis) keepDims

/-- Max::new sorts the axis list in descending order. -/
def mkMax (inp out : Id) (axis : List Nat) (keepDims : Bool) : Op :=
  .max inp out (sortDesc axis) keepDims

/-- Declared input identifiers of an operation record (the inputs() methods). -/
def Op.inputs : Op → List Id
  | .input _ => []
  | .const _ _ => []
  | .add l r _ => [l, r]
  | .sub l r _ => [l, r]
  | .mul l r _ => [l, r]
  | .div l r _ => [l, r]
  | .neg i _ => [i]
  | .matmul l r _ => [l, r]
  | .transposeDefault i _ => [i]
  | .transpose i _ _ _ => [i]
  | .reshape i _ _ => [i]
  | .reshapeLike i _ lk => [i, lk]
  | .broadcast i _ _ => [i]
  | .broadcastLike i lk _ => [i, lk]
  | .sum i _ _ _ => [i]
  | .reduceToLike i lk _ => [i, lk]
  | .reshapeForBroadcast i _ _ _ => [i]
  | .mean i _ _ _ => [i]
  | .max i _ _ _ => [i]
  | .maxGradMask x y _ => [x, y]
  | .relu i _ => [i]
  | .reluGradMask i _ => [i]
  | .exp i _ => [i]
  | .log i _ => [i]

/-- Declared output identifiers of an operation record (the outputs()
methods); every primitive has exactly one. -/
def Op.outputs : Op → List Id
  | .input o => [o]
  | .const _ o => [o]
  | .add _ _ o => [o]
  | .sub _ _ o => [o]
  | .mul _ _ o => [o]
  | .div _ _ o => [o]
  | .neg _ o => [o]
  | .matmul _ _ o => [o]
  | .transposeDefault _ o => [o]
  | .transpose _ o _ _ => [o]
  | .reshape _ o _ => [o]
  | .reshapeLike _ o _ => [o]
  | .broadcast _ o _ => [o]
  | .broadcastLike _ _ o => [o]
  | .sum _ o _ _ => [o]
  | .reduceToLike _ _ o => [o]
  | .reshapeForBroadcast _ o _ _ => [o]
  | .mean _ o _ _ => [o]
  | .max _ o _ _ => [o]
  | .maxGradMask _ _ o => [o]
  | .relu _ o => [o]
  | .reluGradMask _ o => [o]
  | .exp _ o => [o]
  | .log _ o => [o]

/-- Per-evaluation mapping from identifier to concrete tensor value
(context.rs); modeled as an association list whose most recent insertion
wins, matching the overwrite semantics of the HashMap. -/
def Context := List (Id × Tensor)

/-- Fresh empty context. -/
def Context.new : Context := []

/-- Store a tensor under an identifier (overwrite semantics). -/
def Context.insert (c : Context) (i : Id) (t : Tensor) : Context := (i, t) :: c

/-- Look up an identifier; none models the checked_get panic on a missing
binding. -/
def Context.get : Context → Id → Option Tensor
  | [], _ => none
  | (j, t) :: rest, i => if i = j then some t else Context.get rest i

/-- The two transcendental scalar functions of the numeric backend
(num_traits Float exp and ln), which the spec places out of scope; the
evaluator is parameterized by them. -/
structure ScalarFns where
  exp : ℚ → ℚ
  ln : ℚ → ℚ

/-- Forward evaluation of one operation record (the eval methods): read the
input identifiers from the context (none when absent), compute via the
backend, insert the output.  Shape panics of the backend become none. -/
def Op.eval (sf : ScalarFns) (op : Op) (ctx : Context) : Option Context :=
  match op with
  | .input _ => some ctx
  | .const v o => some (ctx.insert o (arr0 v))
  | .add l r o => do
    let x ← ctx.get l
    let y ← ctx.get r
    let z ← Tensor.ew (· + ·) x y
    pure (ctx.insert o z)
  | .sub l r o => do
    let x ← ctx.get l
    let y ← ctx.get r
    let z ← Tensor.ew (· - ·) x y
    pure (ctx.insert o z)
  | .mul l r o => do
    let x ← ctx.get l
    let y ← ctx.get r
    let z ← Tensor.ew (· * ·) x y
    pure (ctx.insert o z)
  | .div l r o => do
    let x ← ctx.get l
    let y ← ctx.get r
    let z ← Tensor.ew (· / ·) x y
    pure (ctx.insert o z)
  | .neg i o => do
    let x ← ctx.get i
    pure (ctx.insert o (x.map (fun a => -a)))
  | .matmul l r o => do
    let x ← ctx.get l
    let y ← ctx.get r
    let z ← Tensor.matmul x y
    pure (ctx.insert o z)
  | .transposeDefault i o => do
    let x ← ctx.get i
    if x.shape.length > 1 then do
      let y ← x.swapAxes (x.shape.length - 1) (x.shape.length - 2)
      pure (ctx.insert o y)
    else pure (ctx.insert o x)
  | .transpose i o a1 a2 => do
    let x ← ctx.get i
    let y ← x.swapAxes a1 a2
    pure (ctx.insert o y)
  | .reshape i o target => do
    let x ← ctx.get i
    let y ← x.toShape target
    pure (ctx.insert o y)
  | .reshapeLike i o lk => do
    let x ← ctx.get i
    let like ← ctx.get lk
    let y ← x.toShape like.shape
    pure (ctx.insert o y)
  | .broadcast i o target => do
    let x ← ctx.get i
    let y ← x.broadcastTo target
    pure (ctx.insert o y)
  | .broadcastLike i lk o => do
    let x ← ctx.get i
    let like ← ctx.get lk
    let y ← x.broadcastTo like.shape
    pure (ctx.insert o y)
  | .sum i o axis keepDims => do
    let x ← ctx.get i
    if axis.isEmpty then
      pure (ctx.insert o (arr0 x.sumAll))
    else do
      let y ← axis.foldlM (fun (t : Tensor) a => do
        let s ← t.sumAxis a
        pure (if keepDims then s.insertAxis a else s)) x
      pure (ctx.insert o y)
  | .reduceToLike i lk o => do
    let x ← ctx.get i
    let like ← ctx.get lk
    let y ← reduceToLikeEval x like
    pure (ctx.insert o y)
  | .reshapeForBroadcast i o axis keepDims => do
    let x ← ctx.get i
    let y ← reshapeForBroadcastEval x axis keepDims
    pure (ctx.insert o y)
  | .mean i o axis keepDims => do
    let x ← ctx.get i
    let y ← axis.foldlM (fun (t : Tensor) a => do
      let s ← t.sumAxis a
      pure (if keepDims then s.insertAxis a else s)) x
    let dims ← axis.mapM (fun a => x.shape.get? a)
    let denom : ℚ := (dims.map (fun d => (d : ℚ))).prod
    pure (ctx.insert o (y.map (fun v => v / denom)))
  | .max i o axis keepDims => do
    let x ← ctx.get i
    let y ← axis.foldlM (fun (t : Tensor) a => do
      let s ← t.maxAxis a
      pure (if keepDims then s.insertAxis a else s)) x
    pure (ctx.insert o y)
  | .maxGradMask xi yi o => do
    let x ← ctx.get xi
    let y ← ctx.get yi
    if x.shape = y.shape then
      pure (ctx.insert o ⟨x.shape, List.zipWith
        (fun a b => if a = b then (1 : ℚ) else 0) x.data y.data⟩)
    else none
  | .relu i o => do
    let x ← ctx.get i
    pure (ctx.insert o (x.map (fun a => if a > 0 then a else 0)))
  | .reluGradMask i o => do
    let x ← ctx.get i
    pure (ctx.insert o (x.map (fun a => if a > 0 then (1 : ℚ) else 0)))
  | .exp i o => do
    let x ← ctx.get i
    pure (ctx.insert o (x.map sf.exp))
  | .log i o => do
    let x ← ctx.get i
    pure (ctx.insert o (x.map sf.ln))

/-- Append-only computation graph with its embedded identifier allocator
(graph.rs with the FreeList generator of identity.rs: pop the free list when
nonempty, else increment a monotonic counter; nothing in the system ever
calls release, so the free list stays empty). -/
structure Graph where
  nodes : List Op
  counter : Nat
  freelist : List Nat
deriving DecidableEq, Repr

/-- Empty graph with a fresh allocator. -/
def Graph.new : Graph := ⟨[], 0, []⟩

/-- Issue an unused identifier (FreeList::fresh). -/
def Graph.fresh (g : Graph) : Id × Graph :=
  match g.freelist with
  | i :: rest => (i, { g with freelist := rest })
  | [] => (g.counter + 1, { g with counter := g.counter + 1 })

/-- Append an operation record (Graph::push). -/
def Graph.push (g : Graph) (op : Op) : Graph :=
  { g with nodes := g.nodes ++ [op] }

/-- Symbolic vector-Jacobian product of one operation record (the vjp
methods, translated clause by clause): given the gradients accumulated for
the outputs, append helper nodes to the graph and return one gradient
identifier per declared input, or none when no gradient flows.  Every
implementation reads out_grads.first()?, except Neg which indexes
out_grads[0] and so panics on an empty slice; the backward walk only calls
vjp with a nonempty gradient list, and the empty case is modeled as none. -/
def Op.vjp (op : Op) (g : Graph) (outGrads : List Id) :
    Option (List Id) × Graph :=
  match op with
  | .input _ => (none, g)
  | .const _ _ => (some [], g)
  | .add _ _ _ =>
    match outGrads with
    | [] => (none, g)
    | og :: _ => (some [og, og], g)
  | .sub l r _ =>
    match outGrads with
    | [] => (none, g)
    | og :: _ =>
      let (gx, g) := g.fresh
      let g := g.push (.reduceToLike og l gx)
      let (negOg, g) := g.fresh
      let g := g.push (.neg og negOg)
      let (gy, g) := g.fresh
      let g := g.push (.reduceToLike negOg r gy)
      (some [gx, gy], g)
  | .mul l r _ =>
    match outGrads with
    | [] => (none, g)
    | og :: _ =>
      let (gl, g) := g.fresh
      let g := g.push (.mul og r gl)
      let (gr, g) := g.fresh
      let g := g.push (.mul og l gr)
      (some [gl, gr], g)
  | .div l r _ =>
    match outGrads with
    | [] => (none, g)
    | og :: _ =>
      let (one, g) := g.fresh
      let g := g.push (.const 1 one)
      let (invR, g) := g.fresh
      let g := g.push (.div one r invR)
      let (gl, g) := g.fresh
      let g := g.push (.mul og invR gl)
      let (y2, g) := g.fresh
      let g := g.push (.mul r r y2)
      let (negX, g) := g.fresh
      let g := g.push (.neg l negX)
      let (gr, g) := g.fresh
      let g := g.push (.div negX y2 gr)
      (some [gl, gr], g)
  | .neg _ _ =>
    match outGrads with
    | [] => (none, g)
    | og :: _ =>
      let (o, g) := g.fresh
      let g := g.push (.neg og o)
      (some [o], g)
  | .matmul l r _ =>
    match outGrads with
    | [] => (none, g)
    | og :: _ =>
      let (rhsT, g) := g.fresh
      let g := g.push (.transposeDefault r rhsT)
      let (gl, g) := g.fresh
      let g := g.push (.matmul og rhsT gl)
      let (lhsT, g) := g.fresh
      let g := g.push (.transposeDefault l lhsT)
      let (gr, g) := g.fresh
      let g := g.push (.matmul lhsT og gr)
      (some [gl, gr], g)
  | .transposeDefault _ _ =>
    match outGrads with
    | [] => (none, g)
    | og :: _ =>
      let (o, g) := g.fresh
      let g := g.push (.transposeDefault og o)
      (some [o], g)
  | .transpose _ _ a1 a2 =>
    match outGrads with
    | [] => (none, g)
    | og :: _ =>
      let (o, g) := g.fresh
      let g := g.push (.transpose og o a1 a2)
      (some [o], g)
  | .reshape i _ _ =>
    match outGrads with
    | [] => (none, g)
    | og :: _ =>
      let (o, g) := g.fresh
      let g := g.push (.reshapeLike og o i)
      (some [o], g)
  | .reshapeLike i _ _ =>
    match outGrads with
    | [] => (none, g)
    | og :: _ =>
      let (o, g) := g.fresh
      let g := g.push (.reshapeLike og o i)
      (some [o], g)
  | .broadcast i _ _ =>
    match outGrads with
    | [] => (none, g)
    | og :: _ =>
      let (o, g) := g.fresh
      let g := g.push (.reduceToLike og i o)
      (some [o], g)
  | .broadcastLike i _ _ =>
    match outGrads with
    | [] => (none, g)
    | og :: _ =>
      let (o, g) := g.fresh
      let g := g.push (.reduceToLike og i o)
      (some [o], g)
  | .sum i _ axis keepDims =>
    match outGrads with
    | [] => (none, g)
    | og :: _ =>
      let (rid, g) := g.fresh
      let g := g.push (.reshapeForBroadcast og rid axis keepDims)
      let (bid, g) := g.fresh
      let g := g.push (.broadcastLike rid i bid)
      (some [bid], g)
  | .reduceToLike i _ _ =>
    match outGrads with
    | [] => (none, g)
    | og :: _ =>
      let (o, g) := g.fresh
      let g := g.push (.broadcastLike og i o)
      (some [o], g)
  | .reshapeForBroadcast _ _ _ _ => (none, g)
  | .mean i _ axis keepDims =>
    match outGrads with
    | [] => (none, g)
    | og :: _ =>
      let (one, g) := g.fresh
      let g := g.push (.const 1 one)
      let (onesLikeX, g) := g.fresh
      let g := g.push (.broadcastLike one i onesLikeX)
      let (countsY, g) := g.fresh
      let g := g.push (mkSum onesLikeX countsY axis keepDims)
      let (scaledOg, g) := g.fresh
      let g := g.push (.div og countsY scaledOg)
      let (rid, g) := g.fresh
      let g := g.push (.reshapeForBroadcast scaledOg rid axis keepDims)
      let (gx, g) := g.fresh
      let g := g.push (.broadcastLike rid i gx)
      (some [gx], g)
  | .max i o axis keepDims =>
    match outGrads with
    | [] => (none, g)
    | og :: _ =>
      let (ogBc, g) := g.fresh
      let g := g.push (.broadcastLike og i ogBc)
      let (yBc, g) := g.fresh
      let g := g.push (.broadcastLike o i yBc)
      let (mask, g) := g.fresh
      let g := g.push (.maxGradMask i yBc mask)
      let (countY, g) := g.fresh
      let g := g.push (mkSum mask countY axis keepDims)
      let (countBc, g) := g.fresh
      let g := g.push (.broadcastLike countY i countBc)
      let (numer, g) := g.fresh
      let g := g.push (.mul ogBc mask numer)
      let (gx, g) := g.fresh
      let g := g.push (.div numer countBc gx)
      (some [gx], g)
  | .maxGradMask _ _ _ => (none, g)
  | .relu i _ =>
    match outGrads with
    | [] => (none, g)
    | og :: _ =>
      let (mask, g) := g.fresh
      let g := g.push (.reluGradMask i mask)
      let (prod, g) := g.fresh
      let g := g.push (.mul og mask prod)
      (some [prod], g)
  | .reluGradMask _ _ => (none, g)
  | .exp i _ =>
    match outGrads with
    | [] => (none, g)
    | og :: _ =>
      let (e, g) := g.fresh
      let g := g.push (.exp i e)
      let (prod, g) := g.fresh
      let g := g.push (.mul og e prod)
      (some [prod], g)
  | .log i _ =>
    match outGrads with
    | [] => (none, g)
    | og :: _ =>
      let (ret, g) := g.fresh
      let (one, g) := g.fresh
      let g := g.push (.const 1 one)
      let (inv, g) := g.fresh
      let g := g.push (.div one i inv)
      let g := g.push (.mul og inv ret)
      (some [ret], g)

/-- One call against the Trace Session builder interface (session.rs and the
per-primitive TraceSession impls).  Each method returns one placeholder
(Tracer); since placeholders are only obtainable from earlier session calls,
arguments are positions into the list of placeholders produced so far. -/
inductive Cmd where
  | input
  | constant (v : ℚ)
  | add (a b : Nat)
  | sub (a b : Nat)
  | mul (a b : Nat)
  | neg (a : Nat)
  | matmul (a b : Nat)
  | t (a : Nat)
  | transpose (a : Nat) (a1 a2 : Nat)
  | sum (a : Nat) (axis : List Nat) (keepDims : Bool)
  | max (a : Nat) (axis : List Nat) (keepDims : Bool)
  | mean (a : Nat) (axis : List Nat) (keepDims : Bool)
  | broadcast (a : Nat) (shape : List Nat)
  | reshape (a : Nat) (shape : List Nat)
  | exp (a : Nat)
  | log (a : Nat)
  | relu (a : Nat)
deriving DecidableEq, Repr

/-- Placeholder arguments a session call consumes. -/
def Cmd.args : Cmd → List Nat
  | .input => []
  | .constant _ => []
  | .add a b => [a, b]
  | .sub a b => [a, b]
  | .mul a b => [a, b]
  | .neg a => [a]
  | .matmul a b => [a, b]
  | .t a => [a]
  | .transpose a _ _ => [a]
  | .sum a _ _ => [a]
  | .max a _ _ => [a]
  | .mean a _ _ => [a]
  | .broadcast a _ => [a]
  | .reshape a _ => [a]
  | .exp a => [a]
  | .log a => [a]
  | .relu a => [a]

/-- Execute one session call: allocate the output identifier, append the
operation record with correctly ordered inputs, and record the returned
placeholder (each session method is fresh-then-emit). -/
def runCmd (st : Graph × List Id) (c : Cmd) : Graph × List Id :=
  let (g, ts) := st
  let tr := fun k => ts.getD k 0
  match c with
  | .input =>
    let (o, g) := g.fresh
    (g.push (.input o), ts ++ [o])
  | .constant v =>
    let (o, g) := g.fresh
    (g.push (.const v o), ts ++ [o])
  | .add a b =>
    let (o, g) := g.fresh
    (g.push (.add (tr a) (tr b) o), ts ++ [o])
  | .sub a b =>
    let (o, g) := g.fresh
    (g.push (.sub (tr a) (tr b) o), ts ++ [o])
  | .mul a b =>
    let (o, g) := g.fresh
    (g.push (.mul (tr a) (tr b) o), ts ++ [o])
  | .neg a =>
    let (o, g) := g.fresh
    (g.push (.neg (tr a) o), ts ++ [o])
  | .matmul a b =>
    let (o, g) := g.fresh
    (g.push (.matmul (tr a) (tr b) o), ts ++ [o])
  | .t a =>
    let (o, g) := g.fresh
    (g.push (.transposeDefault (tr a) o), ts ++ [o])
  | .transpose a a1 a2 =>
    let (o, g) := g.fresh
    (g.push (.transpose (tr a) o a1 a2), ts ++ [o])
  | .sum a axis keepDims =>
    let (o, g) := g.fresh
    (g.push (mkSum (tr a) o axis keepDims), ts ++ [o])
  | .max a axis keepDims =>
    let (o, g) := g.fresh
    (g.push (mkMax (tr a) o axis keepDims), ts ++ [o])
  | .mean a axis keepDims =>
    let (o, g) := g.fresh
    (g.push (mkMean (tr a) o axis keepDims), ts ++ [o])
  | .broadcast a shape =>
    let (o, g) := g.fresh
    (g.push (.broadcast (tr a) o shape), ts ++ [o])
  | .reshape a shape =>
    let (o, g) := g.fresh
    (g.push (.reshape (tr a) o shape), ts ++ [o])
  | .exp a =>
    let (o, g) := g.fresh
    (g.push (.exp (tr a) o), ts ++ [o])
  | .log a =>
    let (o, g) := g.fresh
    (g.push (.log (tr a) o), ts ++ [o])
  | .relu a =>
    let (o, g) := g.fresh
    (g.push (.relu (tr a) o), ts ++ [o])

/-- Run a whole builder body against a fresh session over an empty graph. -/
def buildGraph (cmds : List Cmd) : Graph × List Id :=
  cmds.foldl runCmd (Graph.new, [])

/-- A builder conforming to the external interface of section 6: a sequence
of session calls plus the choice of which produced placeholders are declared
as inputs and which single placeholder is the output. -/
structure Builder where
  cmds : List Cmd
  inputSel : List Nat
  outputSel : Nat

/-- Validity of a builder, as a decidable check: every session call only
uses placeholders already produced, and the declared selections point at
produced placeholders. -/
def Builder.ok (b : Builder) : Prop :=
  (b.cmds.enum.all (fun p => p.2.args.all (fun a => decide (a < p.1))) &&
      b.inputSel.all (fun s => decide (s < b.cmds.length)) &&
      decide (b.outputSel < b.cmds.length)) = true

/-- Traceable Function: a finished graph with its declared input and output
identifiers (tracing/function.rs). -/
structure TraceableFn where
  graph : Graph
  inputs : List Id
  outputs : List Id
deriving DecidableEq, Repr

/-- Engine entry point trace_fn (lib.rs): run the builder over an empty
graph and package the graph with the returned input identifiers and the
single output identifier. -/
def traceFn (b : Builder) : TraceableFn :=
  let (g, ts) := buildGraph b.cmds
  ⟨g, b.inputSel.map (fun s => ts.getD s 0), [ts.getD b.outputSel 0]⟩

/-- Evaluate the node sequence in graph order over a context. -/
def evalNodes (sf : ScalarFns) (nodes : List Op) (ctx : Context) :
    Option Context :=
  nodes.foldlM (fun c op => op.eval sf c) ctx

/-- TraceableFn::run: create a fresh Context, insert each provided tensor
under the corresponding declared input identifier (the source zips the two
lists), execute every node in graph order, and read the declared outputs
through checked_get. -/
def TraceableFn.run (f : TraceableFn) (sf : ScalarFns) (args : List Tensor) :
    Option (List Tensor) := do
  let ctx := (f.inputs.zip args).foldl
    (fun (c : Context) p => c.insert p.1 p.2) Context.new
  let ctx ← evalNodes sf f.graph.nodes ctx
  f.outputs.mapM (fun i => ctx.get i)

/-- Gradient accumulation map from identifier to gradient identifier. -/
def GradMap := Id → Option Id

/-- Empty gradient map. -/
def GradMap.empty : GradMap := fun _ => none

/-- Point update of a gradient map (HashMap::insert). -/
def GradMap.set (m : GradMap) (k v : Id) : GradMap :=
  fun x => if x = k then some v else m x

/-- One accumulation step of TraceableFn::grad (function.rs lines 97-103):
a contribution for an identifier already in the gradient map is merged by
appending an Add node combining the existing and the new contribution,
otherwise the contribution is stored directly. -/
def accumStep (st : Graph × GradMap) (pair : Id × Id) : Graph × GradMap :=
  let (g, grads) := st
  let (inp, contrib) := pair
  match grads inp with
  | some existing =>
    let (o, g) := g.fresh
    (g.push (.add existing contrib o), grads.set inp o)
  | none => (g, grads.set inp contrib)

/-- Inner accumulation loop of TraceableFn::grad (function.rs lines 96-104):
pair the vjp contributions with the declared inputs positionally and fold
them into the gradient map. -/
def accumulatePairs (st : Graph × GradMap) (pairs : List (Id × Id)) :
    Graph × GradMap :=
  pairs.foldl accumStep st

/-- One step of the backward walk (function.rs lines 83-106): collect the
gradients accumulated for the node outputs, skip when none exist, otherwise
call vjp and accumulate its contributions. -/
def vjpStep (st : Graph × GradMap) (node : Op) : Graph × GradMap :=
  let (g, grads) := st
  let outGrads := node.outputs.filterMap grads
  if outGrads.isEmpty then st
  else
    match node.vjp g outGrads with
    | (some inpGrad, g) => accumulatePairs (g, grads) (node.inputs.zip inpGrad)
    | (none, g) => (g, grads)

/-- The backward walk over the snapshot, in strict reverse creation order. -/
def gradWalk (snapshot : List Op) (g : Graph) (grads : GradMap) :
    Graph × GradMap :=
  snapshot.reverse.foldl vjpStep (g, grads)

/-- One step of the final loop of grad: read the accumulated gradient of
one declared input, appending a Constant(zero) when it never received one. -/
def gradOutStep (grads : GradMap) (p : List Id × Graph) (i : Id) :
    List Id × Graph :=
  let (acc, g) := p
  match grads i with
  | some gi => (acc ++ [gi], g)
  | none =>
    let (z, g) := g.fresh
    (acc ++ [z], g.push (.const 0 z))

/-- Final loop of grad: read the accumulated gradient of every declared
input in declaration order. -/
def gradOuts (inputs : List Id) (g : Graph) (grads : GradMap) :
    List Id × Graph :=
  inputs.foldl (gradOutStep grads) ([], g)

/-- One step of the multi-output folding of TraceableFn::grad: append an
Add combining the running folded identifier with the next declared output. -/
def addFoldStep (p : Id × Graph) (oid : Id) : Id × Graph :=
  let (fid, g) := p
  let (nid, g) := g.fresh
  (nid, g.push (.add fid oid nid))

/-- Opening moves of TraceableFn::grad on the cloned graph: fold multiple
declared outputs pairwise with Add into one identifier, append the full
collapsing Sum producing the scalar objective, and append the Constant(one)
seed; returns the extended graph, the scalar output identifier and the seed
identifier. -/
def gradPrelude (f : TraceableFn) (fo : Id) (rest : List Id) :
    Graph × Id × Id :=
  let (finalId, g) := rest.foldl addFoldStep (fo, f.graph)
  let (scalarId, g) := g.fresh
  let g := g.push (mkSum finalId scalarId [] false)
  let (seed, g) := g.fresh
  let g := g.push (.const 1 seed)
  (g, scalarId, seed)

/-- TraceableFn::grad: clone the graph, fold multiple outputs with Add,
append the collapsing Sum and the Constant(one) seed, seed the gradient map,
snapshot the node list, walk it backwards accumulating gradients, and
package the per-input gradients as a new Traceable Function.  The panic on
zero declared outputs is modeled as none. -/
def TraceableFn.grad (f : TraceableFn) : Option TraceableFn :=
  match f.outputs with
  | [] => none
  | fo :: rest =>
    let (g, scalarId, seed) := gradPrelude f fo rest
    let grads := GradMap.empty.set scalarId seed
    let snapshot := g.nodes
    let (g2, grads2) := gradWalk snapshot g grads
    let (outs, g3) := gradOuts f.inputs g2 grads2
    some ⟨g3, f.inputs, outs⟩

/-- Instrumented backward-walk step: identical to vjpStep but also records
the node it was handed, so that the set and order of visited nodes can be
spoken about. -/
def vjpStepT (st : (Graph × GradMap) × List Op) (node : Op) :
    (Graph × GradMap) × List Op :=
  (vjpStep st.1 node, st.2 ++ [node])

/-- Instrumented backward walk. -/
def gradWalkT (snapshot : List Op) (g : Graph) (grads : GradMap) :
    (Graph × GradMap) × List Op :=
  snapshot.reverse.foldl vjpStepT ((g, grads), [])

/-- An identifier is produced by some record of a node list. -/
def Defined (nodes : List Op) (x : Id) : Prop :=
  ∃ op ∈ nodes, x ∈ op.outputs

/-- Claim form of the graph ordering invariant: every input identifier of
the record at index i is an output of some record at index j < i, or is one
of the declared input identifiers. -/
def OrderingOK (nodes : List Op) (declared : List Id) : Prop :=
  ∀ i : Nat, ∀ op : Op, nodes[i]? = some op → ∀ x ∈ op.inputs,
    (∃ j : Nat, ∃ opj : Op, j < i ∧ nodes[j]? = some opj ∧ x ∈ opj.outputs) ∨
      x ∈ declared

/-- Strengthened ordering invariant holding for session-built and
grad-produced graphs: every input of a record is an output of a strictly
earlier record (no appeal to the declared inputs is needed, since declared
inputs are themselves outputs of Input records). -/
def StrongWF (nodes : List Op) : Prop :=
  ∀ i : Nat, ∀ op : Op, nodes[i]? = some op → ∀ x ∈ op.inputs,
    ∃ j : Nat, ∃ opj : Op, j < i ∧ nodes[j]? = some opj ∧ x ∈ opj.outputs

/-- Every identifier mentioned by the node list is at most the bound (the
allocator counter only ever hands out counter+1). -/
def IdsBelow (nodes : List Op) (c : Nat) : Prop :=
  ∀ op ∈ nodes, ∀ x, (x ∈ op.inputs ∨ x ∈ op.outputs) → x ≤ c

/-- Allocator sanity of a graph: ids mentioned by nodes never exceed the
counter and the free list is empty (release is never called). -/
def Graph.ok (g : Graph) : Prop :=
  IdsBelow g.nodes g.counter ∧ g.freelist = []

/-- Data-flow influence between identifiers through a node list: x influences
z when x = z or some record consumes x and produces an identifier that
influences z. -/
inductive Influences (nodes : List Op) : Id → Id → Prop
  | refl (x : Id) : Influences nodes x x
  | step (x y z : Id) (op : Op) (hop : op ∈ nodes) (hx : x ∈ op.inputs)
      (hy : y ∈ op.outputs) (h : Influences nodes y z) : Influences nodes x z

/-- One axis step of the collapsing rule stated by the spec, parameterized
by the predicate deciding which source dimensions may be summed against a
size-1 reference dimension, with failure propagating: axis i with
no counterpart in the reference shape (i below the rank surplus k) is summed
away; an aligned axis equal to its reference dimension is untouched; an
aligned axis whose reference dimension is 1 and whose source dimension
satisfies the predicate is summed and reinserted as size 1; anything else is
a fatal mismatch. -/
def rrStep (srcOk : Nat → Bool) (srcShape likeShape : List Nat) (k i : Nat)
    (acc : Option Tensor) : Option Tensor := do
  let t ← acc
  let a := srcShape.getD i 0
  if i < k then t.sumAxis i
  else if a = likeShape.getD (i - k) 0 then some t
  else if likeShape.getD (i - k) 0 = 1 && srcOk a then do
    let s ← t.sumAxis i
    pure (s.insertAxis i)
  else none

/-- Process the source axes from the highest index down, one rrStep each,
propagating failure. -/
def rrGo (srcOk : Nat → Bool) (srcShape likeShape : List Nat) (k : Nat) :
    Nat → Option Tensor → Option Tensor
  | 0, acc => acc
  | i + 1, acc =>
    rrGo srcOk srcShape likeShape k i (rrStep srcOk srcShape likeShape k i acc)

/-- The collapsing rule of the spec, as a function of the input tensor and
the reference tensor: fail when the source rank is below the reference rank,
else process every source axis from the highest index down. -/
def reduceRule (srcOk : Nat → Bool) (t like : Tensor) : Option Tensor :=
  if t.shape.length < like.shape.length then none
  else
    rrGo srcOk t.shape like.shape (t.shape.length - like.shape.length)
      t.shape.length (some t)

/-- The collapsing rule exactly as the claim states it: an aligned axis is
summed and reinserted only when the reference is 1 and the source is greater
than 1. -/
def reduceToLikeClaimed (t like : Tensor) : Option Tensor :=
  reduceRule (fun a => decide (1 < a)) t like

/-- The collapsing rule as the code implements it: an aligned axis is summed
and reinserted whenever the reference is 1 and the source differs from 1
(so a source dimension of 0 is also summed away rather than rejected). -/
def reduceToLikeAmended (t like : Tensor) : Option Tensor :=
  reduceRule (fun a => decide (a ≠ 1)) t like

/-- Trivial instantiation of the two backend scalar functions, used when a
claim is settled on a concrete program that never evaluates Exp or Log. -/
def sfId : ScalarFns := ⟨fun q => q, fun q => q⟩

/-- Builder of the traced program f(x) = sum(x*x): one Input record, one Mul
of the placeholder with itself, one axis-free Sum; the single parameter is
declared as the input and the Sum as the output. -/
def bSquareSum : Builder := ⟨[.input, .mul 0 0, .sum 1 [] false], [0], 2⟩

/-- The traced f(x) = sum(x*x). -/
def fSquareSum : TraceableFn := traceFn bSquareSum

/-- Concrete tensor x = [3, 5]. -/
def x35 : Tensor := ⟨[2], [3, 5]⟩

/-- Builder of a two-parameter program whose output sum(y*y) ignores the
first parameter x. -/
def bUnused : Builder := ⟨[.input, .input, .mul 1 1, .sum 2 [] false], [0, 1], 3⟩

/-- Traced two-parameter function that never uses its first input. -/
def fUnused : TraceableFn := traceFn bUnused

/-- Builder of the identity program f(x) = x with one declared input. -/
def bIdent : Builder := ⟨[.input], [0], 0⟩

/-- Traced identity function with exactly one declared input. -/
def fIdent : TraceableFn := traceFn bIdent

/-- Builder of f(x) = sum(max(x, axis=[1], keep_dims=false)). -/
def bMaxRow : Builder := ⟨[.input, .max 0 [1] false, .sum 1 [] false], [0], 2⟩

/-- Traced f(x) = sum(max(x, axis=[1])). -/
def fMaxRow : TraceableFn := traceFn bMaxRow

/-- Concrete rank-2 tensor [[1,3,2],[4,0,4]] from the repository test suite. -/
def xMax : Tensor := ⟨[2, 3], [1, 3, 2, 4, 0, 4]⟩

/-- Whether an operation evaluates one of the two backend transcendental
functions. -/
def usesTranscendental : Op → Bool
  | .exp _ _ => true
  | .log _ _ => true
  | _ => false

/-- The gradient function grad produces for fSquareSum, written out: the
cloned forward graph, the collapsing Sum and the Constant(one) seed, the
backward helper chain, and the Add merging the two Mul contributions. -/
def fSquareSumGrad : TraceableFn :=
  ⟨⟨[.input 1, .mul 1 1 2, .sum 2 3 [] false, .sum 3 4 [] false, .const 1 5,
     .reshapeForBroadcast 5 6 [] false, .broadcastLike 6 3 7,
     .reshapeForBroadcast 7 8 [] false, .broadcastLike 8 2 9,
     .mul 9 1 10, .mul 9 1 11, .add 10 11 12], 12, []⟩, [1], [12]⟩

/-- The gradient function grad produces for fSquareSumGrad (the second
derivative graph of fSquareSum). -/
def fSquareSumGrad2 : TraceableFn :=
  ⟨⟨[.input 1, .mul 1 1 2, .sum 2 3 [] false, .sum 3 4 [] false, .const 1 5,
     .reshapeForBroadcast 5 6 [] false, .broadcastLike 6 3 7,
     .reshapeForBroadcast 7 8 [] false, .broadcastLike 8 2 9,
     .mul 9 1 10, .mul 9 1 11, .add 10 11 12, .sum 12 13 [] false,
     .const 1 14, .reshapeForBroadcast 14 15 [] false, .broadcastLike 15 12 16,
     .mul 16 1 17, .mul 16 9 18, .mul 16 1 19, .mul 16 9 20,
     .add 17 19 21, .add 18 20 22, .reduceToLike 21 8 23], 23, []⟩, [1], [22]⟩

/-- The gradient function grad produces for fMaxRow: the Max vjp appends its
mask, count and distribution helpers; note node 10, which broadcasts the
keep_dims=false gradient of shape [rows] directly to the input shape. -/
def fMaxRowGrad : TraceableFn :=
  ⟨⟨[.input 1, .max 1 2 [1] false, .sum 2 3 [] false, .sum 3 4 [] false,
     .const 1 5, .reshapeForBroadcast 5 6 [] false, .broadcastLike 6 3 7,
     .reshapeForBroadcast 7 8 [] false, .broadcastLike 8 2 9,
     .broadcastLike 9 1 10, .broadcastLike 2 1 11, .maxGradMask 1 11 12,
     .sum 12 13 [1] false, .broadcastLike 13 1 14, .mul 10 12 15,
     .div 15 14 16], 16, []⟩, [1], [16]⟩

/-- The gradient function grad produces for fUnused: the unused first input
receives a freshly appended Constant(zero), node 14, as its gradient. -/
def fUnusedGrad : TraceableFn :=
  ⟨⟨[.input 1, .input 2, .mul 2 2 3, .sum 3 4 [] false, .sum 4 5 [] false,
     .const 1 6, .reshapeForBroadcast 6 7 [] false, .broadcastLike 7 4 8,
     .reshapeForBroadcast 8 9 [] false, .broadcastLike 9 3 10,
     .mul 10 2 11, .mul 10 2 12, .add 11 12 13, .const 0 14], 14, []⟩,
   [1, 2], [14, 13]⟩

end Chainrule

namespace Chainrule

theorem evalOp_sf_indep (sf sf' : ScalarFns) (op : Op) (ctx : Context)
    (h : usesTranscendental op = false) : op.eval sf ctx = op.eval sf' ctx := by
  cases op <;> simp_all [Op.eval, usesTranscendental]

theorem evalNodes_sf_indep (sf sf' : ScalarFns) (nodes : List Op)
    (h : nodes.all (fun op => !usesTranscendental op)) (ctx : Context) :
    evalNodes sf nodes ctx = evalNodes sf' nodes ctx := by
  induction nodes generalizing ctx with
  | nil => rfl
  | cons op rest ih =>
    simp only [List.all_cons, Bool.and_eq_true, Bool.not_eq_eq_eq_not,
      Bool.not_true] at h
    show (op.eval sf ctx).bind _ = (op.eval sf' ctx).bind _
    rw [evalOp_sf_indep sf sf' op ctx h.1]
    cases op.eval sf' ctx with
    | none => rfl
    | some c => exact ih h.2 c

theorem run_sf_indep (f : TraceableFn) (sf sf' : ScalarFns)
    (args : List Tensor)
    (h : f.graph.nodes.all (fun op => !usesTranscendental op)) :
    f.run sf args = f.run sf' args := by
  show (evalNodes sf f.graph.nodes _).bind _ = (evalNodes sf' f.graph.nodes _).bind _
  rw [evalNodes_sf_indep sf sf' f.graph.nodes h]

/-- Claim C1: for the traced f(x) = sum(x*x) at x = [3,5], evaluating
grad(f) returns [6,10], and evaluating grad(grad(f)) — obtained by calling
grad again on the returned Traceable Function — returns [2,2], for every
instantiation of the backend scalar functions. -/
theorem claim_C1 (sf : ScalarFns) :
    ∃ f1 f2 : TraceableFn,
      fSquareSum.grad = some f1 ∧
      f1.run sf [x35] = some [⟨[2], [6, 10]⟩] ∧
      f1.grad = some f2 ∧
      f2.run sf [x35] = some [⟨[2], [2, 2]⟩] := by
  refine ⟨fSquareSumGrad, fSquareSumGrad2, by decide, ?_, by decide, ?_⟩
  · rw [run_sf_indep fSquareSumGrad sf sfId [x35] (by decide)]
    decide
  · rw [run_sf_indep fSquareSumGrad2 sf sfId [x35] (by decide)]
    decide

/-- Claim C7 counterexample: fIdent declares exactly one input, yet a call
with two tensors does not fail — it evaluates to a result (the first tensor),
the surplus argument being silently dropped by the zip. -/
theorem claim_C7_counterexample :
    fIdent.inputs.length = 1 ∧
    fIdent.run sfId [⟨[2], [1, 2]⟩, ⟨[3], [7, 8, 9]⟩] =
      some [⟨[2], [1, 2]⟩] := by
  exact ⟨by decide, by decide⟩

/-- Claim C7 amended: run creates a fresh Context and inserts each provided
tensor under the corresponding declared input identifier positionally in
order, but pairs only up to the shorter of the two lists and never checks
the arity: surplus arguments are ignored — the result of any call equals the
result of the call truncated to the declared input count. -/
theorem claim_C7 (f : TraceableFn) (sf : ScalarFns) (args : List Tensor) :
    f.run sf args = f.run sf (args.take f.inputs.length) := by
  have hzip : ∀ (l : List Id) (a : List Tensor), l.zip (a.take l.length) = l.zip a := by
    intro l
    induction l with
    | nil => intro a; rfl
    | cons x xs ih =>
      intro a
      cases a with
      | nil => rfl
      | cons y ys => simp [List.zip_cons_cons, ih ys]
  show (evalNodes sf _ ((f.inputs.zip args).foldl _ _)).bind _ =
    (evalNodes sf _ ((f.inputs.zip (args.take f.inputs.length)).foldl _ _)).bind _
  rw [hzip]

/-- Claim C8 counterexample: Const::vjp returns Some of the empty gradient
list, not None — the source builds it with vec![].into(). -/
theorem claim_C8_counterexample :
    (Op.const 5 3).vjp Graph.new [7] = (some [], Graph.new) ∧
    (some [] : Option (List Id)) ≠ none := by
  exact ⟨rfl, by simp⟩

/-- Claim C8 amended: the Constant primitive inserts its stored scalar as a
0-dimensional tensor under its output identifier, and its vjp returns Some
of the empty contribution list — one entry per declared input, of which a
Constant has none — so no gradient flows through it. -/
theorem claim_C8 (v : ℚ) (o : Id) (sf : ScalarFns) (ctx : Context)
    (g : Graph) (ogs : List Id) :
    (Op.const v o).eval sf ctx = some (ctx.insert o (arr0 v)) ∧
    (Op.const v o).vjp g ogs = (some [], g) :=
  ⟨rfl, rfl⟩

/-- Claim C9: the claim describes the intended Max vjp (mask, tie counts,
gradient split between ties), matching the comments in the source, but with
keep_dims = false the vjp broadcasts the reduced [rows]-shaped tensors
straight back to the input shape without reinserting the reduced axis: on
the rank-2 test input [[1,3,2],[4,0,4]] the forward pass works, grad builds
the graph, and evaluating it aborts at the BroadcastLike of shape [2] to
shape [2,3] — no gradient of the input shape is produced. -/
theorem claim_C9 :
    fMaxRow.grad = some fMaxRowGrad ∧
    fMaxRow.run sfId [xMax] = some [⟨[], [7]⟩] ∧
    fMaxRowGrad.run sfId [xMax] = none := by
  exact ⟨by decide, by decide, by decide⟩

/-- Claim C4 counterexample: the first input of fUnused does not influence
the output, its concrete value has shape [2], yet the corresponding grad
output evaluates to the 0-dimensional zero tensor, whose shape differs from
the input shape. -/
theorem claim_C4_counterexample :
    fUnused.grad = some fUnusedGrad ∧
    fUnusedGrad.run sfId [x35, x35] =
      some [⟨[], [0]⟩, ⟨[2], [6, 10]⟩] ∧
    (⟨[], [0]⟩ : Tensor).shape ≠ x35.shape := by
  exact ⟨by decide, by decide, by decide⟩

end Chainrule

namespace Chainrule

theorem fresh_eq (g : Graph) (h : g.freelist = []) :
    g.fresh = (g.counter + 1, { g with counter := g.counter + 1 }) := by
  rcases g with ⟨nodes, c, fl⟩
  cases fl with
  | nil => rfl
  | cons a l => simp at h

theorem push_def (g : Graph) (op : Op) :
    g.push op = { g with nodes := g.nodes ++ [op] } := rfl

theorem defined_mono (ns ext : List Op) (x : Id) (h : Defined ns x) :
    Defined (ns ++ ext) x := by
  obtain ⟨op, hop, hx⟩ := h
  exact ⟨op, List.mem_append_left _ hop, hx⟩

theorem defined_append_right (ns ext : List Op) (x : Id)
    (h : Defined ext x) : Defined (ns ++ ext) x := by
  obtain ⟨op, hop, hx⟩ := h
  exact ⟨op, List.mem_append_right _ hop, hx⟩

theorem defined_single (op : Op) (x : Id) (h : x ∈ op.outputs) :
    Defined [op] x := ⟨op, List.mem_singleton_self op, h⟩

theorem strongWF_push (ns : List Op) (op : Op) (hwf : StrongWF ns)
    (hin : ∀ x ∈ op.inputs, Defined ns x) : StrongWF (ns ++ [op]) := by
  intro i opi hi x hx
  rcases Nat.lt_or_ge i ns.length with hlt | hge
  · rw [List.getElem?_append_left hlt] at hi
    obtain ⟨j, opj, hj, hjget, hjout⟩ := hwf i opi hi x hx
    refine ⟨j, opj, hj, ?_, hjout⟩
    rw [List.getElem?_append_left (Nat.lt_trans hj hlt)]
    exact hjget
  · have hi2 : i = ns.length := by
      by_contra hne
      have hgt : ns.length + 1 ≤ i := Nat.lt_of_le_of_ne hge (fun h2 => hne h2.symm)
      have hnone : (ns ++ [op])[i]? = none := by
        apply List.getElem?_eq_none
        simpa using hgt
      rw [hnone] at hi
      exact Option.noConfusion hi
    subst hi2
    have hself : (ns ++ [op])[ns.length]? = some op := by
      rw [List.getElem?_append_right (Nat.le_refl _)]
      simp
    rw [hself] at hi
    cases hi
    obtain ⟨opj, hj, hout⟩ := hin x hx
    obtain ⟨j, hjlt, hjget⟩ := List.getElem_of_mem hj
    refine ⟨j, opj, hjlt, ?_, hout⟩
    rw [List.getElem?_append_left hjlt, List.getElem?_eq_getElem hjlt]
    exact congrArg some hjget

theorem idsBelow_mono (ns : List Op) (c c' : Nat) (h : IdsBelow ns c)
    (hle : c ≤ c') : IdsBelow ns c' :=
  fun op hop x hx => Nat.le_trans (h op hop x hx) hle

theorem idsBelow_push (ns : List Op) (op : Op) (c : Nat) (h : IdsBelow ns c)
    (hop : ∀ x, (x ∈ op.inputs ∨ x ∈ op.outputs) → x ≤ c) :
    IdsBelow (ns ++ [op]) c := by
  intro op2 hop2 x hx
  rcases List.mem_append.mp hop2 with h2 | h2
  · exact h op2 h2 x hx
  · rw [List.mem_singleton] at h2
    subst h2
    exact hop x hx

theorem defined_le (ns : List Op) (c : Nat) (x : Id) (h : IdsBelow ns c)
    (hd : Defined ns x) : x ≤ c := by
  obtain ⟨op, hop, hx⟩ := hd
  exact h op hop x (Or.inr hx)

end Chainrule

namespace Chainrule

/-- Conditions under which a chain of pushed helper nodes keeps a graph
healthy: each pushed node reads only identifiers defined before it, and all
its identifiers are bounded by the final counter. -/
def ChainOK (ns : List Op) (cf : Nat) : List Op → Prop
  | [] => True
  | op :: rest =>
    (∀ x ∈ op.inputs, Defined ns x) ∧
      (∀ x ∈ op.outputs, x ≤ cf) ∧
      ChainOK (ns ++ [op]) cf rest

theorem chainOK_good (newOps : List Op) (ns : List Op) (cf : Nat)
    (hwf : StrongWF ns) (hbelow : IdsBelow ns cf)
    (hchain : ChainOK ns cf newOps) :
    StrongWF (ns ++ newOps) ∧ IdsBelow (ns ++ newOps) cf := by
  induction newOps generalizing ns with
  | nil => simpa using ⟨hwf, hbelow⟩
  | cons op rest ih =>
    obtain ⟨h1, h2, h3⟩ := hchain
    have hwf2 : StrongWF (ns ++ [op]) := strongWF_push ns op hwf h1
    have hbelow2 : IdsBelow (ns ++ [op]) cf := by
      apply idsBelow_push ns op cf hbelow
      intro x hx
      rcases hx with hx | hx
      · exact defined_le ns cf x hbelow (h1 x hx)
      · exact h2 x hx
    have := ih (ns ++ [op]) hwf2 hbelow2 h3
    simpa [List.append_assoc] using this

end Chainrule

namespace Chainrule

/-- Healthy outcome of one vjp call on a healthy graph: the graph is only
extended, the allocator stays sane, the ordering invariant is preserved, and
every returned gradient identifier is defined in the extended graph. -/
def VjpGood (g : Graph) (p : Option (List Id) × Graph) : Prop :=
  (∃ ext, p.2.nodes = g.nodes ++ ext) ∧
    p.2.freelist = [] ∧
    g.counter ≤ p.2.counter ∧
    IdsBelow p.2.nodes p.2.counter ∧
    StrongWF p.2.nodes ∧
    ∀ l, p.1 = some l → ∀ x ∈ l, Defined p.2.nodes x

theorem vjpGood_noPush (ns : List Op) (c : Nat) (res : Option (List Id))
    (hbelow : IdsBelow ns c) (hwf : StrongWF ns)
    (hres : ∀ l, res = some l → ∀ x ∈ l, Defined ns x) :
    VjpGood ⟨ns, c, []⟩ (res, ⟨ns, c, []⟩) :=
  ⟨⟨[], by simp⟩, rfl, Nat.le_refl c, hbelow, hwf, hres⟩

theorem vjpGood_chain (ns newOps : List Op) (c cf : Nat) (res : List Id)
    (hcf : c ≤ cf) (hchain : ChainOK ns cf newOps)
    (hbelow : IdsBelow ns c) (hwf : StrongWF ns)
    (hres : ∀ x ∈ res, Defined (ns ++ newOps) x) :
    VjpGood ⟨ns, c, []⟩ (some res, ⟨ns ++ newOps, cf, []⟩) := by
  obtain ⟨hwf2, hb2⟩ :=
    chainOK_good newOps ns cf hwf (idsBelow_mono ns c cf hbelow hcf) hchain
  refine ⟨⟨newOps, rfl⟩, rfl, hcf, hb2, hwf2, ?_⟩
  intro l hl x hx
  cases hl
  exact hres x hx

theorem defined_in_chain (ns newOps : List Op) (op : Op) (x : Id)
    (hop : op ∈ newOps) (hx : x ∈ op.outputs) :
    Defined (ns ++ newOps) x :=
  defined_append_right ns newOps x ⟨op, hop, hx⟩

theorem le_shift (c a b : Nat) (h : a ≤ b) : c + a ≤ c + b :=
  Nat.add_le_add_left h c

end Chainrule

namespace Chainrule

theorem vjp_good (op : Op) (g : Graph) (ogs : List Id)
    (hfl : g.freelist = []) (hbelow : IdsBelow g.nodes g.counter)
    (hwf : StrongWF g.nodes)
    (hin : ∀ x ∈ op.inputs, Defined g.nodes x)
    (hout : ∀ x ∈ op.outputs, Defined g.nodes x)
    (hogs : ∀ x ∈ ogs, Defined g.nodes x) :
    VjpGood g (op.vjp g ogs) := by
  rcases g with ⟨ns, c, fl⟩
  simp only at hfl
  subst hfl
  simp only at hbelow hwf hin hout hogs
  cases op with
  | input o => exact vjpGood_noPush ns c none hbelow hwf (by simp)
  | const v o =>
    apply vjpGood_noPush ns c (some []) hbelow hwf
    intro l2 hl2 x hx
    cases hl2
    simp at hx
  | add l r o =>
    cases ogs with
    | nil => exact vjpGood_noPush ns c none hbelow hwf (by simp)
    | cons og rest =>
      simp only [Op.vjp]
      apply vjpGood_noPush ns c (some [og, og]) hbelow hwf
      intro l2 hl2 x hx
      cases hl2
      have hxo : x = og := by simpa using hx
      rw [hxo]
      exact hogs og (by simp)
  | sub l r o =>
    cases ogs with
    | nil => exact vjpGood_noPush ns c none hbelow hwf (by simp)
    | cons og rest =>
      have hog : Defined ns og := hogs og (by simp)
      have hl : Defined ns l := hin l (by simp [Op.inputs])
      have hr : Defined ns r := hin r (by simp [Op.inputs])
      simp only [Op.vjp, Graph.fresh, Graph.push, List.append_assoc,
        List.cons_append, List.nil_append]
      apply vjpGood_chain ns [Op.reduceToLike og l (c + 1), Op.neg og (c + 1 + 1), Op.reduceToLike (c + 1 + 1) r (c + 1 + 1 + 1)]
        c (c + 3) _ (le_shift c 0 3 (by decide)) ?_ hbelow hwf ?_
      · refine ⟨?_, ?_, ?_, ?_, ?_, ?_, trivial⟩
        · intro x hx
          simp [Op.inputs, mkSum] at hx
          try simp only [List.append_assoc, List.cons_append, List.nil_append]
          rcases hx with rfl | rfl
          exacts [hog, hl]
        · intro x hx
          simp [Op.outputs, mkSum] at hx
          subst hx
          exact le_shift c 1 3 (by decide)
        · intro x hx
          simp [Op.inputs, mkSum] at hx
          try simp only [List.append_assoc, List.cons_append, List.nil_append]
          rcases hx with rfl
          exact defined_mono _ _ _ hog
        · intro x hx
          simp [Op.outputs, mkSum] at hx
          subst hx
          exact le_shift c 2 3 (by decide)
        · intro x hx
          simp [Op.inputs, mkSum] at hx
          try simp only [List.append_assoc, List.cons_append, List.nil_append]
          rcases hx with rfl | rfl
          exacts [defined_append_right _ _ _ ⟨Op.neg og (c + 1 + 1), by simp, by simp [Op.outputs, mkSum]⟩, defined_mono _ _ _ hr]
        · intro x hx
          simp [Op.outputs, mkSum] at hx
          subst hx
          exact le_shift c 3 3 (by decide)
      · intro x hx
        simp at hx
        rcases hx with rfl | rfl
        · exact defined_in_chain ns _ (Op.reduceToLike og l (c + 1)) _ (by simp)
            (by simp [Op.outputs, mkSum])
        · exact defined_in_chain ns _ (Op.reduceToLike (c + 1 + 1) r (c + 1 + 1 + 1)) _ (by simp)
            (by simp [Op.outputs, mkSum])
  | mul l r o =>
    cases ogs with
    | nil => exact vjpGood_noPush ns c none hbelow hwf (by simp)
    | cons og rest =>
      have hog : Defined ns og := hogs og (by simp)
      have hl : Defined ns l := hin l (by simp [Op.inputs])
      have hr : Defined ns r := hin r (by simp [Op.inputs])
      simp only [Op.vjp, Graph.fresh, Graph.push, List.append_assoc,
        List.cons_append, List.nil_append]
      apply vjpGood_chain ns [Op.mul og r (c + 1), Op.mul og l (c + 1 + 1)]
        c (c + 2) _ (le_shift c 0 2 (by decide)) ?_ hbelow hwf ?_
      · refine ⟨?_, ?_, ?_, ?_, trivial⟩
        · intro x hx
          simp [Op.inputs, mkSum] at hx
          try simp only [List.append_assoc, List.cons_append, List.nil_append]
          rcases hx with rfl | rfl
          exacts [hog, hr]
        · intro x hx
          simp [Op.outputs, mkSum] at hx
          subst hx
          exact le_shift c 1 2 (by decide)
        · intro x hx
          simp [Op.inputs, mkSum] at hx
          try simp only [List.append_assoc, List.cons_append, List.nil_append]
          rcases hx with rfl | rfl
          exacts [defined_mono _ _ _ hog, defined_mono _ _ _ hl]
        · intro x hx
          simp [Op.outputs, mkSum] at hx
          subst hx
          exact le_shift c 2 2 (by decide)
      · intro x hx
        simp at hx
        rcases hx with rfl | rfl
        · exact defined_in_chain ns _ (Op.mul og r (c + 1)) _ (by simp)
            (by simp [Op.outputs, mkSum])
        · exact defined_in_chain ns _ (Op.mul og l (c + 1 + 1)) _ (by simp)
            (by simp [Op.outputs, mkSum])
  | div l r o =>
    cases ogs with
    | nil => exact vjpGood_noPush ns c none hbelow hwf (by simp)
    | cons og rest =>
      have hog : Defined ns og := hogs og (by simp)
      have hl : Defined ns l := hin l (by simp [Op.inputs])
      have hr : Defined ns r := hin r (by simp [Op.inputs])
      simp only [Op.vjp, Graph.fresh, Graph.push, List.append_assoc,
        List.cons_append, List.nil_append]
      apply vjpGood_chain ns [Op.const 1 (c + 1), Op.div (c + 1) r (c + 1 + 1), Op.mul og (c + 1 + 1) (c + 1 + 1 + 1), Op.mul r r (c + 1 + 1 + 1 + 1), Op.neg l (c + 1 + 1 + 1 + 1 + 1), Op.div (c + 1 + 1 + 1 + 1 + 1) (c + 1 + 1 + 1 + 1) (c + 1 + 1 + 1 + 1 + 1 + 1)]
        c (c + 6) _ (le_shift c 0 6 (by decide)) ?_ hbelow hwf ?_
      · refine ⟨?_, ?_, ?_, ?_, ?_, ?_, ?_, ?_, ?_, ?_, ?_, ?_, trivial⟩
        · intro x hx
          simp [Op.inputs] at hx
        · intro x hx
          simp [Op.outputs, mkSum] at hx
          subst hx
          exact le_shift c 1 6 (by decide)
        · intro x hx
          simp [Op.inputs, mkSum] at hx
          try simp only [List.append_assoc, List.cons_append, List.nil_append]
          rcases hx with rfl | rfl
          exacts [defined_append_right _ _ _ ⟨Op.const 1 (c + 1), by simp, by simp [Op.outputs, mkSum]⟩, defined_mono _ _ _ hr]
        · intro x hx
          simp [Op.outputs, mkSum] at hx
          subst hx
          exact le_shift c 2 6 (by decide)
        · intro x hx
          simp [Op.inputs, mkSum] at hx
          try simp only [List.append_assoc, List.cons_append, List.nil_append]
          rcases hx with rfl | rfl
          exacts [defined_mono _ _ _ hog, defined_append_right _ _ _ ⟨Op.div (c + 1) r (c + 1 + 1), by simp, by simp [Op.outputs, mkSum]⟩]
        · intro x hx
          simp [Op.outputs, mkSum] at hx
          subst hx
          exact le_shift c 3 6 (by decide)
        · intro x hx
          simp [Op.inputs, mkSum] at hx
          try simp only [List.append_assoc, List.cons_append, List.nil_append]
          rcases hx with rfl
          exact defined_mono _ _ _ hr
        · intro x hx
          simp [Op.outputs, mkSum] at hx
          subst hx
          exact le_shift c 4 6 (by decide)
        · intro x hx
          simp [Op.inputs, mkSum] at hx
          try simp only [List.append_assoc, List.cons_append, List.nil_append]
          rcases hx with rfl
          exact defined_mono _ _ _ hl
        · intro x hx
          simp [Op.outputs, mkSum] at hx
          subst hx
          exact le_shift c 5 6 (by decide)
        · intro x hx
          simp [Op.inputs, mkSum] at hx
          try simp only [List.append_assoc, List.cons_append, List.nil_append]
          rcases hx with rfl | rfl
          exacts [defined_append_right _ _ _ ⟨Op.neg l (c + 1 + 1 + 1 + 1 + 1), by simp, by simp [Op.outputs, mkSum]⟩, defined_append_right _ _ _ ⟨Op.mul r r (c + 1 + 1 + 1 + 1), by simp, by simp [Op.outputs, mkSum]⟩]
        · intro x hx
          simp [Op.outputs, mkSum] at hx
          subst hx
          exact le_shift c 6 6 (by decide)
      · intro x hx
        simp at hx
        rcases hx with rfl | rfl
        · exact defined_in_chain ns _ (Op.mul og (c + 1 + 1) (c + 1 + 1 + 1)) _ (by simp)
            (by simp [Op.outputs, mkSum])
        · exact defined_in_chain ns _ (Op.div (c + 1 + 1 + 1 + 1 + 1) (c + 1 + 1 + 1 + 1) (c + 1 + 1 + 1 + 1 + 1 + 1)) _ (by simp)
            (by simp [Op.outputs, mkSum])
  | neg i o =>
    cases ogs with
    | nil => exact vjpGood_noPush ns c none hbelow hwf (by simp)
    | cons og rest =>
      have hog : Defined ns og := hogs og (by simp)
      simp only [Op.vjp, Graph.fresh, Graph.push, List.append_assoc,
        List.cons_append, List.nil_append]
      apply vjpGood_chain ns [Op.neg og (c + 1)]
        c (c + 1) _ (le_shift c 0 1 (by decide)) ?_ hbelow hwf ?_
      · refine ⟨?_, ?_, trivial⟩
        · intro x hx
          simp [Op.inputs, mkSum] at hx
          try simp only [List.append_assoc, List.cons_append, List.nil_append]
          rcases hx with rfl
          exact hog
        · intro x hx
          simp [Op.outputs, mkSum] at hx
          subst hx
          exact le_shift c 1 1 (by decide)
      · intro x hx
        simp at hx
        rcases hx with rfl
        exact defined_in_chain ns _ (Op.neg og (c + 1)) _ (by simp)
            (by simp [Op.outputs, mkSum])
  | matmul l r o =>
    cases ogs with
    | nil => exact vjpGood_noPush ns c none hbelow hwf (by simp)
    | cons og rest =>
      have hog : Defined ns og := hogs og (by simp)
      have hl : Defined ns l := hin l (by simp [Op.inputs])
      have hr : Defined ns r := hin r (by simp [Op.inputs])
      simp only [Op.vjp, Graph.fresh, Graph.push, List.append_assoc,
        List.cons_append, List.nil_append]
      apply vjpGood_chain ns [Op.transposeDefault r (c + 1), Op.matmul og (c + 1) (c + 1 + 1), Op.transposeDefault l (c + 1 + 1 + 1), Op.matmul (c + 1 + 1 + 1) og (c + 1 + 1 + 1 + 1)]
        c (c + 4) _ (le_shift c 0 4 (by decide)) ?_ hbelow hwf ?_
      · refine ⟨?_, ?_, ?_, ?_, ?_, ?_, ?_, ?_, trivial⟩
        · intro x hx
          simp [Op.inputs, mkSum] at hx
          try simp only [List.append_assoc, List.cons_append, List.nil_append]
          rcases hx with rfl
          exact hr
        · intro x hx
          simp [Op.outputs, mkSum] at hx
          subst hx
          exact le_shift c 1 4 (by decide)
        · intro x hx
          simp [Op.inputs, mkSum] at hx
          try simp only [List.append_assoc, List.cons_append, List.nil_append]
          rcases hx with rfl | rfl
          exacts [defined_mono _ _ _ hog, defined_append_right _ _ _ ⟨Op.transposeDefault r (c + 1), by simp, by simp [Op.outputs, mkSum]⟩]
        · intro x hx
          simp [Op.outputs, mkSum] at hx
          subst hx
          exact le_shift c 2 4 (by decide)
        · intro x hx
          simp [Op.inputs, mkSum] at hx
          try simp only [List.append_assoc, List.cons_append, List.nil_append]
          rcases hx with rfl
          exact defined_mono _ _ _ hl
        · intro x hx
          simp [Op.outputs, mkSum] at hx
          subst hx
          exact le_shift c 3 4 (by decide)
        · intro x hx
          simp [Op.inputs, mkSum] at hx
          try simp only [List.append_assoc, List.cons_append, List.nil_append]
          rcases hx with rfl | rfl
          exacts [defined_append_right _ _ _ ⟨Op.transposeDefault l (c + 1 + 1 + 1), by simp, by simp [Op.outputs, mkSum]⟩, defined_mono _ _ _ hog]
        · intro x hx
          simp [Op.outputs, mkSum] at hx
          subst hx
          exact le_shift c 4 4 (by decide)
      · intro x hx
        simp at hx
        rcases hx with rfl | rfl
        · exact defined_in_chain ns _ (Op.matmul og (c + 1) (c + 1 + 1)) _ (by simp)
            (by simp [Op.outputs, mkSum])
        · exact defined_in_chain ns _ (Op.matmul (c + 1 + 1 + 1) og (c + 1 + 1 + 1 + 1)) _ (by simp)
            (by simp [Op.outputs, mkSum])
  | transposeDefault i o =>
    cases ogs with
    | nil => exact vjpGood_noPush ns c none hbelow hwf (by simp)
    | cons og rest =>
      have hog : Defined ns og := hogs og (by simp)
      simp only [Op.vjp, Graph.fresh, Graph.push, List.append_assoc,
        List.cons_append, List.nil_append]
      apply vjpGood_chain ns [Op.transposeDefault og (c + 1)]
        c (c + 1) _ (le_shift c 0 1 (by decide)) ?_ hbelow hwf ?_
      · refine ⟨?_, ?_, trivial⟩
        · intro x hx
          simp [Op.inputs, mkSum] at hx
          try simp only [List.append_assoc, List.cons_append, List.nil_append]
          rcases hx with rfl
          exact hog
        · intro x hx
          simp [Op.outputs, mkSum] at hx
          subst hx
          exact le_shift c 1 1 (by decide)
      · intro x hx
        simp at hx
        rcases hx with rfl
        exact defined_in_chain ns _ (Op.transposeDefault og (c + 1)) _ (by simp)
            (by simp [Op.outputs, mkSum])
  | transpose i o a1 a2 =>
    cases ogs with
    | nil => exact vjpGood_noPush ns c none hbelow hwf (by simp)
    | cons og rest =>
      have hog : Defined ns og := hogs og (by simp)
      simp only [Op.vjp, Graph.fresh, Graph.push, List.append_assoc,
        List.cons_append, List.nil_append]
      apply vjpGood_chain ns [Op.transpose og (c + 1) a1 a2]
        c (c + 1) _ (le_shift c 0 1 (by decide)) ?_ hbelow hwf ?_
      · refine ⟨?_, ?_, trivial⟩
        · intro x hx
          simp [Op.inputs, mkSum] at hx
          try simp only [List.append_assoc, List.cons_append, List.nil_append]
          rcases hx with rfl
          exact hog
        · intro x hx
          simp [Op.outputs, mkSum] at hx
          subst hx
          exact le_shift c 1 1 (by decide)
      · intro x hx
        simp at hx
        rcases hx with rfl
        exact defined_in_chain ns _ (Op.transpose og (c + 1) a1 a2) _ (by simp)
            (by simp [Op.outputs, mkSum])
  | reshape i o tgt =>
    cases ogs with
    | nil => exact vjpGood_noPush ns c none hbelow hwf (by simp)
    | cons og rest =>
      have hog : Defined ns og := hogs og (by simp)
      have hi2 : Defined ns i := hin i (by simp [Op.inputs])
      simp only [Op.vjp, Graph.fresh, Graph.push, List.append_assoc,
        List.cons_append, List.nil_append]
      apply vjpGood_chain ns [Op.reshapeLike og (c + 1) i]
        c (c + 1) _ (le_shift c 0 1 (by decide)) ?_ hbelow hwf ?_
      · refine ⟨?_, ?_, trivial⟩
        · intro x hx
          simp [Op.inputs, mkSum] at hx
          try simp only [List.append_assoc, List.cons_append, List.nil_append]
          rcases hx with rfl | rfl
          exacts [hog, hi2]
        · intro x hx
          simp [Op.outputs, mkSum] at hx
          subst hx
          exact le_shift c 1 1 (by decide)
      · intro x hx
        simp at hx
        rcases hx with rfl
        exact defined_in_chain ns _ (Op.reshapeLike og (c + 1) i) _ (by simp)
            (by simp [Op.outputs, mkSum])
  | reshapeLike i o lk =>
    cases ogs with
    | nil => exact vjpGood_noPush ns c none hbelow hwf (by simp)
    | cons og rest =>
      have hog : Defined ns og := hogs og (by simp)
      have hi2 : Defined ns i := hin i (by simp [Op.inputs])
      simp only [Op.vjp, Graph.fresh, Graph.push, List.append_assoc,
        List.cons_append, List.nil_append]
      apply vjpGood_chain ns [Op.reshapeLike og (c + 1) i]
        c (c + 1) _ (le_shift c 0 1 (by decide)) ?_ hbelow hwf ?_
      · refine ⟨?_, ?_, trivial⟩
        · intro x hx
          simp [Op.inputs, mkSum] at hx
          try simp only [List.append_assoc, List.cons_append, List.nil_append]
          rcases hx with rfl | rfl
          exacts [hog, hi2]
        · intro x hx
          simp [Op.outputs, mkSum] at hx
          subst hx
          exact le_shift c 1 1 (by decide)
      · intro x hx
        simp at hx
        rcases hx with rfl
        exact defined_in_chain ns _ (Op.reshapeLike og (c + 1) i) _ (by simp)
            (by simp [Op.outputs, mkSum])
  | broadcast i o tgt =>
    cases ogs with
    | nil => exact vjpGood_noPush ns c none hbelow hwf (by simp)
    | cons og rest =>
      have hog : Defined ns og := hogs og (by simp)
      have hi2 : Defined ns i := hin i (by simp [Op.inputs])
      simp only [Op.vjp, Graph.fresh, Graph.push, List.append_assoc,
        List.cons_append, List.nil_append]
      apply vjpGood_chain ns [Op.reduceToLike og i (c + 1)]
        c (c + 1) _ (le_shift c 0 1 (by decide)) ?_ hbelow hwf ?_
      · refine ⟨?_, ?_, trivial⟩
        · intro x hx
          simp [Op.inputs, mkSum] at hx
          try simp only [List.append_assoc, List.cons_append, List.nil_append]
          rcases hx with rfl | rfl
          exacts [hog, hi2]
        · intro x hx
          simp [Op.outputs, mkSum] at hx
          subst hx
          exact le_shift c 1 1 (by decide)
      · intro x hx
        simp at hx
        rcases hx with rfl
        exact defined_in_chain ns _ (Op.reduceToLike og i (c + 1)) _ (by simp)
            (by simp [Op.outputs, mkSum])
  | broadcastLike i lk o =>
    cases ogs with
    | nil => exact vjpGood_noPush ns c none hbelow hwf (by simp)
    | cons og rest =>
      have hog : Defined ns og := hogs og (by simp)
      have hi2 : Defined ns i := hin i (by simp [Op.inputs])
      simp only [Op.vjp, Graph.fresh, Graph.push, List.append_assoc,
        List.cons_append, List.nil_append]
      apply vjpGood_chain ns [Op.reduceToLike og i (c + 1)]
        c (c + 1) _ (le_shift c 0 1 (by decide)) ?_ hbelow hwf ?_
      · refine ⟨?_, ?_, trivial⟩
        · intro x hx
          simp [Op.inputs, mkSum] at hx
          try simp only [List.append_assoc, List.cons_append, List.nil_append]
          rcases hx with rfl | rfl
          exacts [hog, hi2]
        · intro x hx
          simp [Op.outputs, mkSum] at hx
          subst hx
          exact le_shift c 1 1 (by decide)
      · intro x hx
        simp at hx
        rcases hx with rfl
        exact defined_in_chain ns _ (Op.reduceToLike og i (c + 1)) _ (by simp)
            (by simp [Op.outputs, mkSum])
  | sum i o axis kd =>
    cases ogs with
    | nil => exact vjpGood_noPush ns c none hbelow hwf (by simp)
    | cons og rest =>
      have hog : Defined ns og := hogs og (by simp)
      have hi2 : Defined ns i := hin i (by simp [Op.inputs])
      simp only [Op.vjp, Graph.fresh, Graph.push, List.append_assoc,
        List.cons_append, List.nil_append]
      apply vjpGood_chain ns [Op.reshapeForBroadcast og (c + 1) axis kd, Op.broadcastLike (c + 1) i (c + 1 + 1)]
        c (c + 2) _ (le_shift c 0 2 (by decide)) ?_ hbelow hwf ?_
      · refine ⟨?_, ?_, ?_, ?_, trivial⟩
        · intro x hx
          simp [Op.inputs, mkSum] at hx
          try simp only [List.append_assoc, List.cons_append, List.nil_append]
          rcases hx with rfl
          exact hog
        · intro x hx
          simp [Op.outputs, mkSum] at hx
          subst hx
          exact le_shift c 1 2 (by decide)
        · intro x hx
          simp [Op.inputs, mkSum] at hx
          try simp only [List.append_assoc, List.cons_append, List.nil_append]
          rcases hx with rfl | rfl
          exacts [defined_append_right _ _ _ ⟨Op.reshapeForBroadcast og (c + 1) axis kd, by simp, by simp [Op.outputs, mkSum]⟩, defined_mono _ _ _ hi2]
        · intro x hx
          simp [Op.outputs, mkSum] at hx
          subst hx
          exact le_shift c 2 2 (by decide)
      · intro x hx
        simp at hx
        rcases hx with rfl
        exact defined_in_chain ns _ (Op.broadcastLike (c + 1) i (c + 1 + 1)) _ (by simp)
            (by simp [Op.outputs, mkSum])
  | reduceToLike i lk o =>
    cases ogs with
    | nil => exact vjpGood_noPush ns c none hbelow hwf (by simp)
    | cons og rest =>
      have hog : Defined ns og := hogs og (by simp)
      have hi2 : Defined ns i := hin i (by simp [Op.inputs])
      simp only [Op.vjp, Graph.fresh, Graph.push, List.append_assoc,
        List.cons_append, List.nil_append]
      apply vjpGood_chain ns [Op.broadcastLike og i (c + 1)]
        c (c + 1) _ (le_shift c 0 1 (by decide)) ?_ hbelow hwf ?_
      · refine ⟨?_, ?_, trivial⟩
        · intro x hx
          simp [Op.inputs, mkSum] at hx
          try simp only [List.append_assoc, List.cons_append, List.nil_append]
          rcases hx with rfl | rfl
          exacts [hog, hi2]
        · intro x hx
          simp [Op.outputs, mkSum] at hx
          subst hx
          exact le_shift c 1 1 (by decide)
      · intro x hx
        simp at hx
        rcases hx with rfl
        exact defined_in_chain ns _ (Op.broadcastLike og i (c + 1)) _ (by simp)
            (by simp [Op.outputs, mkSum])
  | reshapeForBroadcast i o axis kd => exact vjpGood_noPush ns c none hbelow hwf (by simp)
  | mean i o axis kd =>
    cases ogs with
    | nil => exact vjpGood_noPush ns c none hbelow hwf (by simp)
    | cons og rest =>
      have hog : Defined ns og := hogs og (by simp)
      have hi2 : Defined ns i := hin i (by simp [Op.inputs])
      simp only [Op.vjp, Graph.fresh, Graph.push, List.append_assoc,
        List.cons_append, List.nil_append]
      apply vjpGood_chain ns [Op.const 1 (c + 1), Op.broadcastLike (c + 1) i (c + 1 + 1), mkSum (c + 1 + 1) (c + 1 + 1 + 1) axis kd, Op.div og (c + 1 + 1 + 1) (c + 1 + 1 + 1 + 1), Op.reshapeForBroadcast (c + 1 + 1 + 1 + 1) (c + 1 + 1 + 1 + 1 + 1) axis kd, Op.broadcastLike (c + 1 + 1 + 1 + 1 + 1) i (c + 1 + 1 + 1 + 1 + 1 + 1)]
        c (c + 6) _ (le_shift c 0 6 (by decide)) ?_ hbelow hwf ?_
      · refine ⟨?_, ?_, ?_, ?_, ?_, ?_, ?_, ?_, ?_, ?_, ?_, ?_, trivial⟩
        · intro x hx
          simp [Op.inputs] at hx
        · intro x hx
          simp [Op.outputs, mkSum] at hx
          subst hx
          exact le_shift c 1 6 (by decide)
        · intro x hx
          simp [Op.inputs, mkSum] at hx
          try simp only [List.append_assoc, List.cons_append, List.nil_append]
          rcases hx with rfl | rfl
          exacts [defined_append_right _ _ _ ⟨Op.const 1 (c + 1), by simp, by simp [Op.outputs, mkSum]⟩, defined_mono _ _ _ hi2]
        · intro x hx
          simp [Op.outputs, mkSum] at hx
          subst hx
          exact le_shift c 2 6 (by decide)
        · intro x hx
          simp [Op.inputs, mkSum] at hx
          try simp only [List.append_assoc, List.cons_append, List.nil_append]
          rcases hx with rfl
          exact defined_append_right _ _ _ ⟨Op.broadcastLike (c + 1) i (c + 1 + 1), by simp, by simp [Op.outputs, mkSum]⟩
        · intro x hx
          simp [Op.outputs, mkSum] at hx
          subst hx
          exact le_shift c 3 6 (by decide)
        · intro x hx
          simp [Op.inputs, mkSum] at hx
          try simp only [List.append_assoc, List.cons_append, List.nil_append]
          rcases hx with rfl | rfl
          exacts [defined_mono _ _ _ hog, defined_append_right _ _ _ ⟨mkSum (c + 1 + 1) (c + 1 + 1 + 1) axis kd, by simp, by simp [Op.outputs, mkSum]⟩]
        · intro x hx
          simp [Op.outputs, mkSum] at hx
          subst hx
          exact le_shift c 4 6 (by decide)
        · intro x hx
          simp [Op.inputs, mkSum] at hx
          try simp only [List.append_assoc, List.cons_append, List.nil_append]
          rcases hx with rfl
          exact defined_append_right _ _ _ ⟨Op.div og (c + 1 + 1 + 1) (c + 1 + 1 + 1 + 1), by simp, by simp [Op.outputs, mkSum]⟩
        · intro x hx
          simp [Op.outputs, mkSum] at hx
          subst hx
          exact le_shift c 5 6 (by decide)
        · intro x hx
          simp [Op.inputs, mkSum] at hx
          try simp only [List.append_assoc, List.cons_append, List.nil_append]
          rcases hx with rfl | rfl
          exacts [defined_append_right _ _ _ ⟨Op.reshapeForBroadcast (c + 1 + 1 + 1 + 1) (c + 1 + 1 + 1 + 1 + 1) axis kd, by simp, by simp [Op.outputs, mkSum]⟩, defined_mono _ _ _ hi2]
        · intro x hx
          simp [Op.outputs, mkSum] at hx
          subst hx
          exact le_shift c 6 6 (by decide)
      · intro x hx
        simp at hx
        rcases hx with rfl
        exact defined_in_chain ns _ (Op.broadcastLike (c + 1 + 1 + 1 + 1 + 1) i (c + 1 + 1 + 1 + 1 + 1 + 1)) _ (by simp)
            (by simp [Op.outputs, mkSum])
  | max i o axis kd =>
    cases ogs with
    | nil => exact vjpGood_noPush ns c none hbelow hwf (by simp)
    | cons og rest =>
      have hog : Defined ns og := hogs og (by simp)
      have hi2 : Defined ns i := hin i (by simp [Op.inputs])
      have ho : Defined ns o := hout o (by simp [Op.outputs])
      simp only [Op.vjp, Graph.fresh, Graph.push, List.append_assoc,
        List.cons_append, List.nil_append]
      apply vjpGood_chain ns [Op.broadcastLike og i (c + 1), Op.broadcastLike o i (c + 1 + 1), Op.maxGradMask i (c + 1 + 1) (c + 1 + 1 + 1), mkSum (c + 1 + 1 + 1) (c + 1 + 1 + 1 + 1) axis kd, Op.broadcastLike (c + 1 + 1 + 1 + 1) i (c + 1 + 1 + 1 + 1 + 1), Op.mul (c + 1) (c + 1 + 1 + 1) (c + 1 + 1 + 1 + 1 + 1 + 1), Op.div (c + 1 + 1 + 1 + 1 + 1 + 1) (c + 1 + 1 + 1 + 1 + 1) (c + 1 + 1 + 1 + 1 + 1 + 1 + 1)]
        c (c + 7) _ (le_shift c 0 7 (by decide)) ?_ hbelow hwf ?_
      · refine ⟨?_, ?_, ?_, ?_, ?_, ?_, ?_, ?_, ?_, ?_, ?_, ?_, ?_, ?_, trivial⟩
        · intro x hx
          simp [Op.inputs, mkSum] at hx
          try simp only [List.append_assoc, List.cons_append, List.nil_append]
          rcases hx with rfl | rfl
          exacts [hog, hi2]
        · intro x hx
          simp [Op.outputs, mkSum] at hx
          subst hx
          exact le_shift c 1 7 (by decide)
        · intro x hx
          simp [Op.inputs, mkSum] at hx
          try simp only [List.append_assoc, List.cons_append, List.nil_append]
          rcases hx with rfl | rfl
          exacts [defined_mono _ _ _ ho, defined_mono _ _ _ hi2]
        · intro x hx
          simp [Op.outputs, mkSum] at hx
          subst hx
          exact le_shift c 2 7 (by decide)
        · intro x hx
          simp [Op.inputs, mkSum] at hx
          try simp only [List.append_assoc, List.cons_append, List.nil_append]
          rcases hx with rfl | rfl
          exacts [defined_mono _ _ _ hi2, defined_append_right _ _ _ ⟨Op.broadcastLike o i (c + 1 + 1), by simp, by simp [Op.outputs, mkSum]⟩]
        · intro x hx
          simp [Op.outputs, mkSum] at hx
          subst hx
          exact le_shift c 3 7 (by decide)
        · intro x hx
          simp [Op.inputs, mkSum] at hx
          try simp only [List.append_assoc, List.cons_append, List.nil_append]
          rcases hx with rfl
          exact defined_append_right _ _ _ ⟨Op.maxGradMask i (c + 1 + 1) (c + 1 + 1 + 1), by simp, by simp [Op.outputs, mkSum]⟩
        · intro x hx
          simp [Op.outputs, mkSum] at hx
          subst hx
          exact le_shift c 4 7 (by decide)
        · intro x hx
          simp [Op.inputs, mkSum] at hx
          try simp only [List.append_assoc, List.cons_append, List.nil_append]
          rcases hx with rfl | rfl
          exacts [defined_append_right _ _ _ ⟨mkSum (c + 1 + 1 + 1) (c + 1 + 1 + 1 + 1) axis kd, by simp, by simp [Op.outputs, mkSum]⟩, defined_mono _ _ _ hi2]
        · intro x hx
          simp [Op.outputs, mkSum] at hx
          subst hx
          exact le_shift c 5 7 (by decide)
        · intro x hx
          simp [Op.inputs, mkSum] at hx
          try simp only [List.append_assoc, List.cons_append, List.nil_append]
          rcases hx with rfl | rfl
          exacts [defined_append_right _ _ _ ⟨Op.broadcastLike og i (c + 1), by simp, by simp [Op.outputs, mkSum]⟩, defined_append_right _ _ _ ⟨Op.maxGradMask i (c + 1 + 1) (c + 1 + 1 + 1), by simp, by simp [Op.outputs, mkSum]⟩]
        · intro x hx
          simp [Op.outputs, mkSum] at hx
          subst hx
          exact le_shift c 6 7 (by decide)
        · intro x hx
          simp [Op.inputs, mkSum] at hx
          try simp only [List.append_assoc, List.cons_append, List.nil_append]
          rcases hx with rfl | rfl
          exacts [defined_append_right _ _ _ ⟨Op.mul (c + 1) (c + 1 + 1 + 1) (c + 1 + 1 + 1 + 1 + 1 + 1), by simp, by simp [Op.outputs, mkSum]⟩, defined_append_right _ _ _ ⟨Op.broadcastLike (c + 1 + 1 + 1 + 1) i (c + 1 + 1 + 1 + 1 + 1), by simp, by simp [Op.outputs, mkSum]⟩]
        · intro x hx
          simp [Op.outputs, mkSum] at hx
          subst hx
          exact le_shift c 7 7 (by decide)
      · intro x hx
        simp at hx
        rcases hx with rfl
        exact defined_in_chain ns _ (Op.div (c + 1 + 1 + 1 + 1 + 1 + 1) (c + 1 + 1 + 1 + 1 + 1) (c + 1 + 1 + 1 + 1 + 1 + 1 + 1)) _ (by simp)
            (by simp [Op.outputs, mkSum])
  | maxGradMask mx my o => exact vjpGood_noPush ns c none hbelow hwf (by simp)
  | relu i o =>
    cases ogs with
    | nil => exact vjpGood_noPush ns c none hbelow hwf (by simp)
    | cons og rest =>
      have hog : Defined ns og := hogs og (by simp)
      have hi2 : Defined ns i := hin i (by simp [Op.inputs])
      simp only [Op.vjp, Graph.fresh, Graph.push, List.append_assoc,
        List.cons_append, List.nil_append]
      apply vjpGood_chain ns [Op.reluGradMask i (c + 1), Op.mul og (c + 1) (c + 1 + 1)]
        c (c + 2) _ (le_shift c 0 2 (by decide)) ?_ hbelow hwf ?_
      · refine ⟨?_, ?_, ?_, ?_, trivial⟩
        · intro x hx
          simp [Op.inputs, mkSum] at hx
          try simp only [List.append_assoc, List.cons_append, List.nil_append]
          rcases hx with rfl
          exact hi2
        · intro x hx
          simp [Op.outputs, mkSum] at hx
          subst hx
          exact le_shift c 1 2 (by decide)
        · intro x hx
          simp [Op.inputs, mkSum] at hx
          try simp only [List.append_assoc, List.cons_append, List.nil_append]
          rcases hx with rfl | rfl
          exacts [defined_mono _ _ _ hog, defined_append_right _ _ _ ⟨Op.reluGradMask i (c + 1), by simp, by simp [Op.outputs, mkSum]⟩]
        · intro x hx
          simp [Op.outputs, mkSum] at hx
          subst hx
          exact le_shift c 2 2 (by decide)
      · intro x hx
        simp at hx
        rcases hx with rfl
        exact defined_in_chain ns _ (Op.mul og (c + 1) (c + 1 + 1)) _ (by simp)
            (by simp [Op.outputs, mkSum])
  | reluGradMask i o => exact vjpGood_noPush ns c none hbelow hwf (by simp)
  | exp i o =>
    cases ogs with
    | nil => exact vjpGood_noPush ns c none hbelow hwf (by simp)
    | cons og rest =>
      have hog : Defined ns og := hogs og (by simp)
      have hi2 : Defined ns i := hin i (by simp [Op.inputs])
      simp only [Op.vjp, Graph.fresh, Graph.push, List.append_assoc,
        List.cons_append, List.nil_append]
      apply vjpGood_chain ns [Op.exp i (c + 1), Op.mul og (c + 1) (c + 1 + 1)]
        c (c + 2) _ (le_shift c 0 2 (by decide)) ?_ hbelow hwf ?_
      · refine ⟨?_, ?_, ?_, ?_, trivial⟩
        · intro x hx
          simp [Op.inputs, mkSum] at hx
          try simp only [List.append_assoc, List.cons_append, List.nil_append]
          rcases hx with rfl
          exact hi2
        · intro x hx
          simp [Op.outputs, mkSum] at hx
          subst hx
          exact le_shift c 1 2 (by decide)
        · intro x hx
          simp [Op.inputs, mkSum] at hx
          try simp only [List.append_assoc, List.cons_append, List.nil_append]
          rcases hx with rfl | rfl
          exacts [defined_mono _ _ _ hog, defined_append_right _ _ _ ⟨Op.exp i (c + 1), by simp, by simp [Op.outputs, mkSum]⟩]
        · intro x hx
          simp [Op.outputs, mkSum] at hx
          subst hx
          exact le_shift c 2 2 (by decide)
      · intro x hx
        simp at hx
        rcases hx with rfl
        exact defined_in_chain ns _ (Op.mul og (c + 1) (c + 1 + 1)) _ (by simp)
            (by simp [Op.outputs, mkSum])
  | log i o =>
    cases ogs with
    | nil => exact vjpGood_noPush ns c none hbelow hwf (by simp)
    | cons og rest =>
      have hog : Defined ns og := hogs og (by simp)
      have hi2 : Defined ns i := hin i (by simp [Op.inputs])
      simp only [Op.vjp, Graph.fresh, Graph.push, List.append_assoc,
        List.cons_append, List.nil_append]
      apply vjpGood_chain ns [Op.const 1 (c + 1 + 1), Op.div (c + 1 + 1) i (c + 1 + 1 + 1), Op.mul og (c + 1 + 1 + 1) (c + 1)]
        c (c + 3) _ (le_shift c 0 3 (by decide)) ?_ hbelow hwf ?_
      · refine ⟨?_, ?_, ?_, ?_, ?_, ?_, trivial⟩
        · intro x hx
          simp [Op.inputs] at hx
        · intro x hx
          simp [Op.outputs, mkSum] at hx
          subst hx
          exact le_shift c 2 3 (by decide)
        · intro x hx
          simp [Op.inputs, mkSum] at hx
          try simp only [List.append_assoc, List.cons_append, List.nil_append]
          rcases hx with rfl | rfl
          exacts [defined_append_right _ _ _ ⟨Op.const 1 (c + 1 + 1), by simp, by simp [Op.outputs, mkSum]⟩, defined_mono _ _ _ hi2]
        · intro x hx
          simp [Op.outputs, mkSum] at hx
          subst hx
          exact le_shift c 3 3 (by decide)
        · intro x hx
          simp [Op.inputs, mkSum] at hx
          try simp only [List.append_assoc, List.cons_append, List.nil_append]
          rcases hx with rfl | rfl
          exacts [defined_mono _ _ _ hog, defined_append_right _ _ _ ⟨Op.div (c + 1 + 1) i (c + 1 + 1 + 1), by simp, by simp [Op.outputs, mkSum]⟩]
        · intro x hx
          simp [Op.outputs, mkSum] at hx
          subst hx
          exact le_shift c 1 3 (by decide)
      · intro x hx
        simp at hx
        rcases hx with rfl
        exact defined_in_chain ns _ (Op.mul og (c + 1 + 1 + 1) (c + 1)) _ (by simp)
            (by simp [Op.outputs, mkSum])

end Chainrule

namespace Chainrule

/-- Invariant of the backward walk relative to the snapshot being iterated
and the scalar objective identifier: the allocator stays sane, the ordering
invariant holds, the graph extends the snapshot, every gradient identifier
in the map is defined in the current graph, and every key of the map
influences the scalar objective inside the snapshot. -/
def WalkInv (snap : List Op) (sid : Id) (st : Graph × GradMap) : Prop :=
  st.1.freelist = [] ∧
    IdsBelow st.1.nodes st.1.counter ∧
    StrongWF st.1.nodes ∧
    (∃ ext, st.1.nodes = snap ++ ext) ∧
    (∀ k v, st.2 k = some v → Defined st.1.nodes v) ∧
    (∀ k v, st.2 k = some v → Influences snap k sid)

theorem strongWF_inputs_defined (ns : List Op) (hwf : StrongWF ns) (op : Op)
    (hop : op ∈ ns) : ∀ x ∈ op.inputs, Defined ns x := by
  intro x hx
  obtain ⟨i, hi, hget⟩ := List.getElem_of_mem hop
  obtain ⟨j, opj, hj, hjget, hjout⟩ :=
    hwf i op (by rw [List.getElem?_eq_getElem hi]; exact congrArg some hget) x hx
  have hmem : opj ∈ ns := by
    have hjlt : j < ns.length := by
      by_contra hge
      rw [List.getElem?_eq_none (Nat.le_of_not_lt hge)] at hjget
      exact Option.noConfusion hjget
    rw [List.getElem?_eq_getElem hjlt] at hjget
    cases hjget
    exact List.getElem_mem hjlt
  exact ⟨opj, hmem, hjout⟩

theorem gradMap_set_self (m : GradMap) (k v : Id) : m.set k v k = some v := by
  simp [GradMap.set]

theorem gradMap_set_other (m : GradMap) (k v x : Id) (h : x ≠ k) :
    m.set k v x = m x := by
  simp [GradMap.set, h]

theorem accumStep_none (g : Graph) (grads : GradMap) (inp contrib : Id)
    (h : grads inp = none) :
    accumStep (g, grads) (inp, contrib) = (g, grads.set inp contrib) := by
  simp [accumStep, h]

theorem accumStep_some (ns : List Op) (c : Nat) (grads : GradMap)
    (inp contrib existing : Id) (h : grads inp = some existing) :
    accumStep (⟨ns, c, []⟩, grads) (inp, contrib) =
      (⟨ns ++ [.add existing contrib (c + 1)], c + 1, []⟩,
        grads.set inp (c + 1)) := by
  simp [accumStep, h, Graph.fresh, Graph.push]

theorem accumStep_inv (snap : List Op) (sid : Id) (st : Graph × GradMap)
    (pair : Id × Id) (hinv : WalkInv snap sid st)
    (hkey : Influences snap pair.1 sid)
    (hval : Defined st.1.nodes pair.2) :
    WalkInv snap sid (accumStep st pair) ∧
      ∃ ext2, (accumStep st pair).1.nodes = st.1.nodes ++ ext2 := by
  obtain ⟨hfl, hbelow, hwf, ⟨ext, hext⟩, hvals, hkeys⟩ := hinv
  rcases st with ⟨g, grads⟩
  rcases pair with ⟨inp, contrib⟩
  rcases g with ⟨ns, c, fl⟩
  simp only at hfl hbelow hwf hext hvals hkeys hval hkey
  subst hfl
  cases hmatch : grads inp with
  | none =>
    rw [accumStep_none _ _ _ _ hmatch]
    simp only
    refine ⟨⟨rfl, hbelow, hwf, ⟨ext, hext⟩, ?_, ?_⟩, [], by simp⟩
    · intro k v hv
      by_cases hk : k = inp
      · subst hk
        simp only at hv
        rw [gradMap_set_self] at hv
        cases hv
        exact hval
      · simp only at hv
        rw [gradMap_set_other _ _ _ _ hk] at hv
        exact hvals k v hv
    · intro k v hv
      by_cases hk : k = inp
      · subst hk
        exact hkey
      · simp only at hv
        rw [gradMap_set_other _ _ _ _ hk] at hv
        exact hkeys k v hv
  | some existing =>
    rw [accumStep_some _ _ _ _ _ _ hmatch]
    have hexist : Defined ns existing := hvals inp existing hmatch
    have hcon : ChainOK ns (c + 1) [Op.add existing contrib (c + 1)] := by
      refine ⟨?_, ?_, trivial⟩
      · intro x hx
        simp [Op.inputs] at hx
        rcases hx with rfl | rfl
        exacts [hexist, hval]
      · intro x hx
        simp [Op.outputs] at hx
        subst hx
        exact Nat.le_refl _
    obtain ⟨hwf2, hbelow2⟩ := chainOK_good _ ns (c + 1) hwf
      (idsBelow_mono ns c (c + 1) hbelow (Nat.le_succ c)) hcon
    refine ⟨⟨rfl, hbelow2, hwf2, ⟨ext ++ [Op.add existing contrib (c + 1)], by
      simp [hext]⟩, ?_, ?_⟩, [Op.add existing contrib (c + 1)], by simp⟩
    · intro k v hv
      by_cases hk : k = inp
      · subst hk
        simp only at hv
        rw [gradMap_set_self] at hv
        cases hv
        exact ⟨Op.add existing contrib (c + 1), by simp, by simp [Op.outputs]⟩
      · simp only at hv
        rw [gradMap_set_other _ _ _ _ hk] at hv
        exact defined_mono _ _ _ (hvals k v hv)
    · intro k v hv
      by_cases hk : k = inp
      · subst hk
        exact hkey
      · simp only at hv
        rw [gradMap_set_other _ _ _ _ hk] at hv
        exact hkeys k v hv

theorem accumulatePairs_inv (snap : List Op) (sid : Id)
    (pairs : List (Id × Id)) (st : Graph × GradMap)
    (hinv : WalkInv snap sid st)
    (hkeys : ∀ p ∈ pairs, Influences snap p.1 sid)
    (hvals : ∀ p ∈ pairs, Defined st.1.nodes p.2) :
    WalkInv snap sid (accumulatePairs st pairs) := by
  induction pairs generalizing st with
  | nil => exact hinv
  | cons pair ps ih =>
    obtain ⟨hinv2, ext2, hext2⟩ := accumStep_inv snap sid st pair hinv
      (hkeys pair (by simp)) (hvals pair (by simp))
    have hvals2 : ∀ p ∈ ps, Defined (accumStep st pair).1.nodes p.2 := by
      intro p hp
      rw [hext2]
      exact defined_mono _ _ _ (hvals p (by simp [hp]))
    exact ih (accumStep st pair) hinv2 (fun p hp => hkeys p (by simp [hp])) hvals2

theorem vjpStep_inv (snap : List Op) (sid : Id) (st : Graph × GradMap)
    (node : Op) (hnode : node ∈ snap) (hinv : WalkInv snap sid st) :
    WalkInv snap sid (vjpStep st node) := by
  obtain ⟨hfl, hbelow, hwf, ⟨ext, hext⟩, hvals, hkeys⟩ := hinv
  rcases st with ⟨g, grads⟩
  simp only at hfl hbelow hwf hext hvals hkeys
  show WalkInv snap sid (vjpStep (g, grads) node)
  rw [vjpStep]
  by_cases hempty : (node.outputs.filterMap grads).isEmpty = true
  · rw [if_pos hempty]
    exact ⟨hfl, hbelow, hwf, ⟨ext, hext⟩, hvals, hkeys⟩
  · rw [if_neg hempty]
    have hnodeg : node ∈ g.nodes := by
      rw [hext]
      exact List.mem_append_left _ hnode
    have hgood := vjp_good node g (node.outputs.filterMap grads) hfl hbelow hwf
      (strongWF_inputs_defined g.nodes hwf node hnodeg)
      (fun x hx => ⟨node, hnodeg, hx⟩)
      (by
        intro x hx
        obtain ⟨o, ho, hgo⟩ := List.mem_filterMap.mp hx
        exact hvals o x hgo)
    obtain ⟨out0, hout0⟩ : ∃ o, o ∈ node.outputs ∧ ∃ v, grads o = some v := by
      have : node.outputs.filterMap grads ≠ [] := by
        intro hcon
        rw [hcon] at hempty
        simp at hempty
      obtain ⟨v, hv⟩ := List.exists_mem_of_ne_nil _ this
      obtain ⟨o, ho, hgo⟩ := List.mem_filterMap.mp hv
      exact ⟨o, ho, v, hgo⟩
    have hinf_inputs : ∀ inp ∈ node.inputs, Influences snap inp sid := by
      intro inp hinp
      obtain ⟨ho, v, hgo⟩ := hout0
      exact Influences.step inp out0 sid node hnode hinp ho (hkeys out0 v hgo)
    obtain ⟨⟨ext3, hext3⟩, hfl3, hc3, hbelow3, hwf3, hres⟩ := hgood
    cases hvjp : node.vjp g (node.outputs.filterMap grads) with
    | mk res g2 =>
      rw [hvjp] at hext3 hfl3 hc3 hbelow3 hwf3 hres
      simp only at hext3 hfl3 hc3 hbelow3 hwf3 hres
      cases res with
      | none =>
        simp only
        refine ⟨hfl3, hbelow3, hwf3, ⟨ext ++ ext3, by simp [hext3, hext]⟩, ?_, hkeys⟩
        intro k v hv
        rw [hext3]
        exact defined_mono _ _ _ (hvals k v hv)
      | some inpGrad =>
        simp only
        apply accumulatePairs_inv snap sid _ (g2, grads)
        · refine ⟨hfl3, hbelow3, hwf3, ⟨ext ++ ext3, by simp [hext3, hext]⟩, ?_, hkeys⟩
          intro k v hv
          rw [hext3]
          exact defined_mono _ _ _ (hvals k v hv)
        · intro p hp
          exact hinf_inputs p.1 (List.of_mem_zip hp).1
        · intro p hp
          exact hres inpGrad rfl p.2 (List.of_mem_zip hp).2

theorem walkFold_inv (snap : List Op) (sid : Id) (l : List Op)
    (hl : ∀ n ∈ l, n ∈ snap) (st : Graph × GradMap)
    (hinv : WalkInv snap sid st) :
    WalkInv snap sid (l.foldl vjpStep st) := by
  induction l generalizing st with
  | nil => exact hinv
  | cons node rest ih =>
    exact ih (fun n hn => hl n (by simp [hn])) (vjpStep st node)
      (vjpStep_inv snap sid st node (hl node (by simp)) hinv)

theorem gradWalk_inv (snap : List Op) (sid : Id) (g : Graph) (grads : GradMap)
    (hinv : WalkInv snap sid (g, grads)) :
    WalkInv snap sid (gradWalk snap g grads) := by
  apply walkFold_inv snap sid snap.reverse _ (g, grads) hinv
  intro n hn
  exact List.mem_reverse.mp hn

end Chainrule

namespace Chainrule

theorem addFoldStep_eq (ns : List Op) (c : Nat) (fid oid : Id) :
    addFoldStep (fid, ⟨ns, c, []⟩) oid =
      (c + 1, ⟨ns ++ [.add fid oid (c + 1)], c + 1, []⟩) := by
  simp [addFoldStep, Graph.fresh, Graph.push]

theorem addFold_good (rest : List Id) (fid0 : Id) (g0 : Graph)
    (hwf : StrongWF g0.nodes) (hfl : g0.freelist = [])
    (hbelow : IdsBelow g0.nodes g0.counter)
    (hfid : Defined g0.nodes fid0)
    (hrest : ∀ o ∈ rest, Defined g0.nodes o) :
    ∃ fid g1 adds, rest.foldl addFoldStep (fid0, g0) = (fid, g1) ∧
      g1.nodes = g0.nodes ++ adds ∧ g1.freelist = [] ∧
      IdsBelow g1.nodes g1.counter ∧ StrongWF g1.nodes ∧
      Defined g1.nodes fid ∧ g0.counter ≤ g1.counter := by
  induction rest generalizing fid0 g0 with
  | nil =>
    exact ⟨fid0, g0, [], rfl, by simp, hfl, hbelow, hwf, hfid, Nat.le_refl _⟩
  | cons oid rest2 ih =>
    rcases g0 with ⟨ns, c, fl⟩
    simp only at hfl hbelow hwf hfid hrest
    subst hfl
    rw [List.foldl_cons, addFoldStep_eq]
    have hoid : Defined ns oid := hrest oid (by simp)
    have hchain : ChainOK ns (c + 1) [Op.add fid0 oid (c + 1)] := by
      refine ⟨?_, ?_, trivial⟩
      · intro x hx
        simp [Op.inputs] at hx
        rcases hx with rfl | rfl
        exacts [hfid, hoid]
      · intro x hx
        simp [Op.outputs] at hx
        subst hx
        exact Nat.le_refl _
    obtain ⟨hwf2, hbelow2⟩ := chainOK_good _ ns (c + 1) hwf
      (idsBelow_mono ns c (c + 1) hbelow (Nat.le_succ c)) hchain
    obtain ⟨fid, g1, adds, heq, hnodes, hfl1, hb1, hwf1, hd1, hc1⟩ :=
      ih (c + 1) ⟨ns ++ [Op.add fid0 oid (c + 1)], c + 1, []⟩ hwf2 rfl hbelow2
        ⟨Op.add fid0 oid (c + 1), by simp, by simp [Op.outputs]⟩
        (fun o ho => defined_mono _ _ _ (hrest o (by simp [ho])))
    refine ⟨fid, g1, [Op.add fid0 oid (c + 1)] ++ adds, heq, ?_, hfl1, hb1,
      hwf1, hd1, Nat.le_trans (Nat.le_succ c) hc1⟩
    simp only at hnodes
    rw [hnodes]
    simp

theorem gradPrelude_good (f : TraceableFn) (fo : Id) (rest : List Id)
    (hwf : StrongWF f.graph.nodes) (hfl : f.graph.freelist = [])
    (hbelow : IdsBelow f.graph.nodes f.graph.counter)
    (hfo : Defined f.graph.nodes fo)
    (hrest : ∀ o ∈ rest, Defined f.graph.nodes o) :
    ∃ g5 sid seed, gradPrelude f fo rest = (g5, sid, seed) ∧
      (∃ adds finalId, g5.nodes = f.graph.nodes ++ adds ++
        [mkSum finalId sid [] false, Op.const 1 seed]) ∧
      g5.freelist = [] ∧ IdsBelow g5.nodes g5.counter ∧ StrongWF g5.nodes ∧
      Defined g5.nodes seed ∧ f.graph.counter ≤ g5.counter ∧
      f.graph.counter < sid ∧ sid < seed ∧ seed = g5.counter := by
  obtain ⟨fid, g1, adds, heq, hnodes, hfl1, hb1, hwf1, hd1, hc1⟩ :=
    addFold_good rest fo f.graph hwf hfl hbelow hfo hrest
  rcases g1 with ⟨ns1, c1, fl1⟩
  simp only at hnodes hfl1 hb1 hwf1 hd1 hc1
  subst hfl1
  have hchain : ChainOK ns1 (c1 + 1 + 1)
      [mkSum fid (c1 + 1) [] false, Op.const 1 (c1 + 1 + 1)] := by
    refine ⟨?_, ?_, ?_, ?_, trivial⟩
    · intro x hx
      simp [mkSum, Op.inputs] at hx
      rcases hx with rfl
      exact hd1
    · intro x hx
      simp [mkSum, Op.outputs] at hx
      subst hx
      exact le_shift c1 1 2 (by decide)
    · intro x hx
      simp [Op.inputs] at hx
    · intro x hx
      simp [Op.outputs] at hx
      subst hx
      exact le_shift c1 2 2 (by decide)
  obtain ⟨hwf5, hb5⟩ := chainOK_good _ ns1 (c1 + 1 + 1) hwf1
    (idsBelow_mono _ _ _ hb1 (le_shift c1 0 2 (by decide))) hchain
  refine ⟨⟨ns1 ++ [mkSum fid (c1 + 1) [] false, Op.const 1 (c1 + 1 + 1)],
      c1 + 1 + 1, []⟩, c1 + 1, c1 + 1 + 1, ?_, ?_, rfl, hb5, ?_, ?_, ?_, ?_, ?_, rfl⟩
  · show gradPrelude f fo rest = _
    rw [gradPrelude]
    simp only [heq, Graph.fresh, Graph.push]
    simp [List.append_assoc]
  · exact ⟨adds, fid, by rw [hnodes]⟩
  · simpa using hwf5
  · exact ⟨Op.const 1 (c1 + 1 + 1), by simp, by simp [Op.outputs]⟩
  · exact Nat.le_trans hc1 (le_shift c1 0 2 (by decide))
  · exact Nat.lt_of_le_of_lt hc1 (by exact Nat.lt_succ_of_le (Nat.le_refl c1))
  · exact Nat.lt_succ_of_le (Nat.le_refl _)

end Chainrule

namespace Chainrule

theorem getD_mem_of_lt (ts : List Id) (a : Nat) (h : a < ts.length) :
    ts[a]?.getD 0 ∈ ts := by
  rw [List.getElem?_eq_getElem h]
  exact List.getElem_mem h

theorem runCmd_good (g : Graph) (ts : List Id) (cv : Cmd)
    (hwf : StrongWF g.nodes) (hfl : g.freelist = [])
    (hbelow : IdsBelow g.nodes g.counter)
    (hts : ∀ t ∈ ts, Defined g.nodes t)
    (hargs : ∀ a ∈ cv.args, a < ts.length) :
    ∃ g2 o, runCmd (g, ts) cv = (g2, ts ++ [o]) ∧ StrongWF g2.nodes ∧
      g2.freelist = [] ∧ IdsBelow g2.nodes g2.counter ∧
      (∀ t ∈ ts ++ [o], Defined g2.nodes t) ∧
      (∃ ext, g2.nodes = g.nodes ++ ext) := by
  rcases g with ⟨ns, n, fl⟩
  simp only at hfl hbelow hwf hts
  subst hfl
  cases cv with
  | input =>
    simp only [runCmd, Graph.fresh, Graph.push]
    refine ⟨_, n + 1, rfl, ?_, rfl, ?_, ?_, ⟨[Op.input (n + 1)], rfl⟩⟩
    · refine (chainOK_good [Op.input (n + 1)] ns (n + 1) hwf
        (idsBelow_mono ns n (n + 1) hbelow (Nat.le_succ n)) ?_).1
      refine ⟨?_, ?_, trivial⟩
      · intro x hx
        simp [Op.inputs] at hx
      · intro x hx
        simp [Op.outputs, mkSum, mkMax, mkMean] at hx
        subst hx
        exact Nat.le_refl _
    · refine (chainOK_good [Op.input (n + 1)] ns (n + 1) hwf
        (idsBelow_mono ns n (n + 1) hbelow (Nat.le_succ n)) ?_).2
      refine ⟨?_, ?_, trivial⟩
      · intro x hx
        simp [Op.inputs] at hx
      · intro x hx
        simp [Op.outputs, mkSum, mkMax, mkMean] at hx
        subst hx
        exact Nat.le_refl _
    · intro t ht
      rcases List.mem_append.mp ht with ht | ht
      · exact defined_mono _ _ _ (hts t ht)
      · rw [List.mem_singleton] at ht
        subst ht
        exact ⟨Op.input (n + 1), by simp, by simp [Op.outputs, mkSum, mkMax, mkMean]⟩
  | constant v =>
    simp only [runCmd, Graph.fresh, Graph.push]
    refine ⟨_, n + 1, rfl, ?_, rfl, ?_, ?_, ⟨[Op.const v (n + 1)], rfl⟩⟩
    · refine (chainOK_good [Op.const v (n + 1)] ns (n + 1) hwf
        (idsBelow_mono ns n (n + 1) hbelow (Nat.le_succ n)) ?_).1
      refine ⟨?_, ?_, trivial⟩
      · intro x hx
        simp [Op.inputs] at hx
      · intro x hx
        simp [Op.outputs, mkSum, mkMax, mkMean] at hx
        subst hx
        exact Nat.le_refl _
    · refine (chainOK_good [Op.const v (n + 1)] ns (n + 1) hwf
        (idsBelow_mono ns n (n + 1) hbelow (Nat.le_succ n)) ?_).2
      refine ⟨?_, ?_, trivial⟩
      · intro x hx
        simp [Op.inputs] at hx
      · intro x hx
        simp [Op.outputs, mkSum, mkMax, mkMean] at hx
        subst hx
        exact Nat.le_refl _
    · intro t ht
      rcases List.mem_append.mp ht with ht | ht
      · exact defined_mono _ _ _ (hts t ht)
      · rw [List.mem_singleton] at ht
        subst ht
        exact ⟨Op.const v (n + 1), by simp, by simp [Op.outputs, mkSum, mkMax, mkMean]⟩
  | add a b =>
    have ha : Defined ns (ts[a]?.getD 0) :=
      hts _ (getD_mem_of_lt ts a (hargs a (by simp [Cmd.args])))
    have hb : Defined ns (ts[b]?.getD 0) :=
      hts _ (getD_mem_of_lt ts b (hargs b (by simp [Cmd.args])))
    simp only [runCmd, Graph.fresh, Graph.push]
    refine ⟨_, n + 1, rfl, ?_, rfl, ?_, ?_, ⟨[Op.add (ts.getD a 0) (ts.getD b 0) (n + 1)], rfl⟩⟩
    · refine (chainOK_good [Op.add (ts.getD a 0) (ts.getD b 0) (n + 1)] ns (n + 1) hwf
        (idsBelow_mono ns n (n + 1) hbelow (Nat.le_succ n)) ?_).1
      refine ⟨?_, ?_, trivial⟩
      · intro x hx
        simp [Op.inputs, mkSum, mkMax, mkMean] at hx
        rcases hx with rfl | rfl
        exacts [ha, hb]
      · intro x hx
        simp [Op.outputs, mkSum, mkMax, mkMean] at hx
        subst hx
        exact Nat.le_refl _
    · refine (chainOK_good [Op.add (ts.getD a 0) (ts.getD b 0) (n + 1)] ns (n + 1) hwf
        (idsBelow_mono ns n (n + 1) hbelow (Nat.le_succ n)) ?_).2
      refine ⟨?_, ?_, trivial⟩
      · intro x hx
        simp [Op.inputs, mkSum, mkMax, mkMean] at hx
        rcases hx with rfl | rfl
        exacts [ha, hb]
      · intro x hx
        simp [Op.outputs, mkSum, mkMax, mkMean] at hx
        subst hx
        exact Nat.le_refl _
    · intro t ht
      rcases List.mem_append.mp ht with ht | ht
      · exact defined_mono _ _ _ (hts t ht)
      · rw [List.mem_singleton] at ht
        subst ht
        exact ⟨Op.add (ts.getD a 0) (ts.getD b 0) (n + 1), by simp, by simp [Op.outputs, mkSum, mkMax, mkMean]⟩
  | sub a b =>
    have ha : Defined ns (ts[a]?.getD 0) :=
      hts _ (getD_mem_of_lt ts a (hargs a (by simp [Cmd.args])))
    have hb : Defined ns (ts[b]?.getD 0) :=
      hts _ (getD_mem_of_lt ts b (hargs b (by simp [Cmd.args])))
    simp only [runCmd, Graph.fresh, Graph.push]
    refine ⟨_, n + 1, rfl, ?_, rfl, ?_, ?_, ⟨[Op.sub (ts.getD a 0) (ts.getD b 0) (n + 1)], rfl⟩⟩
    · refine (chainOK_good [Op.sub (ts.getD a 0) (ts.getD b 0) (n + 1)] ns (n + 1) hwf
        (idsBelow_mono ns n (n + 1) hbelow (Nat.le_succ n)) ?_).1
      refine ⟨?_, ?_, trivial⟩
      · intro x hx
        simp [Op.inputs, mkSum, mkMax, mkMean] at hx
        rcases hx with rfl | rfl
        exacts [ha, hb]
      · intro x hx
        simp [Op.outputs, mkSum, mkMax, mkMean] at hx
        subst hx
        exact Nat.le_refl _
    · refine (chainOK_good [Op.sub (ts.getD a 0) (ts.getD b 0) (n + 1)] ns (n + 1) hwf
        (idsBelow_mono ns n (n + 1) hbelow (Nat.le_succ n)) ?_).2
      refine ⟨?_, ?_, trivial⟩
      · intro x hx
        simp [Op.inputs, mkSum, mkMax, mkMean] at hx
        rcases hx with rfl | rfl
        exacts [ha, hb]
      · intro x hx
        simp [Op.outputs, mkSum, mkMax, mkMean] at hx
        subst hx
        exact Nat.le_refl _
    · intro t ht
      rcases List.mem_append.mp ht with ht | ht
      · exact defined_mono _ _ _ (hts t ht)
      · rw [List.mem_singleton] at ht
        subst ht
        exact ⟨Op.sub (ts.getD a 0) (ts.getD b 0) (n + 1), by simp, by simp [Op.outputs, mkSum, mkMax, mkMean]⟩
  | mul a b =>
    have ha : Defined ns (ts[a]?.getD 0) :=
      hts _ (getD_mem_of_lt ts a (hargs a (by simp [Cmd.args])))
    have hb : Defined ns (ts[b]?.getD 0) :=
      hts _ (getD_mem_of_lt ts b (hargs b (by simp [Cmd.args])))
    simp only [runCmd, Graph.fresh, Graph.push]
    refine ⟨_, n + 1, rfl, ?_, rfl, ?_, ?_, ⟨[Op.mul (ts.getD a 0) (ts.getD b 0) (n + 1)], rfl⟩⟩
    · refine (chainOK_good [Op.mul (ts.getD a 0) (ts.getD b 0) (n + 1)] ns (n + 1) hwf
        (idsBelow_mono ns n (n + 1) hbelow (Nat.le_succ n)) ?_).1
      refine ⟨?_, ?_, trivial⟩
      · intro x hx
        simp [Op.inputs, mkSum, mkMax, mkMean] at hx
        rcases hx with rfl | rfl
        exacts [ha, hb]
      · intro x hx
        simp [Op.outputs, mkSum, mkMax, mkMean] at hx
        subst hx
        exact Nat.le_refl _
    · refine (chainOK_good [Op.mul (ts.getD a 0) (ts.getD b 0) (n + 1)] ns (n + 1) hwf
        (idsBelow_mono ns n (n + 1) hbelow (Nat.le_succ n)) ?_).2
      refine ⟨?_, ?_, trivial⟩
      · intro x hx
        simp [Op.inputs, mkSum, mkMax, mkMean] at hx
        rcases hx with rfl | rfl
        exacts [ha, hb]
      · intro x hx
        simp [Op.outputs, mkSum, mkMax, mkMean] at hx
        subst hx
        exact Nat.le_refl _
    · intro t ht
      rcases List.mem_append.mp ht with ht | ht
      · exact defined_mono _ _ _ (hts t ht)
      · rw [List.mem_singleton] at ht
        subst ht
        exact ⟨Op.mul (ts.getD a 0) (ts.getD b 0) (n + 1), by simp, by simp [Op.outputs, mkSum, mkMax, mkMean]⟩
  | neg a =>
    have ha : Defined ns (ts[a]?.getD 0) :=
      hts _ (getD_mem_of_lt ts a (hargs a (by simp [Cmd.args])))
    simp only [runCmd, Graph.fresh, Graph.push]
    refine ⟨_, n + 1, rfl, ?_, rfl, ?_, ?_, ⟨[Op.neg (ts.getD a 0) (n + 1)], rfl⟩⟩
    · refine (chainOK_good [Op.neg (ts.getD a 0) (n + 1)] ns (n + 1) hwf
        (idsBelow_mono ns n (n + 1) hbelow (Nat.le_succ n)) ?_).1
      refine ⟨?_, ?_, trivial⟩
      · intro x hx
        simp [Op.inputs, mkSum, mkMax, mkMean] at hx
        rcases hx with rfl
        exact ha
      · intro x hx
        simp [Op.outputs, mkSum, mkMax, mkMean] at hx
        subst hx
        exact Nat.le_refl _
    · refine (chainOK_good [Op.neg (ts.getD a 0) (n + 1)] ns (n + 1) hwf
        (idsBelow_mono ns n (n + 1) hbelow (Nat.le_succ n)) ?_).2
      refine ⟨?_, ?_, trivial⟩
      · intro x hx
        simp [Op.inputs, mkSum, mkMax, mkMean] at hx
        rcases hx with rfl
        exact ha
      · intro x hx
        simp [Op.outputs, mkSum, mkMax, mkMean] at hx
        subst hx
        exact Nat.le_refl _
    · intro t ht
      rcases List.mem_append.mp ht with ht | ht
      · exact defined_mono _ _ _ (hts t ht)
      · rw [List.mem_singleton] at ht
        subst ht
        exact ⟨Op.neg (ts.getD a 0) (n + 1), by simp, by simp [Op.outputs, mkSum, mkMax, mkMean]⟩
  | matmul a b =>
    have ha : Defined ns (ts[a]?.getD 0) :=
      hts _ (getD_mem_of_lt ts a (hargs a (by simp [Cmd.args])))
    have hb : Defined ns (ts[b]?.getD 0) :=
      hts _ (getD_mem_of_lt ts b (hargs b (by simp [Cmd.args])))
    simp only [runCmd, Graph.fresh, Graph.push]
    refine ⟨_, n + 1, rfl, ?_, rfl, ?_, ?_, ⟨[Op.matmul (ts.getD a 0) (ts.getD b 0) (n + 1)], rfl⟩⟩
    · refine (chainOK_good [Op.matmul (ts.getD a 0) (ts.getD b 0) (n + 1)] ns (n + 1) hwf
        (idsBelow_mono ns n (n + 1) hbelow (Nat.le_succ n)) ?_).1
      refine ⟨?_, ?_, trivial⟩
      · intro x hx
        simp [Op.inputs, mkSum, mkMax, mkMean] at hx
        rcases hx with rfl | rfl
        exacts [ha, hb]
      · intro x hx
        simp [Op.outputs, mkSum, mkMax, mkMean] at hx
        subst hx
        exact Nat.le_refl _
    · refine (chainOK_good [Op.matmul (ts.getD a 0) (ts.getD b 0) (n + 1)] ns (n + 1) hwf
        (idsBelow_mono ns n (n + 1) hbelow (Nat.le_succ n)) ?_).2
      refine ⟨?_, ?_, trivial⟩
      · intro x hx
        simp [Op.inputs, mkSum, mkMax, mkMean] at hx
        rcases hx with rfl | rfl
        exacts [ha, hb]
      · intro x hx
        simp [Op.outputs, mkSum, mkMax, mkMean] at hx
        subst hx
        exact Nat.le_refl _
    · intro t ht
      rcases List.mem_append.mp ht with ht | ht
      · exact defined_mono _ _ _ (hts t ht)
      · rw [List.mem_singleton] at ht
        subst ht
        exact ⟨Op.matmul (ts.getD a 0) (ts.getD b 0) (n + 1), by simp, by simp [Op.outputs, mkSum, mkMax, mkMean]⟩
  | t a =>
    have ha : Defined ns (ts[a]?.getD 0) :=
      hts _ (getD_mem_of_lt ts a (hargs a (by simp [Cmd.args])))
    simp only [runCmd, Graph.fresh, Graph.push]
    refine ⟨_, n + 1, rfl, ?_, rfl, ?_, ?_, ⟨[Op.transposeDefault (ts.getD a 0) (n + 1)], rfl⟩⟩
    · refine (chainOK_good [Op.transposeDefault (ts.getD a 0) (n + 1)] ns (n + 1) hwf
        (idsBelow_mono ns n (n + 1) hbelow (Nat.le_succ n)) ?_).1
      refine ⟨?_, ?_, trivial⟩
      · intro x hx
        simp [Op.inputs, mkSum, mkMax, mkMean] at hx
        rcases hx with rfl
        exact ha
      · intro x hx
        simp [Op.outputs, mkSum, mkMax, mkMean] at hx
        subst hx
        exact Nat.le_refl _
    · refine (chainOK_good [Op.transposeDefault (ts.getD a 0) (n + 1)] ns (n + 1) hwf
        (idsBelow_mono ns n (n + 1) hbelow (Nat.le_succ n)) ?_).2
      refine ⟨?_, ?_, trivial⟩
      · intro x hx
        simp [Op.inputs, mkSum, mkMax, mkMean] at hx
        rcases hx with rfl
        exact ha
      · intro x hx
        simp [Op.outputs, mkSum, mkMax, mkMean] at hx
        subst hx
        exact Nat.le_refl _
    · intro t ht
      rcases List.mem_append.mp ht with ht | ht
      · exact defined_mono _ _ _ (hts t ht)
      · rw [List.mem_singleton] at ht
        subst ht
        exact ⟨Op.transposeDefault (ts.getD a 0) (n + 1), by simp, by simp [Op.outputs, mkSum, mkMax, mkMean]⟩
  | transpose a a1 a2 =>
    have ha : Defined ns (ts[a]?.getD 0) :=
      hts _ (getD_mem_of_lt ts a (hargs a (by simp [Cmd.args])))
    simp only [runCmd, Graph.fresh, Graph.push]
    refine ⟨_, n + 1, rfl, ?_, rfl, ?_, ?_, ⟨[Op.transpose (ts.getD a 0) (n + 1) a1 a2], rfl⟩⟩
    · refine (chainOK_good [Op.transpose (ts.getD a 0) (n + 1) a1 a2] ns (n + 1) hwf
        (idsBelow_mono ns n (n + 1) hbelow (Nat.le_succ n)) ?_).1
      refine ⟨?_, ?_, trivial⟩
      · intro x hx
        simp [Op.inputs, mkSum, mkMax, mkMean] at hx
        rcases hx with rfl
        exact ha
      · intro x hx
        simp [Op.outputs, mkSum, mkMax, mkMean] at hx
        subst hx
        exact Nat.le_refl _
    · refine (chainOK_good [Op.transpose (ts.getD a 0) (n + 1) a1 a2] ns (n + 1) hwf
        (idsBelow_mono ns n (n + 1) hbelow (Nat.le_succ n)) ?_).2
      refine ⟨?_, ?_, trivial⟩
      · intro x hx
        simp [Op.inputs, mkSum, mkMax, mkMean] at hx
        rcases hx with rfl
        exact ha
      · intro x hx
        simp [Op.outputs, mkSum, mkMax, mkMean] at hx
        subst hx
        exact Nat.le_refl _
    · intro t ht
      rcases List.mem_append.mp ht with ht | ht
      · exact defined_mono _ _ _ (hts t ht)
      · rw [List.mem_singleton] at ht
        subst ht
        exact ⟨Op.transpose (ts.getD a 0) (n + 1) a1 a2, by simp, by simp [Op.outputs, mkSum, mkMax, mkMean]⟩
  | sum a axis kd =>
    have ha : Defined ns (ts[a]?.getD 0) :=
      hts _ (getD_mem_of_lt ts a (hargs a (by simp [Cmd.args])))
    simp only [runCmd, Graph.fresh, Graph.push]
    refine ⟨_, n + 1, rfl, ?_, rfl, ?_, ?_, ⟨[mkSum (ts.getD a 0) (n + 1) axis kd], rfl⟩⟩
    · refine (chainOK_good [mkSum (ts.getD a 0) (n + 1) axis kd] ns (n + 1) hwf
        (idsBelow_mono ns n (n + 1) hbelow (Nat.le_succ n)) ?_).1
      refine ⟨?_, ?_, trivial⟩
      · intro x hx
        simp [Op.inputs, mkSum, mkMax, mkMean] at hx
        rcases hx with rfl
        exact ha
      · intro x hx
        simp [Op.outputs, mkSum, mkMax, mkMean] at hx
        subst hx
        exact Nat.le_refl _
    · refine (chainOK_good [mkSum (ts.getD a 0) (n + 1) axis kd] ns (n + 1) hwf
        (idsBelow_mono ns n (n + 1) hbelow (Nat.le_succ n)) ?_).2
      refine ⟨?_, ?_, trivial⟩
      · intro x hx
        simp [Op.inputs, mkSum, mkMax, mkMean] at hx
        rcases hx with rfl
        exact ha
      · intro x hx
        simp [Op.outputs, mkSum, mkMax, mkMean] at hx
        subst hx
        exact Nat.le_refl _
    · intro t ht
      rcases List.mem_append.mp ht with ht | ht
      · exact defined_mono _ _ _ (hts t ht)
      · rw [List.mem_singleton] at ht
        subst ht
        exact ⟨mkSum (ts.getD a 0) (n + 1) axis kd, by simp, by simp [Op.outputs, mkSum, mkMax, mkMean]⟩
  | max a axis kd =>
    have ha : Defined ns (ts[a]?.getD 0) :=
      hts _ (getD_mem_of_lt ts a (hargs a (by simp [Cmd.args])))
    simp only [runCmd, Graph.fresh, Graph.push]
    refine ⟨_, n + 1, rfl, ?_, rfl, ?_, ?_, ⟨[mkMax (ts.getD a 0) (n + 1) axis kd], rfl⟩⟩
    · refine (chainOK_good [mkMax (ts.getD a 0) (n + 1) axis kd] ns (n + 1) hwf
        (idsBelow_mono ns n (n + 1) hbelow (Nat.le_succ n)) ?_).1
      refine ⟨?_, ?_, trivial⟩
      · intro x hx
        simp [Op.inputs, mkSum, mkMax, mkMean] at hx
        rcases hx with rfl
        exact ha
      · intro x hx
        simp [Op.outputs, mkSum, mkMax, mkMean] at hx
        subst hx
        exact Nat.le_refl _
    · refine (chainOK_good [mkMax (ts.getD a 0) (n + 1) axis kd] ns (n + 1) hwf
        (idsBelow_mono ns n (n + 1) hbelow (Nat.le_succ n)) ?_).2
      refine ⟨?_, ?_, trivial⟩
      · intro x hx
        simp [Op.inputs, mkSum, mkMax, mkMean] at hx
        rcases hx with rfl
        exact ha
      · intro x hx
        simp [Op.outputs, mkSum, mkMax, mkMean] at hx
        subst hx
        exact Nat.le_refl _
    · intro t ht
      rcases List.mem_append.mp ht with ht | ht
      · exact defined_mono _ _ _ (hts t ht)
      · rw [List.mem_singleton] at ht
        subst ht
        exact ⟨mkMax (ts.getD a 0) (n + 1) axis kd, by simp, by simp [Op.outputs, mkSum, mkMax, mkMean]⟩
  | mean a axis kd =>
    have ha : Defined ns (ts[a]?.getD 0) :=
      hts _ (getD_mem_of_lt ts a (hargs a (by simp [Cmd.args])))
    simp only [runCmd, Graph.fresh, Graph.push]
    refine ⟨_, n + 1, rfl, ?_, rfl, ?_, ?_, ⟨[mkMean (ts.getD a 0) (n + 1) axis kd], rfl⟩⟩
    · refine (chainOK_good [mkMean (ts.getD a 0) (n + 1) axis kd] ns (n + 1) hwf
        (idsBelow_mono ns n (n + 1) hbelow (Nat.le_succ n)) ?_).1
      refine ⟨?_, ?_, trivial⟩
      · intro x hx
        simp [Op.inputs, mkSum, mkMax, mkMean] at hx
        rcases hx with rfl
        exact ha
      · intro x hx
        simp [Op.outputs, mkSum, mkMax, mkMean] at hx
        subst hx
        exact Nat.le_refl _
    · refine (chainOK_good [mkMean (ts.getD a 0) (n + 1) axis kd] ns (n + 1) hwf
        (idsBelow_mono ns n (n + 1) hbelow (Nat.le_succ n)) ?_).2
      refine ⟨?_, ?_, trivial⟩
      · intro x hx
        simp [Op.inputs, mkSum, mkMax, mkMean] at hx
        rcases hx with rfl
        exact ha
      · intro x hx
        simp [Op.outputs, mkSum, mkMax, mkMean] at hx
        subst hx
        exact Nat.le_refl _
    · intro t ht
      rcases List.mem_append.mp ht with ht | ht
      · exact defined_mono _ _ _ (hts t ht)
      · rw [List.mem_singleton] at ht
        subst ht
        exact ⟨mkMean (ts.getD a 0) (n + 1) axis kd, by simp, by simp [Op.outputs, mkSum, mkMax, mkMean]⟩
  | broadcast a shape =>
    have ha : Defined ns (ts[a]?.getD 0) :=
      hts _ (getD_mem_of_lt ts a (hargs a (by simp [Cmd.args])))
    simp only [runCmd, Graph.fresh, Graph.push]
    refine ⟨_, n + 1, rfl, ?_, rfl, ?_, ?_, ⟨[Op.broadcast (ts.getD a 0) (n + 1) shape], rfl⟩⟩
    · refine (chainOK_good [Op.broadcast (ts.getD a 0) (n + 1) shape] ns (n + 1) hwf
        (idsBelow_mono ns n (n + 1) hbelow (Nat.le_succ n)) ?_).1
      refine ⟨?_, ?_, trivial⟩
      · intro x hx
        simp [Op.inputs, mkSum, mkMax, mkMean] at hx
        rcases hx with rfl
        exact ha
      · intro x hx
        simp [Op.outputs, mkSum, mkMax, mkMean] at hx
        subst hx
        exact Nat.le_refl _
    · refine (chainOK_good [Op.broadcast (ts.getD a 0) (n + 1) shape] ns (n + 1) hwf
        (idsBelow_mono ns n (n + 1) hbelow (Nat.le_succ n)) ?_).2
      refine ⟨?_, ?_, trivial⟩
      · intro x hx
        simp [Op.inputs, mkSum, mkMax, mkMean] at hx
        rcases hx with rfl
        exact ha
      · intro x hx
        simp [Op.outputs, mkSum, mkMax, mkMean] at hx
        subst hx
        exact Nat.le_refl _
    · intro t ht
      rcases List.mem_append.mp ht with ht | ht
      · exact defined_mono _ _ _ (hts t ht)
      · rw [List.mem_singleton] at ht
        subst ht
        exact ⟨Op.broadcast (ts.getD a 0) (n + 1) shape, by simp, by simp [Op.outputs, mkSum, mkMax, mkMean]⟩
  | reshape a shape =>
    have ha : Defined ns (ts[a]?.getD 0) :=
      hts _ (getD_mem_of_lt ts a (hargs a (by simp [Cmd.args])))
    simp only [runCmd, Graph.fresh, Graph.push]
    refine ⟨_, n + 1, rfl, ?_, rfl, ?_, ?_, ⟨[Op.reshape (ts.getD a 0) (n + 1) shape], rfl⟩⟩
    · refine (chainOK_good [Op.reshape (ts.getD a 0) (n + 1) shape] ns (n + 1) hwf
        (idsBelow_mono ns n (n + 1) hbelow (Nat.le_succ n)) ?_).1
      refine ⟨?_, ?_, trivial⟩
      · intro x hx
        simp [Op.inputs, mkSum, mkMax, mkMean] at hx
        rcases hx with rfl
        exact ha
      · intro x hx
        simp [Op.outputs, mkSum, mkMax, mkMean] at hx
        subst hx
        exact Nat.le_refl _
    · refine (chainOK_good [Op.reshape (ts.getD a 0) (n + 1) shape] ns (n + 1) hwf
        (idsBelow_mono ns n (n + 1) hbelow (Nat.le_succ n)) ?_).2
      refine ⟨?_, ?_, trivial⟩
      · intro x hx
        simp [Op.inputs, mkSum, mkMax, mkMean] at hx
        rcases hx with rfl
        exact ha
      · intro x hx
        simp [Op.outputs, mkSum, mkMax, mkMean] at hx
        subst hx
        exact Nat.le_refl _
    · intro t ht
      rcases List.mem_append.mp ht with ht | ht
      · exact defined_mono _ _ _ (hts t ht)
      · rw [List.mem_singleton] at ht
        subst ht
        exact ⟨Op.reshape (ts.getD a 0) (n + 1) shape, by simp, by simp [Op.outputs, mkSum, mkMax, mkMean]⟩
  | exp a =>
    have ha : Defined ns (ts[a]?.getD 0) :=
      hts _ (getD_mem_of_lt ts a (hargs a (by simp [Cmd.args])))
    simp only [runCmd, Graph.fresh, Graph.push]
    refine ⟨_, n + 1, rfl, ?_, rfl, ?_, ?_, ⟨[Op.exp (ts.getD a 0) (n + 1)], rfl⟩⟩
    · refine (chainOK_good [Op.exp (ts.getD a 0) (n + 1)] ns (n + 1) hwf
        (idsBelow_mono ns n (n + 1) hbelow (Nat.le_succ n)) ?_).1
      refine ⟨?_, ?_, trivial⟩
      · intro x hx
        simp [Op.inputs, mkSum, mkMax, mkMean] at hx
        rcases hx with rfl
        exact ha
      · intro x hx
        simp [Op.outputs, mkSum, mkMax, mkMean] at hx
        subst hx
        exact Nat.le_refl _
    · refine (chainOK_good [Op.exp (ts.getD a 0) (n + 1)] ns (n + 1) hwf
        (idsBelow_mono ns n (n + 1) hbelow (Nat.le_succ n)) ?_).2
      refine ⟨?_, ?_, trivial⟩
      · intro x hx
        simp [Op.inputs, mkSum, mkMax, mkMean] at hx
        rcases hx with rfl
        exact ha
      · intro x hx
        simp [Op.outputs, mkSum, mkMax, mkMean] at hx
        subst hx
        exact Nat.le_refl _
    · intro t ht
      rcases List.mem_append.mp ht with ht | ht
      · exact defined_mono _ _ _ (hts t ht)
      · rw [List.mem_singleton] at ht
        subst ht
        exact ⟨Op.exp (ts.getD a 0) (n + 1), by simp, by simp [Op.outputs, mkSum, mkMax, mkMean]⟩
  | log a =>
    have ha : Defined ns (ts[a]?.getD 0) :=
      hts _ (getD_mem_of_lt ts a (hargs a (by simp [Cmd.args])))
    simp only [runCmd, Graph.fresh, Graph.push]
    refine ⟨_, n + 1, rfl, ?_, rfl, ?_, ?_, ⟨[Op.log (ts.getD a 0) (n + 1)], rfl⟩⟩
    · refine (chainOK_good [Op.log (ts.getD a 0) (n + 1)] ns (n + 1) hwf
        (idsBelow_mono ns n (n + 1) hbelow (Nat.le_succ n)) ?_).1
      refine ⟨?_, ?_, trivial⟩
      · intro x hx
        simp [Op.inputs, mkSum, mkMax, mkMean] at hx
        rcases hx with rfl
        exact ha
      · intro x hx
        simp [Op.outputs, mkSum, mkMax, mkMean] at hx
        subst hx
        exact Nat.le_refl _
    · refine (chainOK_good [Op.log (ts.getD a 0) (n + 1)] ns (n + 1) hwf
        (idsBelow_mono ns n (n + 1) hbelow (Nat.le_succ n)) ?_).2
      refine ⟨?_, ?_, trivial⟩
      · intro x hx
        simp [Op.inputs, mkSum, mkMax, mkMean] at hx
        rcases hx with rfl
        exact ha
      · intro x hx
        simp [Op.outputs, mkSum, mkMax, mkMean] at hx
        subst hx
        exact Nat.le_refl _
    · intro t ht
      rcases List.mem_append.mp ht with ht | ht
      · exact defined_mono _ _ _ (hts t ht)
      · rw [List.mem_singleton] at ht
        subst ht
        exact ⟨Op.log (ts.getD a 0) (n + 1), by simp, by simp [Op.outputs, mkSum, mkMax, mkMean]⟩
  | relu a =>
    have ha : Defined ns (ts[a]?.getD 0) :=
      hts _ (getD_mem_of_lt ts a (hargs a (by simp [Cmd.args])))
    simp only [runCmd, Graph.fresh, Graph.push]
    refine ⟨_, n + 1, rfl, ?_, rfl, ?_, ?_, ⟨[Op.relu (ts.getD a 0) (n + 1)], rfl⟩⟩
    · refine (chainOK_good [Op.relu (ts.getD a 0) (n + 1)] ns (n + 1) hwf
        (idsBelow_mono ns n (n + 1) hbelow (Nat.le_succ n)) ?_).1
      refine ⟨?_, ?_, trivial⟩
      · intro x hx
        simp [Op.inputs, mkSum, mkMax, mkMean] at hx
        rcases hx with rfl
        exact ha
      · intro x hx
        simp [Op.outputs, mkSum, mkMax, mkMean] at hx
        subst hx
        exact Nat.le_refl _
    · refine (chainOK_good [Op.relu (ts.getD a 0) (n + 1)] ns (n + 1) hwf
        (idsBelow_mono ns n (n + 1) hbelow (Nat.le_succ n)) ?_).2
      refine ⟨?_, ?_, trivial⟩
      · intro x hx
        simp [Op.inputs, mkSum, mkMax, mkMean] at hx
        rcases hx with rfl
        exact ha
      · intro x hx
        simp [Op.outputs, mkSum, mkMax, mkMean] at hx
        subst hx
        exact Nat.le_refl _
    · intro t ht
      rcases List.mem_append.mp ht with ht | ht
      · exact defined_mono _ _ _ (hts t ht)
      · rw [List.mem_singleton] at ht
        subst ht
        exact ⟨Op.relu (ts.getD a 0) (n + 1), by simp, by simp [Op.outputs, mkSum, mkMax, mkMean]⟩

end Chainrule

namespace Chainrule

theorem buildGraph_good (cmds : List Cmd)
    (hok : ∀ p ∈ cmds.enum, ∀ a ∈ Cmd.args p.2, a < p.1) :
    ∃ g ts, buildGraph cmds = (g, ts) ∧ ts.length = cmds.length ∧
      StrongWF g.nodes ∧ g.freelist = [] ∧ IdsBelow g.nodes g.counter ∧
      ∀ t ∈ ts, Defined g.nodes t := by
  induction cmds using List.reverseRecOn with
  | nil =>
    refine ⟨Graph.new, [], rfl, rfl, ?_, rfl, ?_, ?_⟩
    · intro i op h x hx
      simp [Graph.new] at h
    · intro op h
      simp [Graph.new] at h
    · intro t ht
      simp at ht
  | append_singleton cs cv ih =>
    have hok2 : ∀ p ∈ cs.enum, ∀ a ∈ Cmd.args p.2, a < p.1 := by
      intro p hp
      apply hok p
      rw [List.enum_append]
      exact List.mem_append_left _ hp
    obtain ⟨g, ts, heq, hlen, hwf, hfl, hbelow, hts⟩ := ih hok2
    have hargs : ∀ a ∈ cv.args, a < ts.length := by
      intro a ha
      have hmem : (cs.length, cv) ∈ (cs ++ [cv]).enum := by
        rw [List.enum_append]
        apply List.mem_append_right
        simp [List.enumFrom]
      have := hok (cs.length, cv) hmem a ha
      rw [hlen]
      exact this
    obtain ⟨g2, o, heq2, hwf2, hfl2, hbelow2, hts2, hext2⟩ :=
      runCmd_good g ts cv hwf hfl hbelow hts hargs
    refine ⟨g2, ts ++ [o], ?_, by simp [hlen], hwf2, hfl2, hbelow2, hts2⟩
    show List.foldl runCmd (Graph.new, []) (cs ++ [cv]) = (g2, ts ++ [o])
    rw [List.foldl_append]
    have hb : List.foldl runCmd (Graph.new, []) cs = (g, ts) := heq
    rw [hb]
    simpa using heq2

theorem getD_mem_of_lt2 (ts : List Id) (a : Nat) (h : a < ts.length) :
    ts.getD a 0 ∈ ts := by
  rw [List.getD_eq_getElem?_getD]
  exact getD_mem_of_lt ts a h

theorem builder_ok_spec (b : Builder) (hb : b.ok) :
    (∀ p ∈ b.cmds.enum, ∀ a ∈ Cmd.args p.2, a < p.1) ∧
      (∀ s ∈ b.inputSel, s < b.cmds.length) ∧
      b.outputSel < b.cmds.length := by
  rw [Builder.ok] at hb
  simp only [Bool.and_eq_true, List.all_eq_true, decide_eq_true_eq] at hb
  obtain ⟨⟨h1, h2⟩, h3⟩ := hb
  exact ⟨fun p hp a ha => h1 p hp a ha, h2, h3⟩

theorem traceFn_good (b : Builder) (hb : b.ok) :
    StrongWF (traceFn b).graph.nodes ∧ (traceFn b).graph.freelist = [] ∧
      IdsBelow (traceFn b).graph.nodes (traceFn b).graph.counter ∧
      (∀ t ∈ (traceFn b).inputs, Defined (traceFn b).graph.nodes t) ∧
      (∀ o ∈ (traceFn b).outputs, Defined (traceFn b).graph.nodes o) := by
  obtain ⟨h1, h2, h3⟩ := builder_ok_spec b hb
  obtain ⟨g, ts, heq, hlen, hwf, hfl, hbelow, hts⟩ := buildGraph_good b.cmds h1
  have htf : traceFn b =
      ⟨g, b.inputSel.map (fun s => ts.getD s 0), [ts.getD b.outputSel 0]⟩ := by
    rw [traceFn, heq]
  rw [htf]
  refine ⟨hwf, hfl, hbelow, ?_, ?_⟩
  · intro t ht
    simp only [List.mem_map] at ht
    obtain ⟨s, hs, hst⟩ := ht
    subst hst
    exact hts _ (getD_mem_of_lt2 ts s (by rw [hlen]; exact h2 s hs))
  · intro o ho
    simp only [List.mem_singleton] at ho
    subst ho
    exact hts _ (getD_mem_of_lt2 ts b.outputSel (by rw [hlen]; exact h3))

end Chainrule

namespace Chainrule

theorem gradOutStep_some (grads : GradMap) (acc : List Id) (g : Graph)
    (i gi : Id) (h : grads i = some gi) :
    gradOutStep grads (acc, g) i = (acc ++ [gi], g) := by
  simp [gradOutStep, h]

theorem gradOutStep_none (grads : GradMap) (acc : List Id) (ns : List Op)
    (n : Nat) (i : Id) (h : grads i = none) :
    gradOutStep grads (acc, ⟨ns, n, []⟩) i =
      (acc ++ [n + 1], ⟨ns ++ [.const 0 (n + 1)], n + 1, []⟩) := by
  simp [gradOutStep, h, Graph.fresh, Graph.push]

theorem gradOutsFold_good (inputs : List Id) (acc : List Id) (g : Graph)
    (grads : GradMap) (hwf : StrongWF g.nodes) (hfl : g.freelist = [])
    (hbelow : IdsBelow g.nodes g.counter) :
    ∃ outs g3, inputs.foldl (gradOutStep grads) (acc, g) = (outs, g3) ∧
      (∃ ext, g3.nodes = g.nodes ++ ext) ∧ g3.freelist = [] ∧
      IdsBelow g3.nodes g3.counter ∧ StrongWF g3.nodes := by
  induction inputs generalizing acc g with
  | nil => exact ⟨acc, g, rfl, ⟨[], by simp⟩, hfl, hbelow, hwf⟩
  | cons i rest ih =>
    rcases g with ⟨ns, n, fl⟩
    simp only at hwf hbelow hfl
    subst hfl
    rw [List.foldl_cons]
    cases hm : grads i with
    | some gi =>
      rw [gradOutStep_some _ _ _ _ _ hm]
      exact ih (acc ++ [gi]) ⟨ns, n, []⟩ hwf rfl hbelow
    | none =>
      rw [gradOutStep_none _ _ _ _ _ hm]
      have hchain : ChainOK ns (n + 1) [Op.const 0 (n + 1)] := by
        refine ⟨?_, ?_, trivial⟩
        · intro x hx
          simp [Op.inputs] at hx
        · intro x hx
          simp [Op.outputs] at hx
          subst hx
          exact Nat.le_refl _
      obtain ⟨hwf2, hb2⟩ := chainOK_good _ ns (n + 1) hwf
        (idsBelow_mono ns n (n + 1) hbelow (Nat.le_succ n)) hchain
      obtain ⟨outs, g3, heq, ⟨ext, hext⟩, hfl3, hb3, hwf3⟩ :=
        ih (acc ++ [n + 1]) ⟨ns ++ [Op.const 0 (n + 1)], n + 1, []⟩ hwf2 rfl hb2
      refine ⟨outs, g3, heq, ⟨[Op.const 0 (n + 1)] ++ ext, ?_⟩, hfl3, hb3, hwf3⟩
      simp only at hext
      rw [hext]
      simp

theorem grad_eq (f : TraceableFn) (fo : Id) (rest : List Id)
    (h : f.outputs = fo :: rest) :
    f.grad =
      (fun st =>
        (fun w =>
          (fun fin => some ⟨fin.2, f.inputs, fin.1⟩)
            (gradOuts f.inputs w.1 w.2))
          (gradWalk st.1.nodes st.1 (GradMap.empty.set st.2.1 st.2.2)))
        (gradPrelude f fo rest) := by
  rcases f with ⟨graph, inputs, outputs⟩
  simp only at h
  subst h
  rfl

theorem strongWF_ordering (ns : List Op) (d : List Id) (h : StrongWF ns) :
    OrderingOK ns d := by
  intro i op hi x hx
  obtain ⟨j, opj, hj, hjget, hjout⟩ := h i op hi x hx
  exact Or.inl ⟨j, opj, hj, hjget, hjout⟩

theorem grad_good (f : TraceableFn)
    (hwf : StrongWF f.graph.nodes) (hfl : f.graph.freelist = [])
    (hbelow : IdsBelow f.graph.nodes f.graph.counter)
    (houts : ∀ o ∈ f.outputs, Defined f.graph.nodes o)
    (fo : Id) (rest : List Id) (hne : f.outputs = fo :: rest) :
    ∃ F, f.grad = some F ∧ StrongWF F.graph.nodes ∧
      F.graph.freelist = [] ∧
      IdsBelow F.graph.nodes F.graph.counter ∧
      F.inputs = f.inputs ∧
      (∃ ext, F.graph.nodes = f.graph.nodes ++ ext) := by
  obtain ⟨g5, sid, seed, hpre, ⟨adds, finalId, hsnap⟩, hfl5, hb5, hwf5, hdseed,
    hc5, hsid, hseedgt, hseedc⟩ :=
    gradPrelude_good f fo rest hwf hfl hbelow
      (houts fo (by rw [hne]; simp))
      (fun o ho => houts o (by rw [hne]; simp [ho]))
  have hinv0 : WalkInv g5.nodes sid (g5, GradMap.empty.set sid seed) := by
    refine ⟨hfl5, hb5, hwf5, ⟨[], by simp⟩, ?_, ?_⟩
    · intro k v hv
      simp only at hv ⊢
      by_cases hk : k = sid
      · subst hk
        rw [gradMap_set_self] at hv
        cases hv
        exact hdseed
      · rw [gradMap_set_other _ _ _ _ hk] at hv
        simp [GradMap.empty] at hv
    · intro k v hv
      simp only at hv
      by_cases hk : k = sid
      · subst hk
        exact Influences.refl k
      · rw [gradMap_set_other _ _ _ _ hk] at hv
        simp [GradMap.empty] at hv
  have hwalk := gradWalk_inv g5.nodes sid g5 (GradMap.empty.set sid seed) hinv0
  rw [grad_eq f fo rest hne, hpre]
  obtain ⟨hflW, hbW, hwfW, ⟨extW, hextW⟩, hvalsW, hkeysW⟩ := hwalk
  obtain ⟨outs, g3, heq3, ⟨ext3, hext3⟩, hfl3, hb3, hwf3⟩ :=
    gradOutsFold_good f.inputs []
      (gradWalk g5.nodes g5 (GradMap.empty.set sid seed)).1
      (gradWalk g5.nodes g5 (GradMap.empty.set sid seed)).2 hwfW hflW hbW
  simp only
  rw [show gradOuts f.inputs (gradWalk g5.nodes g5 (GradMap.empty.set sid seed)).1
      (gradWalk g5.nodes g5 (GradMap.empty.set sid seed)).2 = (outs, g3) from heq3]
  refine ⟨_, rfl, hwf3, hfl3, hb3, rfl, ?_⟩
  refine ⟨adds ++ [mkSum finalId sid [] false, Op.const 1 seed] ++ extW ++ ext3, ?_⟩
  simp only
  rw [hext3, hextW, hsnap]
  simp

end Chainrule

namespace Chainrule

/-- C2: for every graph built by trace_fn from a builder that uses only
Trace Session methods, and for every graph produced from such a function by
grad, every input identifier of the operation record at index i is an
output of some record at index j < i or is one of the function's declared
input identifiers. -/
theorem claim_C2 (b : Builder) (hb : b.ok) :
    OrderingOK (traceFn b).graph.nodes (traceFn b).inputs ∧
      ∀ F, (traceFn b).grad = some F →
        OrderingOK F.graph.nodes F.inputs := by
  obtain ⟨hwf, hfl, hbelow, hins, houts⟩ := traceFn_good b hb
  refine ⟨strongWF_ordering _ _ hwf, ?_⟩
  intro F hF
  have hout : (traceFn b).outputs =
      (buildGraph b.cmds).2.getD b.outputSel 0 :: [] := rfl
  obtain ⟨F2, hgrad, hwf2, _, _, _, _⟩ :=
    grad_good (traceFn b) hwf hfl hbelow houts _ [] hout
  rw [hF] at hgrad
  cases hgrad
  exact strongWF_ordering _ _ hwf2

/-- Concrete instantiation of C2 at the square-sum builder. -/
theorem claim_C2_witness :
    bSquareSum.ok ∧
      (OrderingOK (traceFn bSquareSum).graph.nodes (traceFn bSquareSum).inputs ∧
        ∀ F, (traceFn bSquareSum).grad = some F →
          OrderingOK F.graph.nodes F.inputs) :=
  ⟨by unfold Builder.ok; decide, claim_C2 bSquareSum (by unfold Builder.ok; decide)⟩

end Chainrule

namespace Chainrule

theorem walkT_fst (l : List Op) (st : Graph × GradMap) (vs : List Op) :
    (l.foldl vjpStepT (st, vs)).1 = l.foldl vjpStep st := by
  induction l generalizing st vs with
  | nil => rfl
  | cons n rest ih =>
    rw [List.foldl_cons, List.foldl_cons]
    exact ih (vjpStep st n) (vs ++ [n])

theorem walkT_snd (l : List Op) (st : Graph × GradMap) (vs : List Op) :
    (l.foldl vjpStepT (st, vs)).2 = vs ++ l := by
  induction l generalizing st vs with
  | nil => simp
  | cons n rest ih =>
    rw [List.foldl_cons]
    show (List.foldl vjpStepT (vjpStep st n, vs ++ [n]) rest).2 = vs ++ n :: rest
    rw [ih (vjpStep st n) (vs ++ [n])]
    simp

/-- C10: grad's backward walk iterates over a snapshot of the node list
taken after the collapsing Sum and the seed Constant are pushed; helper
nodes appended to the graph by vjp calls during the walk are never
themselves visited by that walk, and the nodes that are visited are visited
in exactly the reverse of their push order. -/
theorem claim_C10 (b : Builder) (hb : b.ok) :
    ∃ fo : Id, (traceFn b).outputs = [fo] ∧
    ∃ g5 : Graph, ∃ sid seed : Id,
      gradPrelude (traceFn b) fo [] = (g5, sid, seed) ∧
      (∃ adds : List Op, ∃ finalId : Id, g5.nodes =
        (traceFn b).graph.nodes ++ adds ++
          [mkSum finalId sid [] false, Op.const 1 seed]) ∧
      (gradWalkT g5.nodes g5 (GradMap.empty.set sid seed)).1 =
        gradWalk g5.nodes g5 (GradMap.empty.set sid seed) ∧
      (gradWalkT g5.nodes g5 (GradMap.empty.set sid seed)).2 =
        g5.nodes.reverse ∧
      (∃ helpers : List Op,
        (gradWalkT g5.nodes g5 (GradMap.empty.set sid seed)).1.1.nodes =
          g5.nodes ++ helpers) ∧
      (traceFn b).grad = some
        ⟨(gradOuts (traceFn b).inputs
            (gradWalkT g5.nodes g5 (GradMap.empty.set sid seed)).1.1
            (gradWalkT g5.nodes g5 (GradMap.empty.set sid seed)).1.2).2,
          (traceFn b).inputs,
          (gradOuts (traceFn b).inputs
            (gradWalkT g5.nodes g5 (GradMap.empty.set sid seed)).1.1
            (gradWalkT g5.nodes g5 (GradMap.empty.set sid seed)).1.2).1⟩ := by
  obtain ⟨hwf, hfl, hbelow, hins, houts⟩ := traceFn_good b hb
  have hout : (traceFn b).outputs =
      (buildGraph b.cmds).2.getD b.outputSel 0 :: [] := rfl
  refine ⟨_, hout, ?_⟩
  obtain ⟨g5, sid, seed, hpre, ⟨adds, finalId, hsnap⟩, hfl5, hb5, hwf5, hdseed,
    hc5, hsid, hseedgt, hseedc⟩ :=
    gradPrelude_good (traceFn b) _ [] hwf hfl hbelow
      (houts _ (by rw [hout]; exact List.mem_singleton_self _))
      (fun o ho => by rw [List.mem_nil_iff] at ho; exact absurd ho (fun h => h))
  have hfst := walkT_fst g5.nodes.reverse ((g5, GradMap.empty.set sid seed)) []
  have hsnd := walkT_snd g5.nodes.reverse ((g5, GradMap.empty.set sid seed)) []
  have hfst2 : (gradWalkT g5.nodes g5 (GradMap.empty.set sid seed)).1 =
      gradWalk g5.nodes g5 (GradMap.empty.set sid seed) := hfst
  have hsnd2 : (gradWalkT g5.nodes g5 (GradMap.empty.set sid seed)).2 =
      g5.nodes.reverse := by
    rw [gradWalkT, hsnd]
    simp
  have hinv0 : WalkInv g5.nodes sid (g5, GradMap.empty.set sid seed) := by
    refine ⟨hfl5, hb5, hwf5, ⟨[], by simp⟩, ?_, ?_⟩
    · intro k v hv
      simp only at hv ⊢
      by_cases hk : k = sid
      · subst hk
        rw [gradMap_set_self] at hv
        cases hv
        exact hdseed
      · rw [gradMap_set_other _ _ _ _ hk] at hv
        simp [GradMap.empty] at hv
    · intro k v hv
      simp only at hv
      by_cases hk : k = sid
      · subst hk
        exact Influences.refl k
      · rw [gradMap_set_other _ _ _ _ hk] at hv
        simp [GradMap.empty] at hv
  obtain ⟨_, _, _, ⟨extW, hextW⟩, _, _⟩ :=
    gradWalk_inv g5.nodes sid g5 (GradMap.empty.set sid seed) hinv0
  refine ⟨g5, sid, seed, hpre, ⟨adds, finalId, hsnap⟩, hfst2, hsnd2,
    ⟨extW, by rw [hfst2]; exact hextW⟩, ?_⟩
  rw [grad_eq (traceFn b) _ [] hout, hpre]
  simp only
  rw [hfst2]

/-- Concrete instantiation of C10 at the square-sum builder. -/
theorem claim_C10_witness :
    bSquareSum.ok ∧
      ∃ fo : Id, (traceFn bSquareSum).outputs = [fo] ∧
      ∃ g5 : Graph, ∃ sid seed : Id,
        gradPrelude (traceFn bSquareSum) fo [] = (g5, sid, seed) ∧
        (∃ adds : List Op, ∃ finalId : Id, g5.nodes =
          (traceFn bSquareSum).graph.nodes ++ adds ++
            [mkSum finalId sid [] false, Op.const 1 seed]) ∧
        (gradWalkT g5.nodes g5 (GradMap.empty.set sid seed)).1 =
          gradWalk g5.nodes g5 (GradMap.empty.set sid seed) ∧
        (gradWalkT g5.nodes g5 (GradMap.empty.set sid seed)).2 =
          g5.nodes.reverse ∧
        (∃ helpers : List Op,
          (gradWalkT g5.nodes g5 (GradMap.empty.set sid seed)).1.1.nodes =
            g5.nodes ++ helpers) ∧
        (traceFn bSquareSum).grad = some
          ⟨(gradOuts (traceFn bSquareSum).inputs
              (gradWalkT g5.nodes g5 (GradMap.empty.set sid seed)).1.1
              (gradWalkT g5.nodes g5 (GradMap.empty.set sid seed)).1.2).2,
            (traceFn bSquareSum).inputs,
            (gradOuts (traceFn bSquareSum).inputs
              (gradWalkT g5.nodes g5 (GradMap.empty.set sid seed)).1.1
              (gradWalkT g5.nodes g5 (GradMap.empty.set sid seed)).1.2).1⟩ :=
  ⟨by unfold Builder.ok; decide, claim_C10 bSquareSum (by unfold Builder.ok; decide)⟩

end Chainrule

namespace Chainrule

theorem reduceStep_bot (e : EOB (Nat × Nat) Nat) : reduceStep none e = none := rfl

theorem foldl_reduceStep_bot (l : List (EOB (Nat × Nat) Nat)) :
    l.foldl reduceStep none = none := by
  induction l with
  | nil => rfl
  | cons e l ih =>
    rw [List.foldl_cons, reduceStep_bot]
    exact ih

theorem reduceStep_left (acc : Tensor) (i v : Nat) :
    reduceStep (some acc) (.left (i, v)) = acc.sumAxis i := rfl

theorem reduceStep_both (acc : Tensor) (i v b : Nat) :
    reduceStep (some acc) (.both (i, v) b) =
      if v = b then some acc
      else if b = 1 then (acc.sumAxis i).bind (fun s => some (s.insertAxis i))
      else none := rfl

theorem rrStep_bot (srcOk : Nat → Bool) (src like : List Nat) (k i : Nat) :
    rrStep srcOk src like k i none = none := rfl

theorem rrStep_some (srcOk : Nat → Bool) (src like : List Nat) (k i : Nat)
    (t : Tensor) :
    rrStep srcOk src like k i (some t) =
      if i < k then t.sumAxis i
      else if src.getD i 0 = like.getD (i - k) 0 then some t
      else if like.getD (i - k) 0 = 1 && srcOk (src.getD i 0) then
        (t.sumAxis i).bind (fun s => some (s.insertAxis i))
      else none := rfl

theorem rrGo_succ (srcOk : Nat → Bool) (src like : List Nat) (k i : Nat)
    (acc : Option Tensor) :
    rrGo srcOk src like k (i + 1) acc =
      rrGo srcOk src like k i (rrStep srcOk src like k i acc) := rfl

theorem take_succ_getD (l : List Nat) (i : Nat) (h : i < l.length) :
    l.take (i + 1) = l.take i ++ [l.getD i 0] := by
  rw [List.take_succ, List.getElem?_eq_getElem h]
  simp [List.getD_eq_getElem?_getD, List.getElem?_eq_getElem h]

theorem drop_eq_getD_cons (l : List Nat) (i : Nat) (h : i < l.length) :
    l.drop i = l.getD i 0 :: l.drop (i + 1) := by
  rw [List.drop_eq_getElem_cons h]
  simp [List.getD_eq_getElem?_getD, List.getElem?_eq_getElem h]

theorem enum_take_succ (l : List Nat) (i : Nat) (h : i < l.length) :
    ((l.take (i + 1)).enum).reverse =
      (i, l.getD i 0) :: ((l.take i).enum).reverse := by
  rw [take_succ_getD l i h, List.enum_append]
  have hlen : (l.take i).length = i := by
    rw [List.length_take]
    omega
  simp [List.enumFrom, hlen]

theorem step_match_left (src like : List Nat) (k i v : Nat)
    (acc : Option Tensor) (hik : i < k) :
    reduceStep acc (.left (i, v)) =
      rrStep (fun a => decide (a ≠ 1)) src like k i acc := by
  cases acc with
  | none => rfl
  | some t =>
    rw [reduceStep_left, rrStep_some, if_pos hik]

theorem step_match_both (src like : List Nat) (k i : Nat)
    (acc : Option Tensor) (hik : ¬ i < k) :
    reduceStep acc (.both (i, src.getD i 0) (like.getD (i - k) 0)) =
      rrStep (fun a => decide (a ≠ 1)) src like k i acc := by
  cases acc with
  | none => rfl
  | some t =>
    rw [reduceStep_both, rrStep_some, if_neg hik]
    by_cases heq : src.getD i 0 = like.getD (i - k) 0
    · rw [if_pos heq, if_pos heq]
    · rw [if_neg heq, if_neg heq]
      by_cases hb1 : like.getD (i - k) 0 = 1
      · have hne1 : ¬ src.getD i 0 = 1 := fun h => heq (h.trans hb1.symm)
        rw [if_pos hb1,
          if_pos (show (decide (like.getD (i - k) 0 = 1) &&
              decide (¬ src.getD i 0 = 1)) = true from by
            rw [decide_eq_true hb1, decide_eq_true hne1]
            rfl)]
      · rw [if_neg hb1,
          if_neg (show ¬ ((decide (like.getD (i - k) 0 = 1) &&
              decide (¬ src.getD i 0 = 1)) = true) from by
            rw [decide_eq_false hb1]
            simp)]

theorem rrFoldCorr (src like : List Nat) (hm : like.length ≤ src.length) :
    ∀ i, i ≤ src.length → ∀ acc : Option Tensor,
      (zipLongest ((src.take i).enum).reverse
          ((like.take (i - (src.length - like.length))).reverse)).foldl
        reduceStep acc =
      rrGo (fun a => decide (a ≠ 1)) src like
        (src.length - like.length) i acc := by
  intro i
  induction i with
  | zero =>
    intro _ acc
    rw [List.take_zero, Nat.zero_sub, List.take_zero]
    rfl
  | succ i ih =>
    intro hi acc
    have hilt : i < src.length := hi
    rw [rrGo_succ,
      ← ih (by omega)
        (rrStep (fun a => decide (a ≠ 1)) src like
          (src.length - like.length) i acc),
      enum_take_succ src i hilt]
    by_cases hik : i < src.length - like.length
    · rw [show i + 1 - (src.length - like.length) = 0 from by omega,
        show i - (src.length - like.length) = 0 from by omega,
        List.take_zero, List.reverse_nil]
      rw [show zipLongest
            ((i, src.getD i 0) :: ((src.take i).enum).reverse)
            ([] : List Nat) =
          .left (i, src.getD i 0) ::
            zipLongest ((src.take i).enum).reverse [] from rfl]
      rw [List.foldl_cons,
        step_match_left src like (src.length - like.length) i
          (src.getD i 0) acc hik]
    · have hlk : i - (src.length - like.length) < like.length := by omega
      rw [show i + 1 - (src.length - like.length) =
          (i - (src.length - like.length)) + 1 from by omega,
        take_succ_getD like _ hlk]
      rw [show ((like.take (i - (src.length - like.length)) ++
            [like.getD (i - (src.length - like.length)) 0]).reverse) =
          like.getD (i - (src.length - like.length)) 0 ::
            ((like.take (i - (src.length - like.length))).reverse) from by
        simp]
      rw [show zipLongest
            ((i, src.getD i 0) :: ((src.take i).enum).reverse)
            (like.getD (i - (src.length - like.length)) 0 ::
              ((like.take (i - (src.length - like.length))).reverse)) =
          .both (i, src.getD i 0)
              (like.getD (i - (src.length - like.length)) 0) ::
            zipLongest ((src.take i).enum).reverse
              ((like.take (i - (src.length - like.length))).reverse)
          from rfl]
      rw [List.foldl_cons,
        step_match_both src like (src.length - like.length) i acc hik]

theorem rrStep_refl (srcOk : Nat → Bool) (s : List Nat) (i : Nat)
    (acc : Option Tensor) : rrStep srcOk s s 0 i acc = acc := by
  cases acc with
  | none => rfl
  | some t =>
    rw [rrStep_some, if_neg (by omega : ¬ i < 0), Nat.sub_zero, if_pos rfl]

theorem rrGoRefl (srcOk : Nat → Bool) (s : List Nat) :
    ∀ i, ∀ acc : Option Tensor, rrGo srcOk s s 0 i acc = acc := by
  intro i
  induction i with
  | zero =>
    intro acc
    rfl
  | succ i ih =>
    intro acc
    rw [rrGo_succ, rrStep_refl]
    exact ih acc

theorem sumAxis_shape (t : Tensor) (a : Nat) (s : Tensor)
    (h : t.sumAxis a = some s) : s.shape = t.shape.eraseIdx a := by
  unfold Tensor.sumAxis at h
  by_cases ha : a < t.shape.length
  · rw [if_pos ha] at h
    cases h
    rfl
  · rw [if_neg ha] at h
    cases h

theorem sumAxis_isSome (t : Tensor) (a : Nat) (ha : a < t.shape.length) :
    ∃ s, t.sumAxis a = some s := by
  unfold Tensor.sumAxis
  rw [if_pos ha]
  exact ⟨_, rfl⟩

theorem eraseIdx_inv (src like : List Nat) (i : Nat) (T : List Nat)
    (hilt : i < src.length) :
    (src.take (i + 1) ++ T).eraseIdx i = src.take i ++ T := by
  have hlen : (src.take (i + 1)).length = i + 1 := by
    rw [List.length_take]
    omega
  rw [List.eraseIdx_eq_take_drop_succ,
    List.take_append_of_le_length (by omega), List.take_take,
    Nat.min_eq_left (by omega),
    List.drop_append_of_le_length (by omega),
    List.drop_eq_nil_of_le (by omega)]
  simp

theorem shape_inv_equal (src like : List Nat) (i k : Nat)
    (hilt : i < src.length) (hik : ¬ i < k) (hk : k = src.length - like.length)
    (hm : like.length ≤ src.length)
    (heq : src.getD i 0 = like.getD (i - k) 0) :
    src.take (i + 1) ++ like.drop (i + 1 - k) =
      src.take i ++ like.drop (i - k) := by
  have hlk : i - k < like.length := by omega
  rw [take_succ_getD src i hilt, drop_eq_getD_cons like (i - k) hlk,
    show i + 1 - k = (i - k) + 1 from by omega, heq]
  simp

theorem claim_c5_core (src like : List Nat) (hm : like.length ≤ src.length) :
    ∀ i, i ≤ src.length → ∀ acc : Option Tensor,
      (∀ t, acc = some t → t.shape = src.take i ++
        like.drop (i - (src.length - like.length))) →
      ∀ r, ∀ srcOk : Nat → Bool,
        rrGo srcOk src like (src.length - like.length) i acc = some r →
        r.shape = like := by
  intro i
  induction i with
  | zero =>
    intro _ acc hshape r srcOk hr
    have hr2 : acc = some r := hr
    have := hshape r hr2
    rw [this]
    simp
  | succ i ih =>
    intro hi acc hshape r srcOk hr
    have hilt : i < src.length := hi
    rw [rrGo_succ] at hr
    refine ih (by omega) _ ?_ r srcOk hr
    intro s hs
    cases acc with
    | none =>
      rw [rrStep_bot] at hs
      cases hs
    | some t =>
      have ht := hshape t rfl
      rw [rrStep_some] at hs
      by_cases hik : i < src.length - like.length
      · rw [if_pos hik] at hs
        rw [sumAxis_shape t i s hs, ht,
          show i + 1 - (src.length - like.length) = 0 from by omega,
          show i - (src.length - like.length) = 0 from by omega]
        exact eraseIdx_inv src like i (like.drop 0) hilt
      · rw [if_neg hik] at hs
        by_cases heq : src.getD i 0 =
            like.getD (i - (src.length - like.length)) 0
        · rw [if_pos heq] at hs
          cases hs
          rw [ht]
          exact shape_inv_equal src like i (src.length - like.length) hilt
            hik rfl hm heq
        · rw [if_neg heq] at hs
          by_cases hb : (like.getD (i - (src.length - like.length)) 0 = 1 &&
              srcOk (src.getD i 0)) = true
          · rw [if_pos hb] at hs
            have hb1 : like.getD (i - (src.length - like.length)) 0 = 1 := by
              rcases Bool.and_eq_true_iff.mp hb with ⟨h1, _⟩
              exact of_decide_eq_true h1
            cases hsum : t.sumAxis i with
            | none =>
              rw [hsum] at hs
              cases hs
            | some s2 =>
              rw [hsum] at hs
              have hs2 : s2.insertAxis i = s := Option.some.inj hs
              have hlk : i - (src.length - like.length) < like.length := by
                omega
              rw [← hs2]
              show insertAt i 1 s2.shape = _
              rw [sumAxis_shape t i s2 hsum, ht,
                show i + 1 - (src.length - like.length) =
                  (i - (src.length - like.length)) + 1 from by omega,
                eraseIdx_inv src like i
                  (like.drop ((i - (src.length - like.length)) + 1)) hilt]
              rw [insertAt,
                List.take_append_of_le_length (by
                  rw [List.length_take]
                  omega),
                List.take_take, Nat.min_self,
                List.drop_append_of_le_length (by
                  rw [List.length_take]
                  omega),
                List.drop_eq_nil_of_le (by
                  rw [List.length_take]
                  omega),
                drop_eq_getD_cons like _ hlk, hb1]
              simp [List.take_take]
          · rw [if_neg hb] at hs
            cases hs

theorem reduceRule_shape (srcOk : Nat → Bool) (t like r : Tensor)
    (h : reduceRule srcOk t like = some r) : r.shape = like.shape := by
  unfold reduceRule at h
  by_cases hlen : t.shape.length < like.shape.length
  · rw [if_pos hlen] at h
    cases h
  · rw [if_neg hlen] at h
    refine claim_c5_core t.shape like.shape (by omega) t.shape.length
      (Nat.le_refl _) (some t) ?_ r srcOk h
    intro t2 ht2
    cases ht2
    rw [List.take_length,
      show t.shape.length - (t.shape.length - like.shape.length) =
        like.shape.length from by omega]
    simp

theorem reduceToLike_eq_amended (t like : Tensor) :
    reduceToLikeEval t like = reduceToLikeAmended t like := by
  unfold reduceToLikeEval reduceToLikeAmended reduceRule
  by_cases hsh : t.shape = like.shape
  · have hlen := congrArg List.length hsh
    rw [if_pos hsh, if_neg (show ¬ t.shape.length < like.shape.length from
      by omega)]
    rw [hsh, Nat.sub_self]
    exact (rrGoRefl _ like.shape like.shape.length (some t)).symm
  · rw [if_neg hsh]
    by_cases hlen : t.shape.length < like.shape.length
    · rw [if_pos hlen, if_pos hlen]
    · rw [if_neg hlen, if_neg hlen]
      have hm : like.shape.length ≤ t.shape.length := by omega
      have hcorr := rrFoldCorr t.shape like.shape hm t.shape.length
        (Nat.le_refl _) (some t)
      rw [List.take_length,
        show t.shape.length - (t.shape.length - like.shape.length) =
          like.shape.length from by omega, List.take_length] at hcorr
      rw [show (do
            let r ← (zipLongest t.shape.enum.reverse
              like.shape.reverse).foldl reduceStep (some t)
            if r.shape = like.shape then pure r else none :
              Option Tensor) =
          ((zipLongest t.shape.enum.reverse like.shape.reverse).foldl
              reduceStep (some t)).bind
            (fun r => if r.shape = like.shape then some r else none)
        from rfl]
      rw [hcorr]
      cases hr : rrGo (fun a => decide (a ≠ 1)) t.shape like.shape
          (t.shape.length - like.shape.length) t.shape.length (some t) with
      | none => rfl
      | some r =>
        have hrs : r.shape = like.shape := by
          refine claim_c5_core t.shape like.shape hm t.shape.length
            (Nat.le_refl _) (some t) ?_ r _ hr
          intro t2 ht2
          cases ht2
          rw [List.take_length,
            show t.shape.length - (t.shape.length - like.shape.length) =
              like.shape.length from by omega]
          simp
        simp [hrs]
theorem reduceToLikeEval_shape (t like r : Tensor)
    (h : reduceToLikeEval t like = some r) : r.shape = like.shape := by
  unfold reduceToLikeEval at h
  by_cases hsh : t.shape = like.shape
  · rw [if_pos hsh] at h
    cases h
    exact hsh
  · rw [if_neg hsh] at h
    by_cases hlen : t.shape.length < like.shape.length
    · rw [if_pos hlen] at h
      cases h
    · rw [if_neg hlen] at h
      rw [show (do
            let r ← (zipLongest t.shape.enum.reverse
              like.shape.reverse).foldl reduceStep (some t)
            if r.shape = like.shape then pure r else none :
              Option Tensor) =
          ((zipLongest t.shape.enum.reverse like.shape.reverse).foldl
              reduceStep (some t)).bind
            (fun r => if r.shape = like.shape then some r else none)
        from rfl] at h
      cases ho : (zipLongest t.shape.enum.reverse like.shape.reverse).foldl
          reduceStep (some t) with
      | none =>
        rw [ho] at h
        cases h
      | some r2 =>
        rw [ho] at h
        by_cases hr2 : r2.shape = like.shape
        · rw [show Option.bind (some r2)
              (fun r => if r.shape = like.shape then some r else none) =
              if r2.shape = like.shape then some r2 else none from rfl,
            if_pos hr2] at h
          cases h
          exact hr2
        · rw [show Option.bind (some r2)
              (fun r => if r.shape = like.shape then some r else none) =
              if r2.shape = like.shape then some r2 else none from rfl,
            if_neg hr2] at h
          cases h

/-- C5: ReduceToLike collapses its input tensor down to the runtime shape of
its reference tensor by the descending-axis collapsing rule, and on success
the result has exactly the reference's shape; however, an aligned axis with
reference dimension 1 is summed and reinserted whenever the source dimension
differs from 1 (a source dimension of 0 included), not only when it exceeds
1 as the claim states. -/
theorem claim_C5 :
    (∀ t like : Tensor, reduceToLikeEval t like = reduceToLikeAmended t like) ∧
      ∀ t like r : Tensor, reduceToLikeEval t like = some r →
        r.shape = like.shape :=
  ⟨reduceToLike_eq_amended, reduceToLikeEval_shape⟩

/-- ReduceToLike of a rank-1 zero-length tensor against a [1]-shaped
reference succeeds by summing the empty axis (source dimension 0 differs
from 1), while the rule as the claim words it (source strictly greater
than 1) declares a fatal mismatch. -/
theorem claim_C5_counterexample :
    reduceToLikeEval ⟨[0], []⟩ ⟨[1], [7]⟩ = some ⟨[1], [0]⟩ ∧
      reduceToLikeClaimed ⟨[0], []⟩ ⟨[1], [7]⟩ = none := by
  constructor
  · decide
  · decide

/-- Concrete instantiation of C5: collapsing a [2,3] tensor of ones to a
[1,3] reference agrees with the collapsing rule and yields the reference's
shape. -/
theorem claim_C5_witness :
    reduceToLikeEval ⟨[2, 3], [1, 1, 1, 1, 1, 1]⟩ ⟨[1, 3], [0, 0, 0]⟩ =
        reduceToLikeAmended ⟨[2, 3], [1, 1, 1, 1, 1, 1]⟩ ⟨[1, 3], [0, 0, 0]⟩ ∧
      Tensor.shape ⟨[1, 3], [2, 2, 2]⟩ = [1, 3] :=
  ⟨claim_C5.1 ⟨[2, 3], [1, 1, 1, 1, 1, 1]⟩ ⟨[1, 3], [0, 0, 0]⟩,
    claim_C5.2 ⟨[2, 3], [1, 1, 1, 1, 1, 1]⟩ ⟨[1, 3], [0, 0, 0]⟩
      ⟨[1, 3], [2, 2, 2]⟩ (by decide)⟩

end Chainrule

namespace Chainrule

theorem shape_inv_insert (src like : List Nat) (i k : Nat)
    (hilt : i < src.length) (hik : ¬ i < k)
    (hk : k = src.length - like.length) (hm : like.length ≤ src.length)
    (hb1 : like.getD (i - k) 0 = 1) :
    insertAt i 1 (src.take i ++ like.drop ((i - k) + 1)) =
      src.take i ++ like.drop (i - k) := by
  have hlk : i - k < like.length := by omega
  rw [insertAt,
    List.take_append_of_le_length (by
      rw [List.length_take]
      omega),
    List.take_take, Nat.min_self,
    List.drop_append_of_le_length (by
      rw [List.length_take]
      omega),
    List.drop_eq_nil_of_le (by
      rw [List.length_take]
      omega),
    drop_eq_getD_cons like (i - k) hlk, hb1]
  simp

theorem rrGoSuccess (src like : List Nat) (hm : like.length ≤ src.length)
    (hcompat : ∀ j, j < like.length →
      like.getD j 0 = src.getD (j + (src.length - like.length)) 0 ∨
        like.getD j 0 = 1) :
    ∀ i, i ≤ src.length → ∀ t : Tensor,
      t.shape = src.take i ++ like.drop (i - (src.length - like.length)) →
      ∃ r, rrGo (fun a => decide (a ≠ 1)) src like
        (src.length - like.length) i (some t) = some r := by
  intro i
  induction i with
  | zero =>
    intro _ t _
    exact ⟨t, rfl⟩
  | succ i ih =>
    intro hi t ht
    have hilt : i < src.length := hi
    rw [rrGo_succ, rrStep_some]
    have hlen_t : i < t.shape.length := by
      rw [ht, List.length_append, List.length_take]
      omega
    by_cases hik : i < src.length - like.length
    · rw [if_pos hik]
      obtain ⟨s, hs⟩ := sumAxis_isSome t i hlen_t
      rw [hs]
      refine ih (by omega) s ?_
      rw [sumAxis_shape t i s hs, ht,
        show i + 1 - (src.length - like.length) = 0 from by omega,
        show i - (src.length - like.length) = 0 from by omega]
      exact eraseIdx_inv src like i (like.drop 0) hilt
    · have hjlt : i - (src.length - like.length) < like.length := by omega
      have hcj := hcompat (i - (src.length - like.length)) hjlt
      rw [show (i - (src.length - like.length)) +
          (src.length - like.length) = i from by omega] at hcj
      by_cases heq : src.getD i 0 =
          like.getD (i - (src.length - like.length)) 0
      · rw [if_neg hik, if_pos heq]
        refine ih (by omega) t ?_
        rw [ht]
        exact shape_inv_equal src like i (src.length - like.length) hilt hik
          rfl hm heq
      · have hb1 : like.getD (i - (src.length - like.length)) 0 = 1 := by
          rcases hcj with hcj | hcj
          · exact absurd hcj.symm heq
          · exact hcj
        rw [if_neg hik, if_neg heq,
          if_pos (show
            (decide (like.getD (i - (src.length - like.length)) 0 = 1) &&
              decide (¬ src.getD i 0 = 1)) = true from by
            rw [decide_eq_true hb1,
              decide_eq_true (show ¬ src.getD i 0 = 1 from
                fun h => heq (h.trans hb1.symm))]
            rfl)]
        obtain ⟨s, hs⟩ := sumAxis_isSome t i hlen_t
        rw [hs]
        show ∃ r, rrGo _ src like _ i (some (s.insertAxis i)) = some r
        refine ih (by omega) (s.insertAxis i) ?_
        show insertAt i 1 s.shape = _
        rw [sumAxis_shape t i s hs, ht,
          show i + 1 - (src.length - like.length) =
            (i - (src.length - like.length)) + 1 from by omega,
          eraseIdx_inv src like i
            (like.drop ((i - (src.length - like.length)) + 1)) hilt]
        exact shape_inv_insert src like i (src.length - like.length) hilt
          hik rfl hm hb1

theorem bcCompat_spec (src target : List Nat) (h : bcCompat src target = true) :
    src.length ≤ target.length ∧
      ∀ j, j < src.length →
        src.getD j 0 = target.getD (j + (target.length - src.length)) 0 ∨
          src.getD j 0 = 1 := by
  rw [bcCompat, Bool.and_eq_true] at h
  obtain ⟨h1, h2⟩ := h
  have hm : src.length ≤ target.length := of_decide_eq_true h1
  refine ⟨hm, ?_⟩
  intro j hj
  rw [List.all_eq_true] at h2
  have hj1 : src.reverse[src.length - 1 - j]? = some (src.getD j 0) := by
    rw [List.getElem?_reverse (by omega),
      show src.length - 1 - (src.length - 1 - j) = j from by omega,
      List.getElem?_eq_getElem hj]
    simp [List.getD_eq_getElem?_getD, List.getElem?_eq_getElem hj]
  have hjt2 : j + (target.length - src.length) < target.length := by omega
  have hj2 : target.reverse[src.length - 1 - j]? =
      some (target.getD (j + (target.length - src.length)) 0) := by
    rw [List.getElem?_reverse (by omega),
      show target.length - 1 - (src.length - 1 - j) =
        j + (target.length - src.length) from by omega,
      List.getElem?_eq_getElem hjt2]
    simp [List.getD_eq_getElem?_getD, List.getElem?_eq_getElem hjt2]
  have hmem :
      (src.getD j 0, target.getD (j + (target.length - src.length)) 0)
        ∈ List.zip src.reverse target.reverse :=
    List.getElem?_mem (List.getElem?_zip_eq_some.mpr ⟨hj1, hj2⟩)
  have hp := h2 _ hmem
  rw [Bool.or_eq_true] at hp
  rcases hp with hp | hp
  · exact Or.inl (eq_of_beq hp)
  · exact Or.inr (eq_of_beq hp)

theorem reduceToLike_of_broadcast (x : Tensor) (target : List Nat)
    (y : Tensor) (h : x.broadcastTo target = some y) :
    ∃ r, reduceToLikeEval y x = some r ∧ r.shape = x.shape := by
  unfold Tensor.broadcastTo at h
  by_cases hc : bcCompat x.shape target = true
  · rw [if_pos hc] at h
    obtain ⟨hm, hcompat⟩ := bcCompat_spec x.shape target hc
    cases h
    have hy : (Tensor.ofFn target
        (fun idx => x.get (bcIdx x.shape target idx))).shape = target := rfl
    obtain ⟨r, hr⟩ := rrGoSuccess target x.shape hm
      (fun j hj => hcompat j hj) target.length (Nat.le_refl _)
      (Tensor.ofFn target (fun idx => x.get (bcIdx x.shape target idx)))
      (by
        rw [hy, List.take_length,
          show target.length - (target.length - x.shape.length) =
            x.shape.length from by omega,
          List.drop_length]
        simp)
    have hred : reduceToLikeAmended
        (Tensor.ofFn target (fun idx => x.get (bcIdx x.shape target idx)))
        x = some r := by
      unfold reduceToLikeAmended reduceRule
      rw [if_neg (show ¬ (Tensor.ofFn target
          (fun idx => x.get (bcIdx x.shape target idx))).shape.length <
          x.shape.length from by
        rw [hy]
        omega)]
      exact hr
    refine ⟨r, ?_, ?_⟩
    · rw [reduceToLike_eq_amended]
      exact hred
    · exact reduceRule_shape _ _ x r (by
        unfold reduceToLikeAmended at hred
        exact hred)
  · rw [if_neg hc] at h
    cases h

theorem reshape_roundtrip (x : Tensor) (target : List Nat) (y : Tensor)
    (h : x.toShape target = some y) :
    ∃ r, y.toShape x.shape = some r ∧ r.shape = x.shape := by
  unfold Tensor.toShape at h ⊢
  by_cases hp : x.shape.prod = target.prod
  · rw [if_pos hp] at h
    cases h
    rw [if_pos (show (⟨target, x.data⟩ : Tensor).shape.prod =
      x.shape.prod from hp.symm)]
    exact ⟨_, rfl, rfl⟩
  · rw [if_neg hp] at h
    cases h

/-- C6: the backward shape transformation of each shape-changing primitive
applied to the forward result restores the input's shape exactly: for every
tensor x and every target shape x can broadcast to, ReduceToLike of
Broadcast(x, target) with x as the reference succeeds with exactly x's
shape, and for every reshape of x, ReshapeLike of Reshape(x, target) with x
as the reference succeeds with exactly x's shape. -/
theorem claim_C6 :
    (∀ (x : Tensor) (target : List Nat) (y : Tensor),
      x.broadcastTo target = some y →
      ∃ r, reduceToLikeEval y x = some r ∧ r.shape = x.shape) ∧
    ∀ (x : Tensor) (target : List Nat) (y : Tensor),
      x.toShape target = some y →
      ∃ r, y.toShape x.shape = some r ∧ r.shape = x.shape :=
  ⟨reduceToLike_of_broadcast, reshape_roundtrip⟩

/-- Concrete instantiation of C6: broadcasting [5, 7] to the shape [2, 2]
and collapsing back, and reshaping [1, 2, 3, 4] to [4] and back. -/
theorem claim_C6_witness :
    (Tensor.broadcastTo ⟨[2], [5, 7]⟩ [2, 2] =
        some ⟨[2, 2], [5, 7, 5, 7]⟩ ∧
      ∃ r, reduceToLikeEval ⟨[2, 2], [5, 7, 5, 7]⟩ ⟨[2], [5, 7]⟩ = some r ∧
        r.shape = Tensor.shape ⟨[2], [5, 7]⟩) ∧
      Tensor.toShape ⟨[2, 2], [1, 2, 3, 4]⟩ [4] = some ⟨[4], [1, 2, 3, 4]⟩ ∧
      ∃ r, Tensor.toShape ⟨[4], [1, 2, 3, 4]⟩
          (Tensor.shape ⟨[2, 2], [1, 2, 3, 4]⟩) = some r ∧
        r.shape = Tensor.shape ⟨[2, 2], [1, 2, 3, 4]⟩ :=
  ⟨⟨by decide,
      claim_C6.1 ⟨[2], [5, 7]⟩ [2, 2] ⟨[2, 2], [5, 7, 5, 7]⟩ (by decide)⟩,
    by decide,
    claim_C6.2 ⟨[2, 2], [1, 2, 3, 4]⟩ [4] ⟨[4], [1, 2, 3, 4]⟩ (by decide)⟩

end Chainrule

namespace Chainrule

theorem idxOk_length {s idx : List Nat} (h : IdxOk s idx) :
    idx.length = s.length := List.Forall₂.length_eq h

theorem idxOk_prod_pos {s idx : List Nat} (h : IdxOk s idx) : 0 < s.prod := by
  induction h with
  | nil => simp
  | cons ha hf ih =>
    rw [List.prod_cons]
    exact Nat.mul_pos (by omega) ih

theorem flat_horner (s : List Nat) :
    ∀ (is_ : List Nat), is_.length = s.length → ∀ a : Nat,
      (s.zip is_).foldl (fun acc p => acc * p.1 + p.2) a =
        a * s.prod + (s.zip is_).foldl (fun acc p => acc * p.1 + p.2) 0 := by
  induction s with
  | nil =>
    intro is_ _ a
    simp
  | cons n s ih =>
    intro is_ hlen a
    cases is_ with
    | nil => simp at hlen
    | cons i is_ =>
      simp only [List.zip_cons_cons, List.foldl_cons]
      rw [ih is_ (by simpa using hlen) (a * n + i),
        ih is_ (by simpa using hlen) (0 * n + i), List.prod_cons]
      ring

theorem flatIndex_cons (n : Nat) (s : List Nat) (i : Nat) (is_ : List Nat)
    (hlen : is_.length = s.length) :
    flatIndex (n :: s) (i :: is_) = i * s.prod + flatIndex s is_ := by
  unfold flatIndex
  simp only [List.zip_cons_cons, List.foldl_cons]
  rw [flat_horner s is_ hlen (0 * n + i)]
  ring

theorem flatIndex_lt {s idx : List Nat} (h : IdxOk s idx) :
    flatIndex s idx < s.prod := by
  induction h with
  | nil =>
    simp [flatIndex]
  | @cons a b l1 l2 ha hf ih =>
    rw [flatIndex_cons _ _ _ _ (idxOk_length hf), List.prod_cons]
    have h1 : a * l2.prod + flatIndex l2 l1 < (a + 1) * l2.prod := by
      have h2 : (a + 1) * l2.prod = a * l2.prod + l2.prod := by ring
      omega
    have h3 : (a + 1) * l2.prod ≤ b * l2.prod :=
      Nat.mul_le_mul_right _ (by omega)
    omega

theorem decode_flatIndex {s idx : List Nat} (h : IdxOk s idx) :
    decode s (flatIndex s idx) = idx := by
  induction h with
  | nil => rfl
  | @cons a b l1 l2 ha hf ih =>
    have hpos : 0 < l2.prod := idxOk_prod_pos hf
    have hflt : flatIndex l2 l1 < l2.prod := flatIndex_lt hf
    rw [flatIndex_cons _ _ _ _ (idxOk_length hf)]
    show ((a * l2.prod + flatIndex l2 l1) / l2.prod) ::
      decode l2 ((a * l2.prod + flatIndex l2 l1) % l2.prod) = a :: l1
    have h1 : ∀ i2 p2 q2 : Nat, 0 < q2 → p2 < q2 →
        (i2 * q2 + p2) / q2 = i2 := by
      intro i2 p2 q2 hq hp
      rw [Nat.mul_comm, Nat.mul_add_div hq, Nat.div_eq_of_lt hp, Nat.add_zero]
    have h2 : ∀ i2 p2 q2 : Nat, p2 < q2 → (i2 * q2 + p2) % q2 = p2 := by
      intro i2 p2 q2 hp
      rw [Nat.mul_comm, Nat.mul_add_mod, Nat.mod_eq_of_lt hp]
    rw [h1 _ _ _ hpos hflt, h2 _ _ _ hflt, ih]

theorem decode_ok (s : List Nat) : ∀ p, p < s.prod → IdxOk s (decode s p) := by
  induction s with
  | nil =>
    intro p _
    exact List.Forall₂.nil
  | cons n s ih =>
    intro p h
    rw [List.prod_cons] at h
    have hpos : 0 < s.prod := by
      rcases Nat.eq_zero_or_pos s.prod with h0 | h0
      · rw [h0, Nat.mul_zero] at h
        omega
      · exact h0
    show IdxOk (n :: s) ((p / s.prod) :: decode s (p % s.prod))
    exact List.Forall₂.cons ((Nat.div_lt_iff_lt_mul hpos).mpr h)
      (ih _ (Nat.mod_lt _ hpos))

theorem ofFn_get (s : List Nat) (f : List Nat → ℚ) (idx : List Nat)
    (h : IdxOk s idx) : (Tensor.ofFn s f).get idx = f idx := by
  have hlt : flatIndex s idx < s.prod := flatIndex_lt h
  show ((List.range s.prod).map (fun p => f (decode s p))).getD
    (flatIndex s idx) 0 = f idx
  rw [List.getD_eq_getElem?_getD,
    List.getElem?_eq_getElem (by simpa using hlt)]
  simp [decode_flatIndex h]

theorem mapM_option_eq_some_map {α β : Type} (l : List α) (f : α → Option β)
    (g : α → β) (h : ∀ a ∈ l, f a = some (g a)) :
    l.mapM f = some (l.map g) := by
  induction l with
  | nil => rfl
  | cons a l ih =>
    rw [List.mapM_cons, h a (List.mem_cons_self a l),
      ih (fun b hb => h b (List.mem_cons_of_mem a hb))]
    rfl

theorem range_map_getD_rev (s : List Nat) :
    (List.range s.length).map (fun i => s.getD (s.length - (i + 1)) 1) =
      s.reverse := by
  apply List.ext_getElem
  · simp
  · intro i h1 h2
    have hi : i < s.length := by simpa using h2
    simp only [List.getElem_map, List.getElem_range, List.getElem_reverse]
    rw [List.getD_eq_getElem?_getD,
      show s.length - (i + 1) = s.length - 1 - i from by omega,
      List.getElem?_eq_getElem (by omega)]
    simp

theorem broadcastShapes_self (s : List Nat) : broadcastShapes s s = some s := by
  unfold broadcastShapes
  simp only [Nat.max_self]
  rw [mapM_option_eq_some_map _ _
      (fun i => s.getD (s.length - (i + 1)) 1) ?_,
    range_map_getD_rev]
  · simp
  · intro i hi
    rw [List.mem_range] at hi
    simp [show ¬ s.length < i + 1 from by omega]

theorem bcCompat_self (s : List Nat) : bcCompat s s = true := by
  rw [bcCompat, Bool.and_eq_true]
  refine ⟨by simp, ?_⟩
  rw [List.all_eq_true]
  intro p hp
  have hpq : p.1 = p.2 := by
    rw [List.mem_iff_getElem?] at hp
    obtain ⟨n, hn⟩ := hp
    rw [List.getElem?_zip_eq_some] at hn
    obtain ⟨h1, h2⟩ := hn
    rw [h1] at h2
    exact Option.some.inj h2
  rw [hpq]
  simp

theorem bcIdx_self {s idx : List Nat} (h : IdxOk s idx) : bcIdx s s idx = idx := by
  unfold bcIdx
  rw [Nat.sub_self, List.drop_zero]
  induction h with
  | nil => rfl
  | @cons a b l1 l2 ha hf ih =>
    rw [List.zipWith_cons_cons, ih]
    by_cases hb : b = 1
    · have ha0 : a = 0 := by omega
      rw [if_pos hb, ha0]
    · rw [if_neg hb]

theorem broadcastTo_self (t : Tensor) (s : List Nat) (hs : t.shape = s) :
    ∃ tb, t.broadcastTo s = some tb ∧ tb.shape = s ∧
      ∀ idx, IdxOk s idx → tb.get idx = t.get idx := by
  unfold Tensor.broadcastTo
  rw [hs, if_pos (bcCompat_self s)]
  refine ⟨_, rfl, rfl, ?_⟩
  intro idx hidx
  rw [ofFn_get s _ idx hidx, bcIdx_self hidx]

theorem ew_spec (f : ℚ → ℚ → ℚ) (x y : Tensor) (s : List Nat)
    (hx : x.shape = s) (hy : y.shape = s) :
    ∃ r, Tensor.ew f x y = some r ∧ r.shape = s ∧
      ∀ idx, IdxOk s idx → r.get idx = f (x.get idx) (y.get idx) := by
  obtain ⟨xb, hxb, hxbs, hxbg⟩ := broadcastTo_self x s hx
  obtain ⟨yb, hyb, hybs, hybg⟩ := broadcastTo_self y s hy
  have hew : Tensor.ew f x y =
      some (Tensor.ofFn s (fun idx => f (xb.get idx) (yb.get idx))) := by
    unfold Tensor.ew
    rw [hx, hy, broadcastShapes_self]
    show (x.broadcastTo s).bind (fun xb2 => (y.broadcastTo s).bind
      (fun yb2 => some (Tensor.ofFn s
        (fun idx => f (xb2.get idx) (yb2.get idx))))) = _
    rw [hxb]
    show (y.broadcastTo s).bind (fun yb2 => some (Tensor.ofFn s
      (fun idx => f (xb.get idx) (yb2.get idx)))) = _
    rw [hyb]
    rfl
  refine ⟨_, hew, rfl, ?_⟩
  intro idx hidx
  rw [ofFn_get s _ idx hidx, hxbg idx hidx, hybg idx hidx]

theorem ctxGet_insert_self (ctx : Context) (i : Id) (t : Tensor) :
    (ctx.insert i t).get i = some t := by
  show Context.get ((i, t) :: ctx) i = some t
  simp [Context.get]

theorem ctxGet_insert_other (ctx : Context) (i j : Id) (t : Tensor)
    (h : i ≠ j) : (ctx.insert j t).get i = ctx.get i := by
  show Context.get ((j, t) :: ctx) i = ctx.get i
  simp [Context.get, h]

theorem evalNodes_cons (sf : ScalarFns) (op : Op) (rest : List Op)
    (ctx : Context) :
    evalNodes sf (op :: rest) ctx = (op.eval sf ctx).bind (evalNodes sf rest) := by
  cases h : op.eval sf ctx with
  | none => simp [evalNodes, List.foldlM_cons, h]
  | some c2 => simp [evalNodes, List.foldlM_cons, h]

theorem accumChain (sf : ScalarFns) (s : List Nat) (x : Id) :
    ∀ (cs : List (Id × Tensor)) (g : Graph) (grads : GradMap) (ctx : Context)
      (cur : Id) (vcur : Tensor),
      g.freelist = [] →
      grads x = some cur →
      ctx.get cur = some vcur →
      vcur.shape = s →
      (∀ p ∈ cs, p.1 ≤ g.counter) →
      (∀ p ∈ cs, p.2.shape = s) →
      (∀ p ∈ cs, ctx.get p.1 = some p.2) →
      ∃ g2 grads2 gid adds ctx2 val,
        (cs.map (fun p => (x, p.1))).foldl accumStep (g, grads) = (g2, grads2) ∧
        g2.nodes = g.nodes ++ adds ∧ g2.freelist = [] ∧
        grads2 x = some gid ∧
        evalNodes sf adds ctx = some ctx2 ∧
        ctx2.get gid = some val ∧
        val.shape = s ∧
        ∀ idx, IdxOk s idx →
          val.get idx = vcur.get idx +
            (cs.map (fun p => p.2.get idx)).sum := by
  intro cs
  induction cs with
  | nil =>
    intro g grads ctx cur vcur hfl hx hcur hcs _ _ _
    exact ⟨g, grads, cur, [], ctx, vcur, rfl, by simp, hfl, hx, rfl, hcur, hcs,
      fun idx _ => by simp⟩
  | cons c rest ih =>
    intro g grads ctx cur vcur hfl hx hcur hvs hbound hshapes hget
    rcases g with ⟨ns, cnt, fl⟩
    simp only at hfl hbound
    subst hfl
    obtain ⟨z, hz, hzs, hzg⟩ := ew_spec (· + ·) vcur c.2 s hvs
      (hshapes c (List.mem_cons_self _ _))
    have heval : Op.eval sf (.add cur c.1 (cnt + 1)) ctx =
        some (ctx.insert (cnt + 1) z) := by
      simp [Op.eval, hcur, hget c (List.mem_cons_self _ _), hz]
    obtain ⟨g2, grads2, gid, adds, ctx2, val, hfold, hnodes, hfl2, hgid, hev,
      hctxval, hvalshape, hvalget⟩ :=
      ih ⟨ns ++ [.add cur c.1 (cnt + 1)], cnt + 1, []⟩ (grads.set x (cnt + 1))
        (ctx.insert (cnt + 1) z) (cnt + 1) z rfl (gradMap_set_self _ _ _)
        (ctxGet_insert_self _ _ _) hzs
        (fun p hp => Nat.le_succ_of_le (hbound p (List.mem_cons_of_mem _ hp)))
        (fun p hp => hshapes p (List.mem_cons_of_mem _ hp))
        (fun p hp => by
          rw [ctxGet_insert_other _ _ _ _
            (Nat.ne_of_lt (Nat.lt_succ_of_le
              (hbound p (List.mem_cons_of_mem _ hp))))]
          exact hget p (List.mem_cons_of_mem _ hp))
    refine ⟨g2, grads2, gid, (.add cur c.1 (cnt + 1)) :: adds, ctx2, val, ?_,
      ?_, hfl2, hgid, ?_, hctxval, hvalshape, ?_⟩
    · rw [List.map_cons, List.foldl_cons,
        accumStep_some ns cnt grads x c.1 cur hx]
      exact hfold
    · rw [hnodes]
      simp
    · rw [evalNodes_cons, heval]
      exact hev
    · intro idx hidx
      rw [hvalget idx hidx, hzg idx hidx]
      simp only [List.map_cons, List.sum_cons]
      ring

theorem accumTop (sf : ScalarFns) (s : List Nat) (x : Id)
    (cs : List (Id × Tensor)) (hne : cs ≠ [])
    (g : Graph) (hfl : g.freelist = [])
    (grads : GradMap) (hx : grads x = none)
    (ctx : Context)
    (hbound : ∀ p ∈ cs, p.1 ≤ g.counter)
    (hshapes : ∀ p ∈ cs, p.2.shape = s)
    (hget : ∀ p ∈ cs, ctx.get p.1 = some p.2) :
    ∃ g2 grads2 gid adds ctx2 val,
      (cs.map (fun p => (x, p.1))).foldl accumStep (g, grads) = (g2, grads2) ∧
      g2.nodes = g.nodes ++ adds ∧
      grads2 x = some gid ∧
      evalNodes sf adds ctx = some ctx2 ∧
      ctx2.get gid = some val ∧
      val.shape = s ∧
      ∀ idx, IdxOk s idx →
        val.get idx = (cs.map (fun p => p.2.get idx)).sum := by
  cases cs with
  | nil => exact absurd rfl hne
  | cons c rest =>
    obtain ⟨g2, grads2, gid, adds, ctx2, val, hfold, hnodes, _, hgid, hev,
      hctxval, hvs2, hvg⟩ :=
      accumChain sf s x rest g (grads.set x c.1) ctx c.1 c.2 hfl
        (gradMap_set_self _ _ _) (hget c (List.mem_cons_self _ _))
        (hshapes c (List.mem_cons_self _ _))
        (fun p hp => hbound p (List.mem_cons_of_mem _ hp))
        (fun p hp => hshapes p (List.mem_cons_of_mem _ hp))
        (fun p hp => hget p (List.mem_cons_of_mem _ hp))
    refine ⟨g2, grads2, gid, adds, ctx2, val, ?_, hnodes, hgid, hev, hctxval,
      hvs2, ?_⟩
    · rw [List.map_cons, List.foldl_cons, accumStep_none g grads x c.1 hx]
      exact hfold
    · intro idx hidx
      rw [hvg idx hidx]
      simp

/-- C3: in grad's backward walk, when an identifier x receives k gradient
contributions, the accumulation loop stores for x an identifier whose
evaluation (running the Add records the loop pushed) is the elementwise sum
of all k contribution values, and any permutation of the arrival order
yields the same values at every valid index. -/
theorem claim_C3 (sf : ScalarFns) (s : List Nat) (x : Id)
    (cs cs' : List (Id × Tensor)) (hperm : cs.Perm cs') (hne : cs ≠ [])
    (g : Graph) (hfl : g.freelist = [])
    (grads : GradMap) (hx : grads x = none)
    (ctx : Context)
    (hbound : ∀ p ∈ cs, p.1 ≤ g.counter)
    (hshapes : ∀ p ∈ cs, p.2.shape = s)
    (hget : ∀ p ∈ cs, ctx.get p.1 = some p.2) :
    ∃ g2 grads2 gid adds ctx2 val g2' grads2' gid' adds' ctx2' val',
      (cs.map (fun p => (x, p.1))).foldl accumStep (g, grads) = (g2, grads2) ∧
      g2.nodes = g.nodes ++ adds ∧ grads2 x = some gid ∧
      evalNodes sf adds ctx = some ctx2 ∧ ctx2.get gid = some val ∧
      val.shape = s ∧
      (∀ idx, IdxOk s idx →
        val.get idx = (cs.map (fun p => p.2.get idx)).sum) ∧
      (cs'.map (fun p => (x, p.1))).foldl accumStep (g, grads) =
        (g2', grads2') ∧
      g2'.nodes = g.nodes ++ adds' ∧ grads2' x = some gid' ∧
      evalNodes sf adds' ctx = some ctx2' ∧ ctx2'.get gid' = some val' ∧
      val'.shape = s ∧
      (∀ idx, IdxOk s idx →
        val'.get idx = (cs'.map (fun p => p.2.get idx)).sum) ∧
      ∀ idx, IdxOk s idx → val.get idx = val'.get idx := by
  obtain ⟨g2, grads2, gid, adds, ctx2, val, hfold, hnodes, hgid, hev, hctxval,
    hvs2, hvg⟩ := accumTop sf s x cs hne g hfl grads hx ctx hbound hshapes hget
  obtain ⟨g2', grads2', gid', adds', ctx2', val', hfold', hnodes', hgid',
    hev', hctxval', hvs2', hvg'⟩ :=
    accumTop sf s x cs' (fun h => hne (List.Perm.eq_nil (h ▸ hperm)))
      g hfl grads hx ctx
      (fun p hp => hbound p (hperm.mem_iff.mpr hp))
      (fun p hp => hshapes p (hperm.mem_iff.mpr hp))
      (fun p hp => hget p (hperm.mem_iff.mpr hp))
  refine ⟨g2, grads2, gid, adds, ctx2, val, g2', grads2', gid', adds', ctx2',
    val', hfold, hnodes, hgid, hev, hctxval, hvs2, hvg, hfold', hnodes',
    hgid', hev', hctxval', hvs2', hvg', ?_⟩
  intro idx hidx
  rw [hvg idx hidx, hvg' idx hidx]
  exact (hperm.map (fun p => p.2.get idx)).sum_eq

end Chainrule

namespace Chainrule

/-- Concrete instantiation of C3: two scalar contributions 3 and 4 for
identifier 1 arriving in either order accumulate to 7. -/
theorem claim_C3_witness :
    ([((2 : Id), (⟨[], [3]⟩ : Tensor)), (3, ⟨[], [4]⟩)]).Perm
        [((3 : Id), (⟨[], [4]⟩ : Tensor)), (2, ⟨[], [3]⟩)] ∧
    ([((2 : Id), (⟨[], [3]⟩ : Tensor)), (3, ⟨[], [4]⟩)] ≠ []) ∧
    Graph.freelist ⟨[], 5, []⟩ = [] ∧
    GradMap.empty 1 = none ∧
    (∀ p ∈ [((2 : Id), (⟨[], [3]⟩ : Tensor)), (3, ⟨[], [4]⟩)],
      p.1 ≤ Graph.counter ⟨[], 5, []⟩) ∧
    (∀ p ∈ [((2 : Id), (⟨[], [3]⟩ : Tensor)), (3, ⟨[], [4]⟩)],
      p.2.shape = []) ∧
    (∀ p ∈ [((2 : Id), (⟨[], [3]⟩ : Tensor)), (3, ⟨[], [4]⟩)],
      Context.get [(2, ⟨[], [3]⟩), (3, ⟨[], [4]⟩)] p.1 = some p.2) ∧
    ∃ g2 grads2 gid adds ctx2 val g2' grads2' gid' adds' ctx2' val',
      (([((2 : Id), (⟨[], [3]⟩ : Tensor)), (3, ⟨[], [4]⟩)]).map
          (fun p => ((1 : Id), p.1))).foldl accumStep
        (⟨[], 5, []⟩, GradMap.empty) = (g2, grads2) ∧
      g2.nodes = Graph.nodes ⟨[], 5, []⟩ ++ adds ∧ grads2 1 = some gid ∧
      evalNodes sfId adds [(2, ⟨[], [3]⟩), (3, ⟨[], [4]⟩)] = some ctx2 ∧
      ctx2.get gid = some val ∧
      val.shape = [] ∧
      (∀ idx, IdxOk [] idx →
        val.get idx = (([((2 : Id), (⟨[], [3]⟩ : Tensor)),
          (3, ⟨[], [4]⟩)]).map (fun p => p.2.get idx)).sum) ∧
      (([((3 : Id), (⟨[], [4]⟩ : Tensor)), (2, ⟨[], [3]⟩)]).map
          (fun p => ((1 : Id), p.1))).foldl accumStep
        (⟨[], 5, []⟩, GradMap.empty) = (g2', grads2') ∧
      g2'.nodes = Graph.nodes ⟨[], 5, []⟩ ++ adds' ∧ grads2' 1 = some gid' ∧
      evalNodes sfId adds' [(2, ⟨[], [3]⟩), (3, ⟨[], [4]⟩)] = some ctx2' ∧
      ctx2'.get gid' = some val' ∧
      val'.shape = [] ∧
      (∀ idx, IdxOk [] idx →
        val'.get idx = (([((3 : Id), (⟨[], [4]⟩ : Tensor)),
          (2, ⟨[], [3]⟩)]).map (fun p => p.2.get idx)).sum) ∧
      ∀ idx, IdxOk [] idx → val.get idx = val'.get idx :=
  ⟨List.Perm.swap ((3 : Id), (⟨[], [4]⟩ : Tensor)) ((2 : Id), (⟨[], [3]⟩ : Tensor)) [], by decide, rfl, rfl,
    by decide, by decide, by decide,
    claim_C3 sfId [] 1
      [((2 : Id), (⟨[], [3]⟩ : Tensor)), (3, ⟨[], [4]⟩)]
      [((3 : Id), (⟨[], [4]⟩ : Tensor)), (2, ⟨[], [3]⟩)]
      (List.Perm.swap ((3 : Id), (⟨[], [4]⟩ : Tensor)) ((2 : Id), (⟨[], [3]⟩ : Tensor)) []) (by decide)
      ⟨[], 5, []⟩ rfl GradMap.empty rfl
      [(2, ⟨[], [3]⟩), (3, ⟨[], [4]⟩)]
      (by decide) (by decide) (by decide)⟩

end Chainrule

namespace Chainrule

theorem bind_eq_some2 {α β : Type} {o : Option α} {f : α → Option β} {b : β}
    (h : o.bind f = some b) : ∃ a, o = some a ∧ f a = some b := by
  cases o with
  | none => exact Option.noConfusion h
  | some a => exact ⟨a, rfl, h⟩

theorem evalCtx_cases (sf : ScalarFns) (op : Op) (ctx ctx2 : Context)
    (h : op.eval sf ctx = some ctx2) :
    ctx2 = ctx ∨ ∃ o t, ctx2 = ctx.insert o t ∧ o ∈ op.outputs := by
  cases op with
  | input o =>
    exact Or.inl (Option.some.inj h).symm
  | const v o =>
    exact Or.inr ⟨o, arr0 v, (Option.some.inj h).symm, by simp [Op.outputs]⟩
  | add l r o =>
    simp only [Op.eval] at h
    obtain ⟨a1, h1, h⟩ := bind_eq_some2 h
    obtain ⟨a2, h2, h⟩ := bind_eq_some2 h
    obtain ⟨a3, h3, h⟩ := bind_eq_some2 h
    exact Or.inr ⟨o, _, (Option.some.inj h).symm, by simp [Op.outputs]⟩
  | sub l r o =>
    simp only [Op.eval] at h
    obtain ⟨a1, h1, h⟩ := bind_eq_some2 h
    obtain ⟨a2, h2, h⟩ := bind_eq_some2 h
    obtain ⟨a3, h3, h⟩ := bind_eq_some2 h
    exact Or.inr ⟨o, _, (Option.some.inj h).symm, by simp [Op.outputs]⟩
  | mul l r o =>
    simp only [Op.eval] at h
    obtain ⟨a1, h1, h⟩ := bind_eq_some2 h
    obtain ⟨a2, h2, h⟩ := bind_eq_some2 h
    obtain ⟨a3, h3, h⟩ := bind_eq_some2 h
    exact Or.inr ⟨o, _, (Option.some.inj h).symm, by simp [Op.outputs]⟩
  | div l r o =>
    simp only [Op.eval] at h
    obtain ⟨a1, h1, h⟩ := bind_eq_some2 h
    obtain ⟨a2, h2, h⟩ := bind_eq_some2 h
    obtain ⟨a3, h3, h⟩ := bind_eq_some2 h
    exact Or.inr ⟨o, _, (Option.some.inj h).symm, by simp [Op.outputs]⟩
  | matmul l r o =>
    simp only [Op.eval] at h
    obtain ⟨a1, h1, h⟩ := bind_eq_some2 h
    obtain ⟨a2, h2, h⟩ := bind_eq_some2 h
    obtain ⟨a3, h3, h⟩ := bind_eq_some2 h
    exact Or.inr ⟨o, _, (Option.some.inj h).symm, by simp [Op.outputs]⟩
  | neg i o =>
    simp only [Op.eval] at h
    obtain ⟨a1, h1, h⟩ := bind_eq_some2 h
    exact Or.inr ⟨o, _, (Option.some.inj h).symm, by simp [Op.outputs]⟩
  | relu i o =>
    simp only [Op.eval] at h
    obtain ⟨a1, h1, h⟩ := bind_eq_some2 h
    exact Or.inr ⟨o, _, (Option.some.inj h).symm, by simp [Op.outputs]⟩
  | reluGradMask i o =>
    simp only [Op.eval] at h
    obtain ⟨a1, h1, h⟩ := bind_eq_some2 h
    exact Or.inr ⟨o, _, (Option.some.inj h).symm, by simp [Op.outputs]⟩
  | exp i o =>
    simp only [Op.eval] at h
    obtain ⟨a1, h1, h⟩ := bind_eq_some2 h
    exact Or.inr ⟨o, _, (Option.some.inj h).symm, by simp [Op.outputs]⟩
  | log i o =>
    simp only [Op.eval] at h
    obtain ⟨a1, h1, h⟩ := bind_eq_some2 h
    exact Or.inr ⟨o, _, (Option.some.inj h).symm, by simp [Op.outputs]⟩
  | transpose i o a1 a2 =>
    simp only [Op.eval] at h
    obtain ⟨a1, h1, h⟩ := bind_eq_some2 h
    obtain ⟨a2, h2, h⟩ := bind_eq_some2 h
    exact Or.inr ⟨o, _, (Option.some.inj h).symm, by simp [Op.outputs]⟩
  | reshape i o target =>
    simp only [Op.eval] at h
    obtain ⟨a1, h1, h⟩ := bind_eq_some2 h
    obtain ⟨a2, h2, h⟩ := bind_eq_some2 h
    exact Or.inr ⟨o, _, (Option.some.inj h).symm, by simp [Op.outputs]⟩
  | broadcast i o target =>
    simp only [Op.eval] at h
    obtain ⟨a1, h1, h⟩ := bind_eq_some2 h
    obtain ⟨a2, h2, h⟩ := bind_eq_some2 h
    exact Or.inr ⟨o, _, (Option.some.inj h).symm, by simp [Op.outputs]⟩
  | reshapeForBroadcast i o axis kd =>
    simp only [Op.eval] at h
    obtain ⟨a1, h1, h⟩ := bind_eq_some2 h
    obtain ⟨a2, h2, h⟩ := bind_eq_some2 h
    exact Or.inr ⟨o, _, (Option.some.inj h).symm, by simp [Op.outputs]⟩
  | reshapeLike i o lk =>
    simp only [Op.eval] at h
    obtain ⟨a1, h1, h⟩ := bind_eq_some2 h
    obtain ⟨a2, h2, h⟩ := bind_eq_some2 h
    obtain ⟨a3, h3, h⟩ := bind_eq_some2 h
    exact Or.inr ⟨o, _, (Option.some.inj h).symm, by simp [Op.outputs]⟩
  | broadcastLike i lk o =>
    simp only [Op.eval] at h
    obtain ⟨a1, h1, h⟩ := bind_eq_some2 h
    obtain ⟨a2, h2, h⟩ := bind_eq_some2 h
    obtain ⟨a3, h3, h⟩ := bind_eq_some2 h
    exact Or.inr ⟨o, _, (Option.some.inj h).symm, by simp [Op.outputs]⟩
  | reduceToLike i lk o =>
    simp only [Op.eval] at h
    obtain ⟨a1, h1, h⟩ := bind_eq_some2 h
    obtain ⟨a2, h2, h⟩ := bind_eq_some2 h
    obtain ⟨a3, h3, h⟩ := bind_eq_some2 h
    exact Or.inr ⟨o, _, (Option.some.inj h).symm, by simp [Op.outputs]⟩
  | mean i o axis kd =>
    simp only [Op.eval] at h
    obtain ⟨a1, h1, h⟩ := bind_eq_some2 h
    obtain ⟨a2, h2, h⟩ := bind_eq_some2 h
    obtain ⟨a3, h3, h⟩ := bind_eq_some2 h
    exact Or.inr ⟨o, _, (Option.some.inj h).symm, by simp [Op.outputs]⟩
  | max i o axis kd =>
    simp only [Op.eval] at h
    obtain ⟨a1, h1, h⟩ := bind_eq_some2 h
    obtain ⟨a2, h2, h⟩ := bind_eq_some2 h
    exact Or.inr ⟨o, _, (Option.some.inj h).symm, by simp [Op.outputs]⟩
  | sum i o axis kd =>
    simp only [Op.eval] at h
    obtain ⟨a1, h1, h⟩ := bind_eq_some2 h
    try simp only [] at h
    split at h
    · exact Or.inr ⟨o, _, (Option.some.inj h).symm, by simp [Op.outputs]⟩
    · obtain ⟨a2, h2, h⟩ := bind_eq_some2 h
      exact Or.inr ⟨o, _, (Option.some.inj h).symm, by simp [Op.outputs]⟩
  | transposeDefault i o =>
    simp only [Op.eval] at h
    obtain ⟨a1, h1, h⟩ := bind_eq_some2 h
    try simp only [] at h
    split at h
    · obtain ⟨a2, h2, h⟩ := bind_eq_some2 h
      exact Or.inr ⟨o, _, (Option.some.inj h).symm, by simp [Op.outputs]⟩
    · exact Or.inr ⟨o, _, (Option.some.inj h).symm, by simp [Op.outputs]⟩
  | maxGradMask xv yv o =>
    simp only [Op.eval] at h
    obtain ⟨a1, h1, h⟩ := bind_eq_some2 h
    obtain ⟨a2, h2, h⟩ := bind_eq_some2 h
    try simp only [] at h
    split at h
    · exact Or.inr ⟨o, _, (Option.some.inj h).symm, by simp [Op.outputs]⟩
    · exact Option.noConfusion h

theorem eval_preserve (sf : ScalarFns) (op : Op) (ctx ctx2 : Context)
    (h : op.eval sf ctx = some ctx2) (i : Id) (hi : i ∉ op.outputs) :
    ctx2.get i = ctx.get i := by
  rcases evalCtx_cases sf op ctx ctx2 h with h1 | ⟨o, t, h1, ho⟩
  · rw [h1]
  · subst h1
    exact ctxGet_insert_other _ _ _ _ (fun he => hi (by rw [he]; exact ho))

theorem evalNodes_preserve (sf : ScalarFns) (nodes : List Op) :
    ∀ (ctx ctx2 : Context), evalNodes sf nodes ctx = some ctx2 →
      ∀ i : Id, (∀ op ∈ nodes, i ∉ op.outputs) → ctx2.get i = ctx.get i := by
  induction nodes with
  | nil =>
    intro ctx ctx2 h i _
    cases h
    rfl
  | cons op rest ih =>
    intro ctx ctx2 h i hi
    rw [evalNodes_cons] at h
    cases he : op.eval sf ctx with
    | none =>
      rw [he] at h
      cases h
    | some cmid =>
      rw [he] at h
      rw [ih cmid ctx2 h i (fun op2 h2 => hi op2 (List.mem_cons_of_mem _ h2)),
        eval_preserve sf op ctx cmid he i (hi op (List.mem_cons_self _ _))]

theorem evalNodes_append (sf : ScalarFns) (l1 l2 : List Op) (ctx : Context) :
    evalNodes sf (l1 ++ l2) ctx =
      (evalNodes sf l1 ctx).bind (evalNodes sf l2) := by
  show List.foldlM _ _ _ = _
  rw [List.foldlM_append]
  cases h : evalNodes sf l1 ctx with
  | none =>
    show (evalNodes sf l1 ctx).bind _ = _
    rw [h]
    rfl
  | some cmid =>
    show (evalNodes sf l1 ctx).bind _ = _
    rw [h]
    rfl

theorem mapM_get {α β : Type} (f : α → Option β) :
    ∀ (l : List α) (r : List β), l.mapM f = some r →
      ∀ (i : Nat) (x : α), l[i]? = some x → ∃ y, f x = some y ∧ r[i]? = some y := by
  intro l
  induction l with
  | nil =>
    intro r h i x hi
    simp at hi
  | cons a l ih =>
    intro r h i x hi
    rw [List.mapM_cons] at h
    cases hfa : f a with
    | none =>
      rw [hfa] at h
      exact Option.noConfusion h
    | some y =>
      rw [hfa] at h
      cases hml : l.mapM f with
      | none =>
        rw [hml] at h
        exact Option.noConfusion h
      | some ys =>
        rw [hml] at h
        have hr : y :: ys = r := Option.some.inj h
        subst hr
        cases i with
        | zero =>
          rw [List.getElem?_cons_zero] at hi
          cases hi
          exact ⟨y, hfa, by simp⟩
        | succ j =>
          rw [List.getElem?_cons_succ] at hi
          obtain ⟨y2, hfy2, hys2⟩ := ih ys hml j x hi
          exact ⟨y2, hfy2, by rw [List.getElem?_cons_succ]; exact hys2⟩

theorem influences_snapshot (ns : List Op) (c : Nat) (fo sid seed : Id)
    (hbelow : IdsBelow ns c) (hsid : c < sid)
    (axis : List Nat) (kd : Bool) (v : ℚ) :
    ∀ x z, Influences (ns ++ [mkSum fo sid axis kd, .const v seed]) x z →
      x ≤ c → z = sid → Influences ns x fo := by
  intro x z h
  induction h with
  | refl y =>
    intro hxc hz
    subst hz
    exact absurd hxc (Nat.not_le.mpr hsid)
  | @step x2 y z2 op hop hx hy hrec ih =>
    intro hxc hz
    rcases List.mem_append.mp hop with hop2 | hop2
    · have hyc : y ≤ c := hbelow op hop2 y (Or.inr hy)
      exact Influences.step x2 y fo op hop2 hx hy (ih hyc hz)
    · simp only [List.mem_cons, List.not_mem_nil, or_false] at hop2
      rcases hop2 with rfl | rfl
      · simp only [mkSum, Op.inputs, List.mem_singleton] at hx
        subst hx
        exact Influences.refl x2
      · simp [Op.inputs] at hx

theorem not_influences (ns : List Op) (x z : Id) (hne : x ≠ z)
    (hnc : ∀ op ∈ ns, x ∉ op.inputs) : ¬ Influences ns x z := by
  intro h
  cases h with
  | refl => exact hne rfl
  | @step xx y zz op hop hx hy hrec => exact hnc op hop hx

theorem gradOuts_walk (grads : GradMap) :
    ∀ (ins : List Id) (acc : List Id) (g : Graph),
      g.freelist = [] →
      ∃ more g2, ins.foldl (gradOutStep grads) (acc, g) = (acc ++ more, g2) ∧
        (∃ ext, g2.nodes = g.nodes ++ ext ∧
          ∀ op ∈ ext, ∀ oid, oid ∈ op.outputs → g.counter < oid) ∧
        g2.freelist = [] := by
  intro ins
  induction ins with
  | nil =>
    intro acc g hfl
    exact ⟨[], g, by simp, ⟨[], by simp, by simp⟩, hfl⟩
  | cons i rest ih =>
    intro acc g hfl
    rw [List.foldl_cons]
    cases hgi : grads i with
    | some gi =>
      rw [show gradOutStep grads (acc, g) i = (acc ++ [gi], g) from by
        simp [gradOutStep, hgi]]
      obtain ⟨more, g2, hfold, hext, hfl2⟩ := ih (acc ++ [gi]) g hfl
      refine ⟨[gi] ++ more, g2, ?_, hext, hfl2⟩
      rw [hfold]
      simp
    | none =>
      rcases g with ⟨ns, cnt, fl⟩
      simp only at hfl
      subst hfl
      rw [show gradOutStep grads (acc, ⟨ns, cnt, []⟩) i =
          (acc ++ [cnt + 1], ⟨ns ++ [.const 0 (cnt + 1)], cnt + 1, []⟩) from by
        simp [gradOutStep, hgi, Graph.fresh, Graph.push]]
      obtain ⟨more, g2, hfold, ⟨ext, hext, hbig⟩, hfl2⟩ :=
        ih (acc ++ [cnt + 1]) ⟨ns ++ [.const 0 (cnt + 1)], cnt + 1, []⟩ rfl
      refine ⟨[cnt + 1] ++ more, g2, ?_, ⟨.const 0 (cnt + 1) :: ext, ?_, ?_⟩,
        hfl2⟩
      · rw [hfold]
        simp
      · rw [hext]
        simp
      · intro op hop oid hoid
        rcases List.mem_cons.mp hop with rfl | hop2
        · simp only [Op.outputs, List.mem_singleton] at hoid
          subst hoid
          exact Nat.lt_succ_self cnt
        · have hb2 := hbig op hop2 oid hoid
          simp only at hb2
          exact Nat.lt_of_succ_lt hb2

theorem gradOuts_unused (grads : GradMap) (x : Id) (hgx : grads x = none) :
    ∀ (ins : List Id) (idx : Nat) (acc : List Id) (g : Graph),
      g.freelist = [] → ins[idx]? = some x →
      ∃ outs g2 z pre post,
        ins.foldl (gradOutStep grads) (acc, g) = (outs, g2) ∧
        outs[acc.length + idx]? = some z ∧
        g2.nodes = g.nodes ++ pre ++ .const 0 z :: post ∧
        (∀ op ∈ post, z ∉ op.outputs) ∧
        g2.freelist = [] := by
  intro ins
  induction ins with
  | nil =>
    intro idx acc g _ hi
    simp at hi
  | cons i rest ih =>
    intro idx acc g hfl hi
    cases idx with
    | zero =>
      rw [List.getElem?_cons_zero] at hi
      cases hi
      rcases g with ⟨ns, cnt, fl⟩
      simp only at hfl
      subst hfl
      rw [List.foldl_cons,
        show gradOutStep grads (acc, ⟨ns, cnt, []⟩) x =
          (acc ++ [cnt + 1], ⟨ns ++ [.const 0 (cnt + 1)], cnt + 1, []⟩) from by
          simp [gradOutStep, hgx, Graph.fresh, Graph.push]]
      obtain ⟨more, g2, hfold, ⟨ext, hext, hbig⟩, hfl2⟩ :=
        gradOuts_walk grads rest (acc ++ [cnt + 1])
          ⟨ns ++ [.const 0 (cnt + 1)], cnt + 1, []⟩ rfl
      refine ⟨(acc ++ [cnt + 1]) ++ more, g2, cnt + 1, [], ext, hfold, ?_, ?_,
        ?_, hfl2⟩
      · have houtidx : ((acc ++ [cnt + 1]) ++ more)[acc.length]? =
            some (cnt + 1) := by
          rw [List.getElem?_append_left
            (show acc.length < (acc ++ [cnt + 1]).length from by
              rw [List.length_append, List.length_singleton]
              omega)]
          rw [List.getElem?_append_right (Nat.le_refl acc.length),
            Nat.sub_self]
          rfl
        rw [Nat.add_zero]
        exact houtidx
      · rw [hext]
        simp
      · intro op hop hoid
        have hb2 := hbig op hop (cnt + 1) hoid
        simp only at hb2
        exact Nat.lt_irrefl _ hb2
    | succ j =>
      rw [List.getElem?_cons_succ] at hi
      rw [List.foldl_cons]
      cases hgi : grads i with
      | some gi =>
        rw [show gradOutStep grads (acc, g) i = (acc ++ [gi], g) from by
          simp [gradOutStep, hgi]]
        obtain ⟨outs, g2, z, pre, post, hfold, hz, hn, hp, hfl2⟩ :=
          ih j (acc ++ [gi]) g hfl hi
        refine ⟨outs, g2, z, pre, post, hfold, ?_, hn, hp, hfl2⟩
        rw [show acc.length + (j + 1) = (acc ++ [gi]).length + j from by
          rw [List.length_append, List.length_singleton]
          omega]
        exact hz
      | none =>
        rcases g with ⟨ns, cnt, fl⟩
        simp only at hfl
        subst hfl
        rw [show gradOutStep grads (acc, ⟨ns, cnt, []⟩) i =
            (acc ++ [cnt + 1], ⟨ns ++ [.const 0 (cnt + 1)], cnt + 1, []⟩) from by
            simp [gradOutStep, hgi, Graph.fresh, Graph.push]]
        obtain ⟨outs, g2, z, pre, post, hfold, hz, hn, hp, hfl2⟩ :=
          ih j (acc ++ [cnt + 1]) ⟨ns ++ [.const 0 (cnt + 1)], cnt + 1, []⟩
            rfl hi
        refine ⟨outs, g2, z, .const 0 (cnt + 1) :: pre, post, hfold, ?_, ?_,
          hp, hfl2⟩
        · rw [show acc.length + (j + 1) = (acc ++ [cnt + 1]).length + j from by
            rw [List.length_append, List.length_singleton]
            omega]
          exact hz
        · rw [hn]
          simp

/-- C4 (amended): if a declared input does not influence the declared
output, then grad succeeds and the corresponding output of the returned
function evaluates, in every successful run, to the 0-dimensional zero
constant arr0 0 (identically zero) rather than to an input-shaped zero
tensor. -/
theorem claim_C4 (b : Builder) (hb : b.ok) (idx : Nat) (x fo : Id)
    (hx : (traceFn b).inputs[idx]? = some x)
    (hfo : (traceFn b).outputs = [fo])
    (hninf : ¬ Influences (traceFn b).graph.nodes x fo) :
    ∃ F, (traceFn b).grad = some F ∧ F.inputs = (traceFn b).inputs ∧
      ∃ z, F.outputs[idx]? = some z ∧
        (∀ sf args vals, F.run sf args = some vals →
          vals[idx]? = some (arr0 0)) ∧
        (arr0 0).shape = [] ∧ (arr0 0).data = [0] := by
  obtain ⟨hwf, hfl, hbelow, hins, houts⟩ := traceFn_good b hb
  have hpre : gradPrelude (traceFn b) fo [] =
      (⟨(traceFn b).graph.nodes ++
          [mkSum fo ((traceFn b).graph.counter + 1) [] false,
            .const 1 ((traceFn b).graph.counter + 2)],
        (traceFn b).graph.counter + 2, []⟩,
        (traceFn b).graph.counter + 1, (traceFn b).graph.counter + 2) := by
    rcases hG : (traceFn b).graph with ⟨ns, c, fl⟩
    rw [hG] at hfl
    simp only at hfl
    subst hfl
    show gradPrelude ⟨(traceFn b).graph, (traceFn b).inputs,
      (traceFn b).outputs⟩ fo [] = _
    rw [hG]
    simp [gradPrelude, Graph.fresh, Graph.push]
  obtain ⟨g5, sid, seed, hpre2, _, hfl5, hb5, hwf5, hdseed, hc5, hsid,
    hseedgt, hseedc⟩ :=
    gradPrelude_good (traceFn b) fo [] hwf hfl hbelow
      (houts fo (by rw [hfo]; exact List.mem_singleton_self _))
      (fun o ho => absurd ho (List.not_mem_nil o))
  have hcomb := hpre2.symm.trans hpre
  have hg5 : g5 = ⟨(traceFn b).graph.nodes ++
      [mkSum fo ((traceFn b).graph.counter + 1) [] false,
        .const 1 ((traceFn b).graph.counter + 2)],
      (traceFn b).graph.counter + 2, []⟩ := congrArg Prod.fst hcomb
  have hsc : sid = (traceFn b).graph.counter + 1 :=
    congrArg (fun p => p.2.1) hcomb
  have hg5nodes : g5.nodes = (traceFn b).graph.nodes ++
      [mkSum fo sid [] false, .const 1 seed] := by
    rw [hg5, ← hsc,
      show seed = (traceFn b).graph.counter + 2 from
        congrArg (fun p => p.2.2) hcomb]
  have hinv0 : WalkInv g5.nodes sid (g5, GradMap.empty.set sid seed) := by
    refine ⟨hfl5, hb5, hwf5, ⟨[], by simp⟩, ?_, ?_⟩
    · intro k v hv
      simp only at hv ⊢
      by_cases hk : k = sid
      · subst hk
        rw [gradMap_set_self] at hv
        cases hv
        exact hdseed
      · rw [gradMap_set_other _ _ _ _ hk] at hv
        simp [GradMap.empty] at hv
    · intro k v hv
      simp only at hv
      by_cases hk : k = sid
      · subst hk
        exact Influences.refl k
      · rw [gradMap_set_other _ _ _ _ hk] at hv
        simp [GradMap.empty] at hv
  rcases hW : gradWalk g5.nodes g5 (GradMap.empty.set sid seed) with
    ⟨gw, grads2⟩
  have hwalk := gradWalk_inv g5.nodes sid g5 (GradMap.empty.set sid seed) hinv0
  rw [hW] at hwalk
  obtain ⟨hflW, hbW, hwfW, ⟨extW, hextW⟩, hvalsW, hkeysW⟩ := hwalk
  simp only at hflW hbW hwfW hextW hvalsW hkeysW
  have hxc : x ≤ (traceFn b).graph.counter := by
    obtain ⟨op, hop, hout⟩ := hins x (List.getElem?_mem hx)
    exact hbelow op hop x (Or.inr hout)
  have hg2x : grads2 x = none := by
    cases hv : grads2 x with
    | none => rfl
    | some v =>
      have hinfl := hkeysW x v hv
      rw [hg5nodes] at hinfl
      exact absurd (influences_snapshot (traceFn b).graph.nodes
        (traceFn b).graph.counter fo sid seed hbelow
        (by rw [hsc]; exact Nat.lt_succ_self _) [] false 1 x sid hinfl hxc
        rfl) hninf
  obtain ⟨outs, g3, z, pre, post, hfold, hz, hnodes3, hpost, hfl3⟩ :=
    gradOuts_unused grads2 x hg2x (traceFn b).inputs idx [] gw hflW hx
  simp only [List.length_nil, Nat.zero_add] at hz
  have hgradeq : (traceFn b).grad = some ⟨g3, (traceFn b).inputs, outs⟩ := by
    rw [grad_eq (traceFn b) fo [] hfo, hpre2]
    simp only
    rw [hW]
    simp only
    rw [show gradOuts (traceFn b).inputs gw grads2 = (outs, g3) from hfold]
  refine ⟨⟨g3, (traceFn b).inputs, outs⟩, hgradeq, rfl, z, hz, ?_, rfl, rfl⟩
  intro sf args vals hrun
  have hrun2 : (evalNodes sf g3.nodes
      (((traceFn b).inputs.zip args).foldl
        (fun (c : Context) p => c.insert p.1 p.2) Context.new)).bind
      (fun c2 => outs.mapM (fun i => c2.get i)) = some vals := hrun
  cases hev : evalNodes sf g3.nodes
      (((traceFn b).inputs.zip args).foldl
        (fun (c : Context) p => c.insert p.1 p.2) Context.new) with
  | none =>
    rw [hev] at hrun2
    cases hrun2
  | some ctx2 =>
    rw [hev] at hrun2
    have hmap : outs.mapM (fun i => ctx2.get i) = some vals := hrun2
    have hctxz : ctx2.get z = some (arr0 0) := by
      rw [show g3.nodes = (gw.nodes ++ pre) ++ (.const 0 z :: post) from by
        rw [hnodes3]] at hev
      rw [evalNodes_append] at hev
      cases hA : evalNodes sf (gw.nodes ++ pre)
          (((traceFn b).inputs.zip args).foldl
            (fun (c : Context) p => c.insert p.1 p.2) Context.new) with
      | none =>
        rw [hA] at hev
        cases hev
      | some cA =>
        rw [hA] at hev
        have hev2 : evalNodes sf (.const 0 z :: post) cA = some ctx2 := hev
        rw [evalNodes_cons,
          show Op.eval sf (.const 0 z) cA = some (cA.insert z (arr0 0)) from
            rfl] at hev2
        have hev3 : evalNodes sf post (cA.insert z (arr0 0)) = some ctx2 :=
          hev2
        rw [evalNodes_preserve sf post _ ctx2 hev3 z hpost,
          ctxGet_insert_self]
    obtain ⟨y, hy, hvy⟩ := mapM_get (fun i => ctx2.get i) outs vals hmap idx
      z hz
    rw [hctxz] at hy
    cases hy
    exact hvy

/-- Concrete instantiation of C4's amended statement: the unused first
input of f(x, y) = sum(y*y) receives the 0-dimensional zero gradient in
every successful run of grad. -/
theorem claim_C4_witness :
    bUnused.ok ∧
    (traceFn bUnused).inputs[0]? = some 1 ∧
    (traceFn bUnused).outputs = [4] ∧
    (¬ Influences (traceFn bUnused).graph.nodes 1 4) ∧
    ∃ F, (traceFn bUnused).grad = some F ∧
      F.inputs = (traceFn bUnused).inputs ∧
      ∃ z, F.outputs[0]? = some z ∧
        (∀ sf args vals, F.run sf args = some vals →
          vals[0]? = some (arr0 0)) ∧
        (arr0 0).shape = [] ∧ (arr0 0).data = [0] :=
  ⟨by unfold Builder.ok; decide, by decide, by decide,
    not_influences _ 1 4 (by decide) (by decide),
    claim_C4 bUnused (by unfold Builder.ok; decide) 0 1 4 (by decide)
      (by decide) (not_influences _ 1 4 (by decide) (by decide))⟩

end Chainrule
